import Mathlib

/-!
Verification development for the OxidArt compressed adaptive radix tree
(`src/lib.rs`, `src/node_childs.rs`).

Modelling conventions (shallow embedding):
* Key bytes are `Nat` (the code restricts keys to 7-bit ASCII via a debug
  assertion only; the model places no restriction, matching release builds).
* Values (`bytes::Bytes`) are opaque to the engine; they are modelled as `Nat`.
* `slab::Slab` is modelled as a list of optional slots.  `insert` returns a
  vacant slot (the real crate reuses holes through a free list; only the
  vacancy of the returned index is relied upon, so the model picks the first
  vacant slot deterministically).
* `u32` indices are `Nat` (index arithmetic never overflows in any scenario
  considered; the `u32::MAX` sentinel of `maybe_next_childs_idx` is modelled
  as `Option Nat` = `none`).
* Panics (failed `assert!`, out-of-bounds indexing, `expect`, `slab::remove`
  on a vacant slot, `ArrayVec::push` on a full vector) are modelled by
  returning `none`: every mutating operation returns an `Option` state.
* The `versions` vector of `OxidArt` is write-only diagnostic bookkeeping
  (never read by any operation); it is omitted.
-/

namespace Oxid

/-- `node_childs.rs`: `CHILDS_SIZE = 10`. -/
def CHILDS_SIZE : Nat := 10

/-- `node_childs.rs`: `ASCII_MAX_CHAR = 127`. -/
def ASCII_MAX_CHAR : Nat := 127

/-- `node_childs.rs`: `HUGE_CHILDS_SIZE = ASCII_MAX_CHAR - CHILDS_SIZE` (= 117). -/
def HUGE_CHILDS_SIZE : Nat := ASCII_MAX_CHAR - CHILDS_SIZE

/-- `ArrayVec::swap_remove(pos)`: replace the element at `pos` by the last
element and pop the last element. -/
def listSwapRemove (l : List Nat) (pos : Nat) : List Nat :=
  (l.set pos (l.getLastD 0)).dropLast

/-- `ArrayVec::swap_remove` on a list of pairs. -/
def listSwapRemovePair (l : List (Nat × Nat)) (pos : Nat) : List (Nat × Nat) :=
  (l.set pos (l.getLastD (0, 0))).dropLast

/-- `node_childs.rs`: the inline (primary) child table.  `idxs` and `radixs`
are two parallel `ArrayVec<_, CHILDS_SIZE>`; `maybe_next_childs_idx : u32`
uses `u32::MAX` as a "no overflow table" sentinel, modelled as `Option Nat`. -/
structure Childs where
  idxs : List Nat
  radixs : List Nat
  maybe_next_childs_idx : Option Nat
  deriving DecidableEq, Repr

/-- `impl Default for Childs`. -/
def Childs.default : Childs := ⟨[], [], none⟩

namespace Childs

/-- `Childs::find`: position of the first matching radix in `radixs`, then the
index stored at that position in `idxs`. -/
def find (c : Childs) (radix : Nat) : Option Nat :=
  (c.radixs.findIdx? (· = radix)).bind fun i => c.idxs.get? i

/-- `Childs::is_full`: the primary region is saturated. -/
def is_full (c : Childs) : Bool := c.idxs.length = CHILDS_SIZE

/-- `Childs::is_empty`. -/
def is_empty (c : Childs) : Bool := c.idxs.isEmpty

/-- `Childs::push`: `assert!(!self.is_full())`, then push onto both arrays.
The failed assertion (a panic) is `none`. -/
def push (c : Childs) (radix idx : Nat) : Option Childs :=
  if c.is_full then none
  else some ⟨c.idxs ++ [idx], c.radixs ++ [radix], c.maybe_next_childs_idx⟩

/-- `Childs::remove`: swap-remove the entry with the given radix, if present;
returns the removed index and the updated table (unchanged when absent). -/
def remove (c : Childs) (radix : Nat) : Option Nat × Childs :=
  match c.radixs.findIdx? (· = radix) with
  | none => (none, c)
  | some pos =>
      (c.idxs.get? pos,
       ⟨listSwapRemove c.idxs pos, listSwapRemove c.radixs pos,
        c.maybe_next_childs_idx⟩)

/-- `Childs::get_next_idx`: the overflow-table index, unless the sentinel. -/
def get_next_idx (c : Childs) : Option Nat := c.maybe_next_childs_idx

/-- `Childs::set_new_childs`: `assert!(self.maybe_next_childs_idx == u32::MAX)`
then store the overflow-table index. -/
def set_new_childs (c : Childs) (idx : Nat) : Option Childs :=
  match c.maybe_next_childs_idx with
  | some _ => none
  | none => some ⟨c.idxs, c.radixs, some idx⟩

/-- `Childs::get_single_child`: the unique `(radix, idx)` iff the primary
region holds exactly one entry and no overflow table is attached. -/
def get_single_child (c : Childs) : Option (Nat × Nat) :=
  if c.idxs.length = 1 ∧ c.maybe_next_childs_idx = none then
    some (c.radixs.getD 0 0, c.idxs.getD 0 0)
  else none

/-- `Childs::iter`: zip of radixes and indices. -/
def iter (c : Childs) : List (Nat × Nat) := c.radixs.zip c.idxs

end Childs

/-- `node_childs.rs`: the overflow child table, an
`ArrayVec<HugeChildRegistry, HUGE_CHILDS_SIZE>` of (radix, idx) entries. -/
structure HugeChilds where
  entries : List (Nat × Nat)
  deriving DecidableEq, Repr

namespace HugeChilds

/-- `HugeChilds::new`: seeded with a single entry. -/
def new (radix idx : Nat) : HugeChilds := ⟨[(radix, idx)]⟩

/-- `HugeChilds::find`. -/
def find (h : HugeChilds) (radix : Nat) : Option Nat :=
  (h.entries.find? (·.1 = radix)).map (·.2)

/-- `HugeChilds::push`: `ArrayVec::push` panics when the vector is at
capacity (`HUGE_CHILDS_SIZE`); the panic is `none`. -/
def push (h : HugeChilds) (radix idx : Nat) : Option HugeChilds :=
  if h.entries.length = HUGE_CHILDS_SIZE then none
  else some ⟨h.entries ++ [(radix, idx)]⟩

/-- `HugeChilds::remove`: swap-remove the matching entry, if present. -/
def remove (h : HugeChilds) (radix : Nat) : Option Nat × HugeChilds :=
  match h.entries.findIdx? (·.1 = radix) with
  | none => (none, h)
  | some pos =>
      ((h.entries.get? pos).map (·.2), ⟨listSwapRemovePair h.entries pos⟩)

/-- `HugeChilds::is_empty`. -/
def is_empty (h : HugeChilds) : Bool := h.entries.isEmpty

end HugeChilds

/-- `lib.rs`: a tree node — compressed path fragment, optional value,
primary child table. -/
structure Node where
  compression : List Nat
  val : Option Nat
  childs : Childs
  deriving DecidableEq, Repr

/-- `#[derive(Default)] struct Node`. -/
def Node.default : Node := ⟨[], none, Childs.default⟩

/-- `lib.rs`: the outcome of comparing a node's compression against the
unconsumed tail of a key (`enum CompResult { Path, Final, Partial(usize) }`). -/
inductive CompResult where
  | Path : CompResult
  | Final : CompResult
  | Partial : Nat → CompResult
  deriving DecidableEq, Repr

namespace Node

/-- The loop inside `Node::get_common_len`: scan positions `i, i+1, ...`,
returning the first mismatch position.  `remaining` counts the positions
still to inspect (`len - i` in the Rust loop), so when it runs out `i = len`
and `len` is returned. -/
def common_loop (c k : List Nat) (i : Nat) : Nat → Nat
  | 0 => i
  | remaining + 1 =>
      if c.getD i 0 = k.getD i 0 then common_loop c k (i + 1) remaining else i

/-- `Node::get_common_len`: first mismatch position between the compression
and the key tail, up to the shorter length. -/
def get_common_len (n : Node) (key_rest : List Nat) : Nat :=
  common_loop n.compression key_rest 0
    (min n.compression.length key_rest.length)

/-- `Node::compare_compression_key`: classify the compression against the
unconsumed key tail (the traversal primitive of spec §4.3). -/
def compare_compression_key (n : Node) (key_rest : List Nat) : CompResult :=
  match compare n.compression.length key_rest.length with
  | Ordering.eq =>
      let common_len := n.get_common_len key_rest
      if common_len = key_rest.length then CompResult.Final
      else CompResult.Partial common_len
  | Ordering.gt => CompResult.Partial (n.get_common_len key_rest)
  | Ordering.lt =>
      let common_len := n.get_common_len key_rest
      if common_len = n.compression.length then CompResult.Path
      else CompResult.Partial common_len

/-- `Node::set_val`. -/
def set_val (n : Node) (v : Nat) : Node := { n with val := some v }

/-- `Node::get_huge_childs_idx`. -/
def get_huge_childs_idx (n : Node) : Option Nat := n.childs.get_next_idx

/-- `Node::new_leaf`. -/
def new_leaf (compression : List Nat) (v : Nat) : Node :=
  ⟨compression, some v, Childs.default⟩

end Node

/-- `slab::Slab`, as a list of optional slots. -/
structure Slab (α : Type) where
  entries : List (Option α)
  deriving DecidableEq, Repr

namespace Slab

/-- The empty slab (capacity hints of `Slab::with_capacity` are irrelevant). -/
def empty : Slab α := ⟨[]⟩

/-- `Slab::get`: the occupant of slot `i`, if any. -/
def get? (s : Slab α) (i : Nat) : Option α := s.entries.getD i none

/-- `Slab::insert`: store into a vacant slot and return its index.  The model
picks the first vacant slot (the crate reuses holes via a free list; callers
depend only on the returned slot having been vacant). -/
def insert (s : Slab α) (a : α) : Nat × Slab α :=
  match s.entries.findIdx? Option.isNone with
  | some i => (i, ⟨s.entries.set i (some a)⟩)
  | none => (s.entries.length, ⟨s.entries ++ [some a]⟩)

/-- `Slab::remove`, which panics (here: `none`) on a vacant slot: returns the
evicted occupant and the slab with the slot vacated. -/
def take (s : Slab α) (i : Nat) : Option (α × Slab α) :=
  match s.get? i with
  | none => none
  | some a => some (a, ⟨s.entries.set i none⟩)

/-- Vacate slot `i` (the effect of `Slab::remove` on the storage, for call
sites that hold the occupant already). -/
def removeAt (s : Slab α) (i : Nat) : Slab α := ⟨s.entries.set i none⟩

/-- Overwrite the occupant of slot `i` (the effect of writing through
`get_mut`). -/
def setAt (s : Slab α) (i : Nat) (a : α) : Slab α := ⟨s.entries.set i (some a)⟩

/-- Number of occupied slots. -/
def liveCount (s : Slab α) : Nat := s.entries.countP fun o => o.isSome

end Slab

/-- `lib.rs`: the engine — node arena, overflow-table arena, root index.
(The write-only `versions` vector is omitted.) -/
structure OxidArt where
  map : Slab Node
  child_list : Slab HugeChilds
  root_idx : Nat
  deriving DecidableEq, Repr

namespace OxidArt

/-- `OxidArt::new`: a fresh arena holding the default root node. -/
def new : OxidArt :=
  let p := Slab.empty.insert Node.default
  ⟨p.2, Slab.empty, p.1⟩

/-- `OxidArt::insert` (the `versions` bookkeeping is omitted). -/
def insertNode (t : OxidArt) (node : Node) : Nat × OxidArt :=
  let p := t.map.insert node
  (p.1, { t with map := p.2 })

/-- `OxidArt::try_get_node`. -/
def try_get_node (t : OxidArt) (idx : Nat) : Option Node := t.map.get? idx

/-- `OxidArt::find`: look the radix up in the node's primary table, then in
its overflow table if one is attached. -/
def find (t : OxidArt) (idx : Nat) (radix : Nat) : Option Nat := do
  let node ← t.try_get_node idx
  match node.childs.find radix with
  | some index => some index
  | none => do
      let next ← node.childs.get_next_idx
      let huge ← t.child_list.get? next
      huge.find radix

/-- `OxidArt::intiate_new_huge_child` (sic): allocate an overflow table
seeded with one entry. -/
def intiate_new_huge_child (t : OxidArt) (radix idx : Nat) : Nat × OxidArt :=
  let p := t.child_list.insert (HugeChilds.new radix idx)
  (p.1, { t with child_list := p.2 })

/-- The descent loop of `OxidArt::get`.  Each iteration consumes the decision
byte plus the compression of the child it descends into, so it terminates;
the model makes this structural through a fuel parameter that the caller
sets to more than the key length, which thus never reaches zero. -/
def get_loop (t : OxidArt) (fuel idx : Nat) (key : List Nat) : Option Nat :=
  match fuel, key with
  | _, [] => none
  | 0, _ :: _ => none
  | fuel + 1, b :: rest => do
      let cidx ← t.find idx b
      let node ← t.try_get_node cidx
      match node.compare_compression_key rest with
      | CompResult.Final => node.val
      | CompResult.Partial _ => none
      | CompResult.Path =>
          t.get_loop fuel cidx (rest.drop node.compression.length)

/-- `OxidArt::get`. -/
def get (t : OxidArt) (key : List Nat) : Option Nat :=
  if key.length = 0 then do
    let root ← t.try_get_node t.root_idx
    root.val
  else t.get_loop (key.length + 1) t.root_idx key

/-- `OxidArt::create_node_with_val`: insert a fresh leaf and attach it to
node `idx` under `radix` — into the primary region if it has room, else into
a newly allocated overflow table, else into the existing overflow table. -/
def create_node_with_val (t : OxidArt) (idx radix : Nat) (v : Nat)
    (compression : List Nat) : Option OxidArt := do
  let father ← t.try_get_node idx
  let isFull := father.childs.is_full
  let huge_child_idx := father.get_huge_childs_idx
  let new_leaf := Node.new_leaf compression v
  let p := t.insertNode new_leaf
  let inserted_idx := p.1
  let t := p.2
  match isFull, huge_child_idx with
  | false, _ => do
      let father ← t.try_get_node idx
      let cs ← father.childs.push radix inserted_idx
      some { t with map := t.map.setAt idx { father with childs := cs } }
  | true, none => do
      let q := t.intiate_new_huge_child radix inserted_idx
      let new_child_idx := q.1
      let t := q.2
      let father ← t.try_get_node idx
      let cs ← father.childs.set_new_childs new_child_idx
      some { t with map := t.map.setAt idx { father with childs := cs } }
  | true, some huge_idx => do
      let huge ← t.child_list.get? huge_idx
      let huge ← huge.push radix inserted_idx
      some { t with child_list := t.child_list.setAt huge_idx huge }

/-- The descent loop of `OxidArt::set`: overwrite on `Final`, descend on
`Path`, attach a fresh leaf on a missing child, split on `Partial`.  Fuel as
in `get_loop`. -/
def set_loop (t : OxidArt) (fuel idx : Nat) (key : List Nat) (v : Nat) :
    Option OxidArt :=
  match fuel, key with
  | _, [] => none
  | 0, _ :: _ => none
  | fuel + 1, b :: rest =>
    match t.find idx b with
    | none => t.create_node_with_val idx b v rest
    | some child_idx =>
      match _hnode : t.try_get_node child_idx with
      | none => none
      | some node =>
        match node.compare_compression_key rest with
        | CompResult.Final =>
            some { t with map := t.map.setAt child_idx (node.set_val v) }
        | CompResult.Path =>
            t.set_loop fuel child_idx (rest.drop node.compression.length) v
        | CompResult.Partial common_len =>
          -- Split: the node keeps the common part of its compression; its
          -- prior compression tail, value and children move to a fresh node.
          let key_rest := rest
          let val_on_intermediate := common_len = key_rest.length
          let old_compression := node.compression
          let old_val := node.val
          let old_childs := node.childs
          let intermediate : Node :=
            ⟨old_compression.take common_len,
             if val_on_intermediate then some v else none,
             Childs.default⟩
          let t := { t with map := t.map.setAt child_idx intermediate }
          match old_compression.get? common_len with
          | none => none
          | some old_radix =>
            let old_child : Node :=
              ⟨old_compression.drop (common_len + 1), old_val, old_childs⟩
            let q := t.insertNode old_child
            let old_child_idx := q.1
            let t := q.2
            match t.try_get_node child_idx with
            | none => none
            | some node2 =>
              match node2.childs.push old_radix old_child_idx with
              | none => none
              | some cs =>
                let t :=
                  { t with map := t.map.setAt child_idx { node2 with childs := cs } }
                if val_on_intermediate then some t
                else
                  match key_rest.get? common_len with
                  | none => none
                  | some new_radix =>
                      t.create_node_with_val child_idx new_radix v
                        (key_rest.drop (common_len + 1))

/-- `OxidArt::set`. -/
def set (t : OxidArt) (key : List Nat) (v : Nat) : Option OxidArt :=
  if key.length = 0 then do
    let root ← t.try_get_node t.root_idx
    some { t with map := t.map.setAt t.root_idx (root.set_val v) }
  else t.set_loop (key.length + 1) t.root_idx key v

/-- `OxidArt::try_recompress`: if the node has no value and exactly one child
with no overflow table, absorb that child. -/
def try_recompress (t : OxidArt) (node_idx : Nat) : Option OxidArt := do
  let node ← t.try_get_node node_idx
  if node.val.isSome then some t
  else
    match node.childs.get_single_child with
    | none => some t
    | some (child_radix, child_idx) => do
        let p ← t.map.take child_idx
        let child := p.1
        let t := { t with map := p.2 }
        let node ← t.try_get_node node_idx
        let merged : Node :=
          ⟨node.compression ++ child_radix :: child.compression,
           child.val, child.childs⟩
        some { t with map := t.map.setAt node_idx merged }

/-- `OxidArt::remove_child`: detach the child under `radix` from the parent's
primary table, else from its overflow table. -/
def remove_child (t : OxidArt) (parent_idx radix : Nat) : Option OxidArt := do
  let parent ← t.try_get_node parent_idx
  match parent.childs.remove radix with
  | (some _, cs) =>
      some { t with map := t.map.setAt parent_idx { parent with childs := cs } }
  | (none, _) =>
      match parent.childs.get_next_idx with
      | none => some t
      | some huge_idx => do
          let huge ← t.child_list.get? huge_idx
          match huge.remove radix with
          | (_, huge') =>
              some { t with child_list := t.child_list.setAt huge_idx huge' }

/-- The descent loop of `OxidArt::del`: read-only search for the node at
which the key ends (`Final`), tracking the immediate parent.  `none` means
the key is absent (`Partial`, a missing child, or a vacant slot).  Each
iteration strictly shortens the unconsumed tail, so fuel above the tail
length never runs out. -/
def del_loop (t : OxidArt) (fuel parent_idx parent_radix idx : Nat)
    (rest : List Nat) : Option (Nat × Nat × Nat) :=
  match fuel with
  | 0 => none
  | fuel + 1 =>
    match t.try_get_node idx with
    | none => none
    | some node =>
      match node.compare_compression_key rest with
      | CompResult.Final => some (idx, parent_idx, parent_radix)
      | CompResult.Partial _ => none
      | CompResult.Path =>
        match rest.drop node.compression.length with
        | [] => none  -- unreachable: `Path` forces the compression to be shorter
        | r :: rrest =>
          match t.find idx r with
          | none => none
          | some child_idx => t.del_loop fuel idx r child_idx rrest

/-- `OxidArt::del`. -/
def del (t : OxidArt) (key : List Nat) : Option (Option Nat × OxidArt) :=
  match key with
  | [] => do
      -- Empty key: take the root's value, then attempt recompression there.
      let root ← t.try_get_node t.root_idx
      let old_val := root.val
      let t := { t with map := t.map.setAt t.root_idx { root with val := none } }
      let t ← t.try_recompress t.root_idx
      some (old_val, t)
  | b :: rest =>
    match t.find t.root_idx b with
    | none => some (none, t)
    | some idx =>
      match t.del_loop (rest.length + 1) t.root_idx b idx rest with
      | none => some (none, t)
      | some (target_idx, parent_idx, parent_radix) => do
        let target ← t.try_get_node target_idx
        let has_children :=
          (!target.childs.is_empty) || target.childs.get_next_idx.isSome
        if has_children then
          -- Keep the node; just take its value, then try to recompress.
          match target.val with
          | none => some (none, t)
          | some old_val => do
              let t :=
                { t with map := t.map.setAt target_idx { target with val := none } }
              let t ← t.try_recompress target_idx
              some (some old_val, t)
        else do
          -- Leaf: remove it from the arena, detach it from its parent, then
          -- try to recompress the parent (unless the parent is the root).
          let p ← t.map.take target_idx
          let node := p.1
          let t := { t with map := p.2 }
          match node.val with
          | none => some (none, t)
          | some old_val => do
              let t ← t.remove_child parent_idx parent_radix
              let t ← if parent_idx ≠ t.root_idx
                      then t.try_recompress parent_idx else some t
              some (some old_val, t)

/-- The descent loop of `OxidArt::deln`: like `del_loop`, but a `Partial`
whose common length equals the remaining prefix length is also a match (the
prefix ends inside the target's compression). -/
def deln_loop (t : OxidArt) (fuel parent_idx parent_radix idx : Nat)
    (rest : List Nat) : Option (Nat × Nat × Nat) :=
  match fuel with
  | 0 => none
  | fuel + 1 =>
    match t.try_get_node idx with
    | none => none
    | some node =>
      match node.compare_compression_key rest with
      | CompResult.Final => some (idx, parent_idx, parent_radix)
      | CompResult.Partial common_len =>
          if common_len = rest.length then some (idx, parent_idx, parent_radix)
          else none
      | CompResult.Path =>
        match rest.drop node.compression.length with
        | [] => none  -- unreachable: `Path` forces the compression to be shorter
        | r :: rrest =>
          match t.find idx r with
          | none => none
          | some child_idx => t.deln_loop fuel idx r child_idx rrest

/-- `OxidArt::iter_all_children`: the (radix, index) entries of the primary
table followed by those of the attached overflow table, if any. -/
def iter_all_children (t : OxidArt) (node_idx : Nat) : List (Nat × Nat) :=
  match t.try_get_node node_idx with
  | none => []
  | some node =>
      node.childs.iter ++
      (match node.childs.get_next_idx with
       | some huge_idx =>
           match t.child_list.get? huge_idx with
           | some huge => huge.entries
           | none => []
       | none => [])

/-- `OxidArt::collect_child_indices`: all child indices of a node (primary
then overflow). -/
def collect_child_indices (t : OxidArt) (node_idx : Nat) : List Nat :=
  match t.try_get_node node_idx with
  | none => []
  | some node =>
      (node.childs.iter.map (·.2)) ++
      (match node.childs.get_next_idx with
       | some huge_idx =>
           match t.child_list.get? huge_idx with
           | some huge => huge.entries.map (·.2)
           | none => []
       | none => [])


end OxidArt

namespace OxidArt

/-- The number of stack entries that processing a live node can push: its
primary entries plus the entries of its attached overflow table, if any. -/
def node_child_bound (t : OxidArt) (node : Node) : Nat :=
  node.childs.idxs.length +
    (match node.childs.get_next_idx with
     | some huge_idx =>
         match t.child_list.get? huge_idx with
         | some huge => huge.entries.length
         | none => 0
     | none => 0)

/-- An upper bound on the number of iterations `free_subtree_iterative` can
run from the given stack: every iteration pops one entry, entries are pushed
only when a live node is processed (at most `node_child_bound` of them), and
a live node is processed at most once because processing removes it. -/
def free_fuel (t : OxidArt) (stack : List Nat) : Nat :=
  stack.length +
    (t.map.entries.map fun o =>
      match o with
      | some node => node_child_bound t node
      | none => 0).sum

/-- `OxidArt::free_subtree_iterative`: iterative DFS disposal.  The Rust
`Vec` used as an explicit stack is modelled with the list head as the top of
the stack (Rust pushes and pops at the `Vec`'s end), so extending the stack
with a node's children prepends them in reverse.  Returns the number of
value-bearing nodes freed.  The Rust loop always terminates (each iteration
pops one entry and pushes only when it vacates a live slot); the model makes
this structural through fuel, which callers set so it cannot run out
(`free_fuel` iterations suffice from any state). -/
def free_subtree_loop (t : OxidArt) (fuel : Nat) (stack : List Nat) :
    Option (Nat × OxidArt) :=
  match fuel with
  | 0 => none
  | fuel + 1 =>
    match stack with
    | [] => some (0, t)
    | node_idx :: rest =>
      match t.try_get_node node_idx with
      | none => t.free_subtree_loop fuel rest
      | some node =>
        let hugeChildren : List Nat :=
          match node.childs.get_next_idx with
          | some huge_idx =>
              match t.child_list.get? huge_idx with
              | some huge => huge.entries.map (·.2)
              | none => []
          | none => []
        let children := (node.childs.iter.map (·.2)) ++ hugeChildren
        let stack' := children.reverse ++ rest
        let cl' : Option (Slab HugeChilds) :=
          match node.childs.get_next_idx with
          | some huge_idx => (t.child_list.take huge_idx).map (·.2)
          | none => some t.child_list
        match cl' with
        | none => none
        | some cl2 =>
          let t2 : OxidArt := ⟨t.map.removeAt node_idx, cl2, t.root_idx⟩
          match t2.free_subtree_loop fuel stack' with
          | none => none
          | some (c, tfin) =>
              some ((if node.val.isSome then 1 else 0) + c, tfin)

/-- `OxidArt::free_subtree_iterative`, with sufficient fuel. -/
def free_subtree_iterative (t : OxidArt) (stack : List Nat) :
    Option (Nat × OxidArt) :=
  t.free_subtree_loop (t.free_fuel stack + 1) stack

/-- `OxidArt::deln`. -/
def deln (t : OxidArt) (pfx : List Nat) : Option (Nat × OxidArt) :=
  match pfx with
  | [] => do
      -- Empty prefix: take the root's value, clear the root's child table
      -- (its overflow table is left allocated), free all former subtrees.
      let root ← t.try_get_node t.root_idx
      let had_val := root.val.isSome
      let t := { t with map := t.map.setAt t.root_idx { root with val := none } }
      let childs_to_free := t.collect_child_indices t.root_idx
      let root2 ← t.try_get_node t.root_idx
      let t :=
        { t with map := t.map.setAt t.root_idx { root2 with childs := Childs.default } }
      let p ← t.free_subtree_iterative childs_to_free.reverse
      some (p.1 + (if had_val then 1 else 0), p.2)
  | b :: rest =>
    match t.find t.root_idx b with
    | none => some (0, t)
    | some idx =>
      match t.deln_loop (rest.length + 1) t.root_idx b idx rest with
      | none => some (0, t)
      | some (target_idx, parent_idx, parent_radix) => do
          let t ← t.remove_child parent_idx parent_radix
          let p ← t.free_subtree_iterative [target_idx]
          let count := p.1
          let t := p.2
          let t ← if parent_idx ≠ t.root_idx
                  then t.try_recompress parent_idx else some t
          some (count, t)

/-- `OxidArt::collect_all`: recursively collect every value-bearing node of a
subtree, extending the accumulated key with each node's compression and each
child's decision radix.  The Rust recursion is unbounded (reachable trees are
acyclic); the model carries fuel, which callers instantiate so that it never
runs out on an acyclic arena. -/
def collect_all (t : OxidArt) (fuel : Nat) (node_idx : Nat)
    (key_pfx : List Nat) : List (List Nat × Nat) :=
  match fuel with
  | 0 => []
  | fuel + 1 =>
    match t.try_get_node node_idx with
    | none => []
    | some node =>
      let kp := key_pfx ++ node.compression
      (match node.val with
       | some v => [(kp, v)]
       | none => []) ++
      (t.iter_all_children node_idx).flatMap
        (fun rc => t.collect_all fuel rc.2 (kp ++ [rc.1]))

/-- `OxidArt::collect_all_from`: like `collect_all` but the accumulated key
already includes this node's compression. -/
def collect_all_from (t : OxidArt) (fuel : Nat) (node_idx : Nat)
    (key_path : List Nat) : List (List Nat × Nat) :=
  match t.try_get_node node_idx with
  | none => []
  | some node =>
      (match node.val with
       | some v => [(key_path, v)]
       | none => []) ++
      (t.iter_all_children node_idx).flatMap
        (fun rc => t.collect_all fuel rc.2 (key_path ++ [rc.1]))

/-- The descent loop of `OxidArt::getn`: walk the prefix as `get` does while
recording the bytes actually consumed; at a `Final` match or a `Partial`
match consuming the whole remaining prefix, enumerate the subtree. -/
def getn_loop (t : OxidArt) (fuel loop_fuel idx : Nat) (key_path : List Nat)
    (pfx : List Nat) : List (List Nat × Nat) :=
  match loop_fuel, pfx with
  | _, [] => []
  | 0, _ :: _ => []
  | loop_fuel + 1, radix :: rest =>
    match t.find idx radix with
    | none => []
    | some child_idx =>
      let key_path := key_path ++ [radix]
      match t.try_get_node child_idx with
      | none => []
      | some node =>
        match node.compare_compression_key rest with
        | CompResult.Final =>
            t.collect_all_from fuel child_idx (key_path ++ node.compression)
        | CompResult.Partial common_len =>
            if common_len = rest.length then
              t.collect_all_from fuel child_idx (key_path ++ node.compression)
            else []
        | CompResult.Path =>
            t.getn_loop fuel loop_fuel child_idx (key_path ++ node.compression)
              (rest.drop node.compression.length)

/-- The read-only part of `deln` on a non-empty prefix: the initial child
lookup at the root followed by the descent loop.  `none` is the no-match
outcome — the descent found no child for the next radix, hit a vacant slot,
or diverged (`Partial` with a common length different from the remaining
prefix length). -/
def deln_find_target (t : OxidArt) (pfx : List Nat) :
    Option (Nat × Nat × Nat) :=
  match pfx with
  | [] => none
  | b :: rest =>
    match t.find t.root_idx b with
    | none => none
    | some idx => t.deln_loop (rest.length + 1) t.root_idx b idx rest

/-- `OxidArt::getn`.  `fuel` bounds the `collect_all` recursion depth (one
more than the number of live nodes suffices on any acyclic arena);
`loop_fuel` bounds the descent loop as in `get`. -/
def getn (t : OxidArt) (pfx : List Nat) : List (List Nat × Nat) :=
  if pfx.length = 0 then
    t.collect_all (t.map.liveCount + 1) t.root_idx []
  else
    t.getn_loop (t.map.liveCount + 1) (pfx.length + 1) t.root_idx [] pfx


end OxidArt

/-! ### Concrete scenarios

Byte strings are written as their ASCII codes: "user" = [117,115,101,114],
"uso" = [117,115,111], "us" = [117,115], "ser" = [115,101,114],
"ab" = [97,98].  Values are opaque; the scenarios use small naturals. -/

def kUser : List Nat := [117, 115, 101, 114]

def kUso : List Nat := [117, 115, 111]

def kUs : List Nat := [117, 115]

def kSer : List Nat := [115, 101, 114]

def kAb : List Nat := [97, 98]

/-- The tree of spec scenario 1 after `set("user","A")`, `set("uso","B")`
(value "A" ↦ 0, "B" ↦ 1). -/
def scenario7 : Option OxidArt := (OxidArt.new.set kUser 0).bind fun t => t.set kUso 1

/-- Scenario 1 continued: the result and state of `del("uso")`. -/
def scenario7del : Option (Option Nat × OxidArt) := scenario7.bind fun t => t.del kUso

/-- The tree holding the single pair ("ab", 5). -/
def scenario2 : Option OxidArt := OxidArt.new.set kAb 5

/-- That tree after `del("")`. -/
def scenario2del : Option (Option Nat × OxidArt) := scenario2.bind fun t => t.del []

/-- One step of inserting the single-byte key [b] with value b. -/
def c6step (acc : Option OxidArt) (b : Nat) : Option OxidArt :=
  acc.bind fun t => t.set [b] b

/-! ### Specification-side notions

These definitions follow the words of the spec (for comparison against the
embedded code), not the code. -/

/-- Length of the longest common starting run of two byte strings. -/
def lcpLen : List Nat → List Nat → Nat
  | a :: as, b :: bs => if a = b then lcpLen as bs + 1 else 0
  | _, _ => 0

/-- `p` is a proper starting segment of `l` (strictly shorter, all bytes
matching). -/
def properPreOf (p l : List Nat) : Prop :=
  p.length < l.length ∧ l.take p.length = p

instance (p l : List Nat) : Decidable (properPreOf p l) := by
  unfold properPreOf; infer_instance

/-- The canonical-shape property of claim C5: no live non-root node is
simultaneously value-less and possessed of exactly one (primary) child with
no overflow table attached — exactly the configuration `try_recompress`
eliminates. -/
def canonical_shape (t : OxidArt) : Prop :=
  ∀ idx node, t.try_get_node idx = some node → idx ≠ t.root_idx →
    node.val = none → node.childs.get_single_child = none

/-- `target` is not stored as a child index anywhere in the arena: neither
in any live node's primary table nor in any overflow table attached to a
live node. -/
def unreferenced (t : OxidArt) (target : Nat) : Prop :=
  ∀ pidx pnode, t.try_get_node pidx = some pnode →
    target ∉ pnode.childs.idxs ∧
    ∀ hi h, pnode.childs.maybe_next_childs_idx = some hi →
      t.child_list.get? hi = some h → target ∉ h.entries.map (·.2)

/-- Clause 3 of the structural invariant: every live non-root node carries a
value, or has an overflow table attached, or has at least two primary
children. -/
def inv3 (t : OxidArt) : Prop :=
  ∀ idx node, t.try_get_node idx = some node → idx ≠ t.root_idx →
    node.val.isSome ∨ node.childs.maybe_next_childs_idx.isSome ∨
      2 ≤ node.childs.idxs.length

/-- The inductive structural invariant behind claim C5: the root is live and
never referenced as a child, and every live non-root node carries a value,
or has an overflow table attached, or has at least two primary children.
(`new` establishes it; every mutating operation preserves it; it implies
`canonical_shape`.) -/
def struct_inv (t : OxidArt) : Prop :=
  (t.try_get_node t.root_idx).isSome ∧
  unreferenced t t.root_idx ∧
  inv3 t

/-- The relaxation of `inv3` holding between the two halves of a deletion:
every live non-root node other than `p` satisfies `inv3`'s disjunction, and
`p` itself — which may just have lost its value or one primary child — still
carries a value, or has an overflow table attached, or has at least ONE
primary child.  `try_recompress p` restores `struct_inv` from this. -/
def weak_inv (t : OxidArt) (p : Nat) : Prop :=
  (t.try_get_node t.root_idx).isSome ∧
  unreferenced t t.root_idx ∧
  (∀ idx node, t.try_get_node idx = some node → idx ≠ t.root_idx → idx ≠ p →
    node.val.isSome ∨ node.childs.maybe_next_childs_idx.isSome ∨
      2 ≤ node.childs.idxs.length) ∧
  (∀ node, t.try_get_node p = some node → p ≠ t.root_idx →
    node.val.isSome ∨ node.childs.maybe_next_childs_idx.isSome ∨
      1 ≤ node.childs.idxs.length)

/-- The engine states reachable through the public constructor and the
public mutating calls that complete without a panic. -/
inductive Reachable : OxidArt → Prop where
  | new : Reachable OxidArt.new
  | set {t t' : OxidArt} {key : List Nat} {v : Nat} :
      Reachable t → t.set key v = some t' → Reachable t'
  | del {t t' : OxidArt} {key : List Nat} {r : Option Nat} :
      Reachable t → t.del key = some (r, t') → Reachable t'
  | deln {t t' : OxidArt} {pfx : List Nat} {n : Nat} :
      Reachable t → t.deln pfx = some (n, t') → Reachable t'

/-- The arena-annotated specification tree backing the round-trip analysis:
one node's arena slot, compression, value, attached overflow-table slot, and
children — split, as in the arena, into the primary region and the overflow
region, each an association list of decision radix to subtree. -/
inductive ITree : Type where
  | mk (idx : Nat) (comp : List Nat) (val : Option Nat) (ov : Option Nat)
      (prim : List (Nat × ITree)) (ovch : List (Nat × ITree))

def ITree.idx : ITree → Nat
  | .mk i _ _ _ _ _ => i

def ITree.comp : ITree → List Nat
  | .mk _ c _ _ _ _ => c

def ITree.val : ITree → Option Nat
  | .mk _ _ v _ _ _ => v

def ITree.ov : ITree → Option Nat
  | .mk _ _ _ o _ _ => o

def ITree.prim : ITree → List (Nat × ITree)
  | .mk _ _ _ _ pr _ => pr

def ITree.ovch : ITree → List (Nat × ITree)
  | .mk _ _ _ _ _ ov => ov

/-- All children, primary region first — the search order of `find`. -/
def ITree.children : ITree → List (Nat × ITree)
  | .mk _ _ _ _ pr ov => pr ++ ov

/-- The (radix, arena index) pairs of a child region. -/
def pairsOf (l : List (Nat × ITree)) : List (Nat × Nat) :=
  l.map fun p => (p.1, p.2.idx)

/-- First child stored under the given radix, searching primary then
overflow. -/
def findChildT (s : ITree) (b : Nat) : Option ITree :=
  (s.children.find? (fun p => decide (p.1 = b))).map (·.2)

/-- Specification-level `get` descent, mirroring `get_loop` byte for byte. -/
def sGet : Nat → ITree → List Nat → Option Nat
  | _, _, [] => none
  | 0, _, _ :: _ => none
  | fuel + 1, s, b :: rest =>
    match findChildT s b with
    | none => none
    | some sc =>
        if sc.comp = rest then sc.val
        else if properPreOf sc.comp rest then
          sGet fuel sc (rest.drop sc.comp.length)
        else none

/-- One descent step of `sGet` at an already-located child. -/
def childStep (f : Nat) (sc : ITree) (rest2 : List Nat) : Option Nat :=
  if ITree.comp sc = rest2 then ITree.val sc
  else if properPreOf (ITree.comp sc) rest2 then
    sGet f sc (rest2.drop (ITree.comp sc).length)
  else none

/-- Specification-level `get`. -/
def specGet (s : ITree) (key : List Nat) : Option Nat :=
  if key = [] then ITree.val s else sGet (key.length + 1) s key

mutual
/-- All arena node slots of a subtree. -/
def ITree.nidxs : ITree → List Nat
  | .mk i _ _ _ pr ov => i :: (nidxsL pr ++ nidxsL ov)
def nidxsL : List (Nat × ITree) → List Nat
  | [] => []
  | p :: rest => ITree.nidxs p.2 ++ nidxsL rest
end

mutual
/-- All overflow-table slots of a subtree. -/
def ITree.oidxs : ITree → List Nat
  | .mk _ _ _ o pr ov =>
      (match o with | some hi => [hi] | none => []) ++
        (oidxsL pr ++ oidxsL ov)
def oidxsL : List (Nat × ITree) → List Nat
  | [] => []
  | p :: rest => ITree.oidxs p.2 ++ oidxsL rest
end

/-- The representation relation: the subtree is laid out in the arena
exactly as described — the node at the recorded slot has the recorded
compression, value and overflow pointer, its primary table lists the
children of the primary region in order, the overflow table (when attached)
lists those of the overflow region in order, and every child subtree is in
turn represented. -/
inductive ReprP (t : OxidArt) : ITree → Prop where
  | intro {i : Nat} {c : List Nat} {v : Option Nat} {o : Option Nat}
      {pr ov : List (Nat × ITree)} {node : Node}
      (hnode : t.try_get_node i = some node)
      (hcomp : node.compression = c)
      (hval : node.val = v)
      (hovp : node.childs.maybe_next_childs_idx = o)
      (hlen : node.childs.radixs.length = node.childs.idxs.length)
      (hprim : node.childs.iter = pairsOf pr)
      (hhuge : match o with
        | none => ov = []
        | some hi => ∃ h, t.child_list.get? hi = some h ∧
            h.entries = pairsOf ov)
      (hpr : ∀ p ∈ pr, ReprP t p.2)
      (hovr : ∀ p ∈ ov, ReprP t p.2) :
      ReprP t (ITree.mk i c v o pr ov)

/-- Replace the value field. -/
def ITree.withVal (s : ITree) (w : Option Nat) : ITree :=
  match s with
  | .mk i c _ o pr ov => .mk i c w o pr ov

/-- Replace the subtree under the first entry with the given radix. -/
def replaceFirstL (l : List (Nat × ITree)) (b : Nat) (c2 : ITree) :
    List (Nat × ITree) :=
  match l with
  | [] => []
  | p :: rest =>
      if p.1 = b then (p.1, c2) :: rest else p :: replaceFirstL rest b c2

/-- Replace the first child stored under the given radix (searching the
primary region first, as `find` does). -/
def replaceChildT (s : ITree) (b : Nat) (c2 : ITree) : ITree :=
  match s with
  | .mk i c vv o pr ov =>
      if ((pr.find? (fun p => decide (p.1 = b))).isSome) then
        .mk i c vv o (replaceFirstL pr b c2) ov
      else .mk i c vv o pr (replaceFirstL ov b c2)

/-- The conclusion bundle of the `set_loop` simulation: the new engine
represents a new subtree that has the same slot, compression and value, owns
only its old slots plus formerly vacant ones, leaves every other live slot
untouched, and whose `sGet` differs from the old subtree exactly at the
written key. -/
structure SimOut (t t2 : OxidArt) (s s2 : ITree) (key : List Nat) (v : Nat) :
    Prop where
  repr : ReprP t2 s2
  idx_eq : ITree.idx s2 = ITree.idx s
  comp_eq : ITree.comp s2 = ITree.comp s
  val_eq : ITree.val s2 = ITree.val s
  nodup_n : (ITree.nidxs s2).Nodup
  nodup_o : (ITree.oidxs s2).Nodup
  sub_n : ∀ j ∈ ITree.nidxs s2, j ∈ ITree.nidxs s ∨ t.try_get_node j = none
  sub_o : ∀ hi ∈ ITree.oidxs s2,
    hi ∈ ITree.oidxs s ∨ t.child_list.get? hi = none
  frame_n : ∀ j, t.try_get_node j ≠ none → j ∉ ITree.nidxs s →
    t2.try_get_node j = t.try_get_node j
  frame_o : ∀ hi, t.child_list.get? hi ≠ none → hi ∉ ITree.oidxs s →
    t2.child_list.get? hi = t.child_list.get? hi
  root_eq : t2.root_idx = t.root_idx
  get_eq : ∀ fuel2 key2, key2.length < fuel2 →
    sGet fuel2 s2 key2 = if key2 = key then some v else sGet fuel2 s key2

/-- The invariant carried through a sequence of `set` calls: the engine
represents the subtree, the subtree's slot footprints are duplicate-free,
and the subtree sits at the engine's root slot. -/
def Rep (t : OxidArt) (s : ITree) : Prop :=
  ReprP t s ∧ (ITree.nidxs s).Nodup ∧ (ITree.oidxs s).Nodup ∧
    ITree.idx s = t.root_idx

/-- Last-write-wins lookup over a list of key-value pairs. -/
def lastWrite : List (List Nat × Nat) → List Nat → Option Nat
  | [], _ => none
  | p :: rest, k =>
      (lastWrite rest k).or (if p.1 = k then some p.2 else none)

/-- Eleven distinct single-byte keys: enough to overflow a node's primary
child table (capacity 10) and force allocation of an overflow table. -/
def c9keys : List (List Nat) := (List.range 11).map fun b => [b]

/-- Insert all eleven keys (value 0) in order. -/
def c9fill (t : OxidArt) : Option OxidArt :=
  List.foldlM (fun s k => s.set k 0) t c9keys

/-- Two rounds of fill-eleven-keys / `deln("")`: each round strands the
root's freshly allocated overflow table. -/
def c9state : Option OxidArt := do
  let t1 ← c9fill OxidArt.new
  let p1 ← t1.deln []
  let t2 ← c9fill p1.2
  let p2 ← t2.deln []
  some p2.2

/-- C7, counterexample: in the concrete scenario — `set("user","A")`,
`set("uso","B")`, `del("uso")` — the engine does end with exactly 2 nodes,
but no node of the arena has compression "user" (the surviving leaf stores
"ser": the decision byte 'u' consumed at the root is not part of the
compression), so the claim's final conjunct is false at its own input. -/
theorem C7_counterexample :
    (scenario7del.map fun p =>
      (p.2.map.liveCount,
       p.2.map.entries.countP fun o =>
         decide (Option.map Node.compression o = some kUser))) =
      some (2, 0) := by decide

/-- C7, amended: as the claim, except that the surviving leaf's compression
is "ser" (the key "user" minus the decision byte 'u' held in the root's
child table): `get("us")` is absent, `get("user") = "A"`, `get("uso") = "B"`;
`del("uso")` returns "B"; afterwards `get("user") = "A"` still holds, the
engine has exactly 2 nodes, the root's compression is empty, and exactly one
node has compression "ser". -/
theorem C7_amended_scenario :
    (scenario7.map fun t => (t.get kUs, t.get kUser, t.get kUso)) =
      some (none, some 0, some 1) ∧
    (scenario7del.map fun p =>
      (p.1, p.2.get kUser, p.2.map.liveCount,
       (p.2.try_get_node p.2.root_idx).map Node.compression,
       p.2.map.entries.countP fun o =>
         decide (Option.map Node.compression o = some kSer))) =
      some (some 1, some 0, 2, some [], 1) := ⟨by decide, by decide⟩

/-- C2, failing input: on the tree holding only ("ab", 5) — whose root is
value-less with a single child — `del("")` does recompress the root: the
root's compression becomes "ab" (not empty), its only child is absorbed and
freed (2 live nodes before, 1 after), and the key "ab" is no longer
reachable.  The claimed no-op recompression does not hold. -/
theorem C2_del_empty_recompresses_root :
    (scenario2.map fun t =>
      ((t.try_get_node t.root_idx).map Node.compression, t.map.liveCount,
       t.get kAb)) = some (some [], 2, some 5) ∧
    (scenario2del.map fun p =>
      (p.1, (p.2.try_get_node p.2.root_idx).map Node.compression,
       p.2.map.liveCount, p.2.get kAb)) = some (none, some kAb, 1, none) := by
  decide

/-- C3, failing input: in the reachable state produced by `set("ab",5)` then
`del("")` (the root-recompression slip of C2), `getn("")` returns the pair
("ab", 5) although `get("ab")` is absent — and the pair ("", 5), for which
`get("")` is 5, is missing from the result.  Both inclusions of the claimed
set equality fail. -/
theorem C3_getn_disagrees_with_get :
    (scenario2del.map fun p =>
      (p.2.getn [], p.2.get kAb, p.2.get [])) =
      some ([(kAb, 5)], none, some 5) := by decide

set_option maxRecDepth 40000 in
/-- C6, failing input: inserting one single-byte key for every byte the key
contract allows (0..=127, bytes with MSB clear) panics on the 128th byte:
the primary region holds 10 children and the overflow region 117, so a
node's child table holds at most 127 children, one short of the 128 allowed
radixes.  The first 127 insertions succeed; the next push lands on a full
overflow `ArrayVec` and panics (modelled as `none`). -/
theorem C6_capacity_one_short :
    ((List.range 127).foldl c6step (some OxidArt.new)).isSome = true ∧
    (List.range 128).foldl c6step (some OxidArt.new) = none :=
  ⟨by decide, by decide⟩

/-! ### C8: the traversal primitive -/

theorem common_loop_shift (as bs : List Nat) (a b : Nat) :
    ∀ r i, Node.common_loop (a :: as) (b :: bs) (i + 1) r =
      Node.common_loop as bs i r + 1
  | 0, _ => rfl
  | r + 1, i => by
      simp only [Node.common_loop, List.getD_cons_succ]
      by_cases h : as.getD i 0 = bs.getD i 0
      · rw [if_pos h, if_pos h, common_loop_shift as bs a b r (i + 1)]
      · rw [if_neg h, if_neg h]

theorem get_common_len_eq_lcpLen (c k : List Nat) :
    Node.common_loop c k 0 (min c.length k.length) = lcpLen c k := by
  induction c generalizing k with
  | nil => cases k <;> rfl
  | cons a as ih =>
      cases k with
      | nil => rfl
      | cons b bs =>
          simp only [List.length_cons, Nat.succ_min_succ, Node.common_loop,
            List.getD_cons_zero, lcpLen]
          by_cases h : a = b
          · rw [if_pos h, if_pos h, common_loop_shift as bs a b _ 0, ih bs]
          · rw [if_neg h, if_neg h]

theorem lcpLen_le_left (c k : List Nat) : lcpLen c k ≤ c.length := by
  induction c generalizing k with
  | nil => cases k <;> simp [lcpLen]
  | cons a as ih =>
      cases k with
      | nil => simp [lcpLen]
      | cons b bs =>
          simp only [lcpLen, List.length_cons]
          by_cases h : a = b
          · rw [if_pos h]; exact Nat.succ_le_succ (ih bs)
          · rw [if_neg h]; exact Nat.zero_le _

theorem lcpLen_eq_left_iff (c k : List Nat) (h : c.length ≤ k.length) :
    lcpLen c k = c.length ↔ k.take c.length = c := by
  induction c generalizing k with
  | nil => simp [lcpLen.eq_def]
  | cons a as ih =>
      cases k with
      | nil => simp at h
      | cons b bs =>
          simp only [List.length_cons, Nat.succ_le_succ_iff] at h
          simp only [lcpLen, List.length_cons, List.take_succ_cons,
            List.cons.injEq]
          by_cases hab : a = b
          · rw [if_pos hab]
            constructor
            · intro he
              exact ⟨hab.symm, (ih bs h).mp (Nat.succ_injective he)⟩
            · intro ⟨_, he⟩
              rw [(ih bs h).mpr he]
          · rw [if_neg hab]
            constructor
            · omega
            · intro ⟨hba, _⟩; exact absurd hba.symm hab

theorem lcpLen_comm (c k : List Nat) : lcpLen c k = lcpLen k c := by
  induction c generalizing k with
  | nil => cases k <;> rfl
  | cons a as ih =>
      cases k with
      | nil => rfl
      | cons b bs =>
          simp only [lcpLen]
          by_cases h : a = b
          · rw [if_pos h, if_pos h.symm, ih bs]
          · rw [if_neg h, if_neg (fun hba => h hba.symm)]

/-- The full classification of `compare_compression_key`: `Final` iff the
tail equals the compression, `Path` iff the compression is a proper starting
segment of the tail, else `Partial` of the longest-common-run length. -/
theorem compare_spec (n : Node) (key_rest : List Nat) :
    (n.compare_compression_key key_rest =
      if n.compression = key_rest then CompResult.Final
      else if properPreOf n.compression key_rest then CompResult.Path
      else CompResult.Partial (lcpLen n.compression key_rest)) ∧
    (properPreOf key_rest n.compression →
      lcpLen n.compression key_rest = key_rest.length) := by
  have hlcp : n.get_common_len key_rest = lcpLen n.compression key_rest :=
    get_common_len_eq_lcpLen n.compression key_rest
  constructor
  · rcases Nat.lt_trichotomy n.compression.length key_rest.length with
      hlt | heq | hgt
    · have hc : compare n.compression.length key_rest.length = Ordering.lt :=
        Nat.compare_eq_lt.mpr hlt
      have hne : n.compression ≠ key_rest := by
        intro he; rw [he] at hlt; exact Nat.lt_irrefl _ hlt
      have hiff := lcpLen_eq_left_iff n.compression key_rest (Nat.le_of_lt hlt)
      by_cases hp : properPreOf n.compression key_rest
      · have h1 : lcpLen n.compression key_rest = n.compression.length :=
          hiff.mpr hp.2
        simp [Node.compare_compression_key, hc, hlcp, h1, hne, hp]
      · have h1 : lcpLen n.compression key_rest ≠ n.compression.length :=
          fun he => hp ⟨hlt, hiff.mp he⟩
        simp [Node.compare_compression_key, hc, hlcp, h1, hne, hp]
    · have hc : compare n.compression.length key_rest.length = Ordering.eq :=
        Nat.compare_eq_eq.mpr heq
      have hiff := lcpLen_eq_left_iff n.compression key_rest (Nat.le_of_eq heq)
      have htk : key_rest.take n.compression.length = key_rest := by
        rw [heq]; exact List.take_length key_rest
      have hnp : ¬ properPreOf n.compression key_rest :=
        fun hp => Nat.lt_irrefl _ (heq ▸ hp.1)
      by_cases he : n.compression = key_rest
      · have h1 : lcpLen n.compression key_rest = key_rest.length := by
          rw [← heq]; exact hiff.mpr (by rw [htk, he])
        simp only [Node.compare_compression_key, hc, hlcp]
        rw [if_pos h1, if_pos he]
      · have h1 : lcpLen n.compression key_rest ≠ key_rest.length := by
          rw [← heq]
          intro hk
          exact he (htk ▸ hiff.mp hk).symm
        simp only [Node.compare_compression_key, hc, hlcp]
        rw [if_neg h1, if_neg he, if_neg hnp]
    · have hc : compare n.compression.length key_rest.length = Ordering.gt :=
        Nat.compare_eq_gt.mpr hgt
      have hne : n.compression ≠ key_rest := by
        intro he; rw [he] at hgt; exact Nat.lt_irrefl _ hgt
      have hnp : ¬ properPreOf n.compression key_rest :=
        fun hp => Nat.lt_asymm hgt hp.1
      simp [Node.compare_compression_key, hc, hlcp, hne, hnp]
  · intro hp
    rw [lcpLen_comm]
    exact (lcpLen_eq_left_iff key_rest n.compression (Nat.le_of_lt hp.1)).mpr
      hp.2

/-- C8: the traversal classification of `compare(compression, tail)`.
`Final` is returned exactly when the tail equals the compression (equal
lengths, every byte matching); `Path` exactly when the compression is a
proper starting segment of the tail; in every other case the result is
`Partial(common_len)` with `common_len` the length of the longest common
starting run of the two — in particular `common_len = tail.length` when the
tail is a proper starting segment of the compression. -/
theorem C8_compare_classification (n : Node) (key_rest : List Nat) :
    (n.compare_compression_key key_rest =
      if n.compression = key_rest then CompResult.Final
      else if properPreOf n.compression key_rest then CompResult.Path
      else CompResult.Partial (lcpLen n.compression key_rest)) ∧
    (properPreOf key_rest n.compression →
      lcpLen n.compression key_rest = key_rest.length) :=
  compare_spec n key_rest

/-- C8, witness: a tail [1,2] that is a proper starting segment of the
compression [1,2,4] is classified `Partial(2)` with 2 = the tail's length. -/
theorem C8_witness :
    Node.compare_compression_key ⟨[1, 2, 4], none, Childs.default⟩ [1, 2] =
      CompResult.Partial 2 := by
  have h := C8_compare_classification ⟨[1, 2, 4], none, Childs.default⟩ [1, 2]
  rw [h.1, if_neg (by decide), if_neg (by decide),
    h.2 (by constructor <;> decide)]
  rfl

/-! ### C10: no-match atomicity of `deln` -/

/-- C10: for every tree and every non-empty prefix on which the descent
finds no match (no child for the next radix, a vacant slot, or a `Partial`
divergence whose common length differs from the remaining prefix length),
`deln` returns the count 0 and the state entirely unchanged: the mutating
tail of `deln` (`remove_child`, subtree disposal, recompression) is only
reached after a successful match. -/
theorem C10_deln_no_match (t : OxidArt) (pfx : List Nat) (hne : pfx ≠ [])
    (h : t.deln_find_target pfx = none) : t.deln pfx = some (0, t) := by
  cases pfx with
  | nil => exact absurd rfl hne
  | cons b rest =>
      cases hf : t.find t.root_idx b with
      | none => simp only [OxidArt.deln, hf]
      | some idx =>
          have h2 : t.deln_loop (rest.length + 1) t.root_idx b idx rest =
              none := by
            simpa [OxidArt.deln_find_target, hf] using h
          simp only [OxidArt.deln, hf, h2]

/-- C10, witness: on the empty engine, `deln([1])` — a prefix matching no
stored key — returns 0 and leaves the state untouched. -/
theorem C10_witness : OxidArt.new.deln [1] = some (0, OxidArt.new) :=
  C10_deln_no_match OxidArt.new [1] (by decide) (by decide)

/-! ### Arena and child-table toolkit -/

theorem Slab.get?_eq {α : Type} (s : Slab α) (i : Nat) :
    s.get? i = (s.entries[i]?).getD none := by
  unfold Slab.get?
  exact List.getD_eq_getElem?_getD s.entries i none

theorem Slab.lt_length_of_get? {α : Type} {s : Slab α} {i : Nat} {a : α}
    (h : s.get? i = some a) : i < s.entries.length := by
  rw [Slab.get?_eq] at h
  by_contra hge
  rw [List.getElem?_eq_none (Nat.le_of_not_lt hge)] at h
  simp at h

theorem Slab.entries_get?_of_get? {α : Type} {s : Slab α} {i : Nat} {a : α}
    (h : s.get? i = some a) : s.entries[i]? = some (some a) := by
  have hlt := Slab.lt_length_of_get? h
  rw [Slab.get?_eq] at h
  cases hq : s.entries[i]? with
  | none => rw [hq] at h; simp at h
  | some o => rw [hq] at h; simp at h; rw [h]

theorem Slab.get?_setAt_self {α : Type} {s : Slab α} {i : Nat}
    (hlive : i < s.entries.length) (a : α) : (s.setAt i a).get? i = some a := by
  show ((s.entries.set i (some a)).getD i none) = some a
  rw [List.getD_eq_getElem?_getD, List.getElem?_set_self hlive]
  rfl

theorem Slab.get?_setAt_ne {α : Type} (s : Slab α) {i j : Nat} (h : j ≠ i)
    (a : α) : (s.setAt i a).get? j = s.get? j := by
  show ((s.entries.set i (some a)).getD j none) = s.entries.getD j none
  rw [List.getD_eq_getElem?_getD, List.getD_eq_getElem?_getD,
    List.getElem?_set_ne (fun he => h he.symm)]

theorem Slab.get?_removeAt_self {α : Type} (s : Slab α) (i : Nat) :
    (s.removeAt i).get? i = none := by
  show ((s.entries.set i none).getD i none) = none
  rw [List.getD_eq_getElem?_getD]
  by_cases hlt : i < s.entries.length
  · rw [List.getElem?_set_self hlt]; rfl
  · rw [List.getElem?_eq_none]
    · rfl
    · rw [List.length_set]; exact Nat.le_of_not_lt hlt

theorem Slab.get?_removeAt_ne {α : Type} (s : Slab α) {i j : Nat}
    (h : j ≠ i) : (s.removeAt i).get? j = s.get? j := by
  show ((s.entries.set i none).getD j none) = s.entries.getD j none
  rw [List.getD_eq_getElem?_getD, List.getD_eq_getElem?_getD,
    List.getElem?_set_ne (fun he => h he.symm)]

theorem Slab.insert_fst_fresh {α : Type} (s : Slab α) (a : α) :
    s.get? (s.insert a).1 = none := by
  unfold Slab.insert
  cases hf : s.entries.findIdx? Option.isNone with
  | none =>
      show (s.entries.getD s.entries.length none) = none
      rw [List.getD_eq_getElem?_getD, List.getElem?_eq_none (Nat.le_refl _)]
      rfl
  | some i =>
      have := List.findIdx?_eq_some_iff_getElem.mp hf
      obtain ⟨hlt, hp, _⟩ := this
      show (s.entries.getD i none) = none
      rw [List.getD_eq_getElem?_getD, List.getElem?_eq_getElem hlt]
      cases hq : s.entries[i] with
      | none => rfl
      | some b => rw [hq] at hp; simp at hp

theorem Slab.insert_get?_self {α : Type} (s : Slab α) (a : α) :
    (s.insert a).2.get? (s.insert a).1 = some a := by
  unfold Slab.insert
  cases hf : s.entries.findIdx? Option.isNone with
  | none =>
      show ((s.entries ++ [some a]).getD s.entries.length none) = some a
      rw [List.getD_eq_getElem?_getD, List.getElem?_concat_length]
      rfl
  | some i =>
      obtain ⟨hlt, _, _⟩ := List.findIdx?_eq_some_iff_getElem.mp hf
      show ((s.entries.set i (some a)).getD i none) = some a
      rw [List.getD_eq_getElem?_getD, List.getElem?_set_self hlt]
      rfl

theorem Slab.insert_get?_ne {α : Type} (s : Slab α) (a : α) {j : Nat}
    (h : j ≠ (s.insert a).1) : (s.insert a).2.get? j = s.get? j := by
  unfold Slab.insert at h ⊢
  cases hf : s.entries.findIdx? Option.isNone with
  | none =>
      rw [hf] at h
      show ((s.entries ++ [some a]).getD j none) = s.entries.getD j none
      rw [List.getD_eq_getElem?_getD, List.getD_eq_getElem?_getD,
        List.getElem?_append]
      split
      · rfl
      · next hge =>
          have hj : s.entries.length < j := by
            simp at h hge
            omega
          rw [List.getElem?_eq_none (l := [some a]) (by simp; omega),
            List.getElem?_eq_none (Nat.le_of_lt hj)]
  | some i =>
      rw [hf] at h
      show ((s.entries.set i (some a)).getD j none) = s.entries.getD j none
      rw [List.getD_eq_getElem?_getD, List.getD_eq_getElem?_getD,
        List.getElem?_set_ne (fun he => h he.symm)]

theorem getLastD_mem_cons : ∀ (as : List Nat) (a d : Nat),
    (a :: as).getLastD d ∈ a :: as
  | [], a, _ => List.mem_cons_self a []
  | b :: bs, a, d => List.mem_cons_of_mem a (getLastD_mem_cons bs b a)

theorem getLastD_mem_cons_pair : ∀ (as : List (Nat × Nat)) (a d : Nat × Nat),
    (a :: as).getLastD d ∈ a :: as
  | [], a, _ => List.mem_cons_self a []
  | b :: bs, a, d => List.mem_cons_of_mem a (getLastD_mem_cons_pair bs b a)

theorem listSwapRemove_subset (l : List Nat) (pos : Nat) :
    ∀ x ∈ listSwapRemove l pos, x ∈ l := by
  intro x hx
  unfold listSwapRemove at hx
  have hx' := List.dropLast_subset _ hx
  rcases List.mem_or_eq_of_mem_set hx' with h | h
  · exact h
  · subst h
    cases l with
    | nil => simp at hx
    | cons a as => exact getLastD_mem_cons as a 0

theorem listSwapRemovePair_subset (l : List (Nat × Nat)) (pos : Nat) :
    ∀ x ∈ listSwapRemovePair l pos, x ∈ l := by
  intro x hx
  unfold listSwapRemovePair at hx
  have hx' := List.dropLast_subset _ hx
  rcases List.mem_or_eq_of_mem_set hx' with h | h
  · exact h
  · subst h
    cases l with
    | nil => simp at hx
    | cons a as => exact getLastD_mem_cons_pair as a (0, 0)

theorem Childs.find_mem_idxs {c : Childs} {r i : Nat} (h : c.find r = some i) :
    i ∈ c.idxs := by
  unfold Childs.find at h
  cases hf : c.radixs.findIdx? (· = r) with
  | none => rw [hf] at h; exact absurd h (by simp)
  | some pos =>
      rw [hf] at h
      simp only [Option.some_bind] at h
      rw [List.get?_eq_getElem?] at h
      exact List.getElem?_mem h

theorem HugeChilds.find_mem_snd_idxs {h : HugeChilds} {r i : Nat}
    (hf : h.find r = some i) : i ∈ h.entries.map (·.2) := by
  unfold HugeChilds.find at hf
  cases he : h.entries.find? (·.1 = r) with
  | none => rw [he] at hf; exact absurd hf (by simp)
  | some e =>
      rw [he] at hf
      rw [show (some e).map (·.2) = some e.2 from rfl] at hf
      injection hf with hf
      exact hf ▸ List.mem_map_of_mem _ (List.mem_of_find?_eq_some he)

theorem find_cases {t : OxidArt} {idx r c : Nat} (h : t.find idx r = some c) :
    ∃ node, t.try_get_node idx = some node ∧
      (node.childs.find r = some c ∨
       (node.childs.find r = none ∧
        ∃ hi hc, node.childs.get_next_idx = some hi ∧
          t.child_list.get? hi = some hc ∧ hc.find r = some c)) := by
  unfold OxidArt.find at h
  cases hn : t.try_get_node idx with
  | none => rw [hn] at h; exact absurd h (by simp)
  | some node =>
      rw [hn] at h
      simp only [Option.bind_eq_bind, Option.some_bind] at h
      refine ⟨node, rfl, ?_⟩
      cases hf : node.childs.find r with
      | some i =>
          rw [hf] at h
          exact Or.inl (by injection h with h; rw [h])
      | none =>
          rw [hf] at h
          cases hx : node.childs.get_next_idx with
          | none => rw [hx] at h; exact absurd h (by simp)
          | some hi =>
              rw [hx] at h
              simp only [Option.bind_eq_bind, Option.some_bind] at h
              cases hg : t.child_list.get? hi with
              | none => rw [hg] at h; exact absurd h (by simp)
              | some hc =>
                  rw [hg] at h
                  simp only [Option.bind_eq_bind, Option.some_bind] at h
                  exact Or.inr ⟨rfl, hi, hc, rfl, hg, h⟩

/-- Any index produced by a child lookup is referenced somewhere, so it is
not the root when the root is unreferenced. -/
theorem find_ne_root {t : OxidArt} (hB : unreferenced t t.root_idx)
    {idx r c : Nat} (h : t.find idx r = some c) : c ≠ t.root_idx := by
  obtain ⟨node, hn, hcase⟩ := find_cases h
  obtain ⟨hnp, hnh⟩ := hB idx node hn
  rcases hcase with hf | ⟨_, hi, hc, hx, hg, hf⟩
  · intro he; exact hnp (he ▸ Childs.find_mem_idxs hf)
  · intro he; exact hnh hi hc hx hg (he ▸ HugeChilds.find_mem_snd_idxs hf)

/-- `unreferenced` descends to any state whose live nodes and live overflow
tables all already existed unchanged. -/
theorem unreferenced_of_submap {t t' : OxidArt} {x : Nat}
    (hm : ∀ j a, t'.try_get_node j = some a → t.try_get_node j = some a)
    (hc : ∀ hi h, t'.child_list.get? hi = some h → t.child_list.get? hi = some h)
    (h : unreferenced t x) : unreferenced t' x := by
  intro pidx pnode hp
  obtain ⟨h1, h2⟩ := h pidx pnode (hm _ _ hp)
  exact ⟨h1, fun hi hh hx hg => h2 hi hh hx (hc _ _ hg)⟩

theorem struct_inv_new : struct_inv OxidArt.new := by
  refine ⟨by decide, ?_, ?_⟩
  · intro pidx pnode hp
    cases pidx with
    | zero =>
        have h0 : OxidArt.new.try_get_node 0 = some Node.default := rfl
        rw [h0] at hp
        injection hp with hp
        rw [← hp]
        constructor
        · simp [Node.default, Childs.default]
        · intro hi h hx
          simp [Node.default, Childs.default] at hx
    | succ n =>
        have h0 : OxidArt.new.try_get_node (n + 1) = none := rfl
        rw [h0] at hp
        exact absurd hp (by simp)
  · intro idx node hn hne
    cases idx with
    | zero => exact absurd rfl hne
    | succ n =>
        have h0 : OxidArt.new.try_get_node (n + 1) = none := rfl
        rw [h0] at hn
        exact absurd hn (by simp)

theorem Childs.get_single_child_mem {c : Childs} {r i : Nat}
    (h : c.get_single_child = some (r, i)) :
    i ∈ c.idxs ∧ c.idxs.length = 1 ∧ c.maybe_next_childs_idx = none := by
  unfold Childs.get_single_child at h
  split at h
  · next hc =>
      injection h with h
      refine ⟨?_, hc.1, hc.2⟩
      have h2 := congrArg Prod.snd h
      simp only at h2
      cases hl : c.idxs with
      | nil => rw [hl] at hc; simp at hc
      | cons a as =>
          rw [hl, List.getD_cons_zero] at h2
          rw [← h2]
          exact List.mem_cons_self a as
  · exact absurd h (by simp)

theorem try_get_node_mk (m : Slab Node) (cl : Slab HugeChilds) (r i : Nat) :
    (OxidArt.mk m cl r).try_get_node i = m.get? i := rfl

theorem isSome_exists {o : Option Node} (h : o.isSome) : ∃ a, o = some a := by
  cases o with
  | none => simp at h
  | some a => exact ⟨a, rfl⟩

theorem create_preserves {t : OxidArt} {idx radix v : Nat} {comp : List Nat}
    {t' : OxidArt}
    (hres : t.create_node_with_val idx radix v comp = some t')
    (hA : (t.try_get_node t.root_idx).isSome)
    (hB : unreferenced t t.root_idx)
    (hC : ∀ j node, t.try_get_node j = some node → j ≠ t.root_idx → j ≠ idx →
      node.val.isSome ∨ node.childs.maybe_next_childs_idx.isSome ∨
        2 ≤ node.childs.idxs.length)
    (hF : ∀ node, t.try_get_node idx = some node → idx ≠ t.root_idx →
      node.val.isSome ∨ node.childs.maybe_next_childs_idx.isSome ∨
        1 ≤ node.childs.idxs.length) :
    struct_inv t' ∧ t'.root_idx = t.root_idx := by
  obtain ⟨rootn, hrootn⟩ := isSome_exists hA
  unfold OxidArt.create_node_with_val at hres
  cases hfa : t.try_get_node idx with
  | none => rw [hfa] at hres; exact absurd hres (by simp)
  | some father =>
  rw [hfa] at hres
  simp only [Option.bind_eq_bind, Option.some_bind] at hres
  set nl := Node.new_leaf comp v with hnl
  set ii := (t.insertNode nl).1 with hiidef
  set t1 := (t.insertNode nl).2 with ht1def
  have ht1map : t1.map = (t.map.insert nl).2 := rfl
  have hiieq : ii = (t.map.insert nl).1 := rfl
  have ht1cl : t1.child_list = t.child_list := rfl
  have ht1root : t1.root_idx = t.root_idx := rfl
  have hfresh : t.map.get? ii = none := hiieq ▸ Slab.insert_fst_fresh t.map nl
  have ht1self : t1.map.get? ii = some nl := by
    rw [ht1map, hiieq]; exact Slab.insert_get?_self t.map nl
  have ht1ne : ∀ j, j ≠ ii → t1.map.get? j = t.map.get? j := by
    intro j hj
    rw [ht1map]; exact Slab.insert_get?_ne t.map nl (hiieq ▸ hj)
  have hii_ne_root : ii ≠ t.root_idx := by
    intro he
    rw [he] at hfresh
    rw [show t.try_get_node t.root_idx = t.map.get? t.root_idx from rfl,
      hfresh] at hrootn
    exact absurd hrootn (by simp)
  have hii_ne_idx : ii ≠ idx := by
    intro he
    rw [he] at hfresh
    rw [show t.try_get_node idx = t.map.get? idx from rfl, hfresh] at hfa
    exact absurd hfa (by simp)
  cases hfull : father.childs.is_full with
  | false =>
    simp only [hfull] at hres
    have h1 : t1.try_get_node idx = some father := by
      show t1.map.get? idx = _
      rw [ht1ne idx (fun he => hii_ne_idx he.symm)]
      exact hfa
    rw [h1] at hres
    simp only [Option.some_bind] at hres
    cases hpush : father.childs.push radix ii with
    | none => rw [hpush] at hres; exact absurd hres (by simp)
    | some cs =>
    rw [hpush] at hres
    simp only [Option.some_bind] at hres
    injection hres with hres
    subst hres
    have hcs : cs = ⟨father.childs.idxs ++ [ii],
        father.childs.radixs ++ [radix], father.childs.maybe_next_childs_idx⟩ := by
      unfold Childs.push at hpush
      rw [hfull] at hpush
      simp at hpush
      exact hpush.symm
    subst hcs
    have hidx_live : idx < t1.map.entries.length :=
      Slab.lt_length_of_get? (a := father) (by
        rw [ht1ne idx (fun he => hii_ne_idx he.symm)]; exact hfa)
    refine ⟨⟨?_, ?_, ?_⟩, rfl⟩
    · -- root live
      show ((t1.map.setAt idx _).get? t.root_idx).isSome
      by_cases hir : idx = t.root_idx
      · rw [← hir, Slab.get?_setAt_self hidx_live]
        rfl
      · rw [Slab.get?_setAt_ne _ (fun he => hir he.symm),
          ht1ne _ (fun he => hii_ne_root he.symm), show t.map.get? t.root_idx =
            t.try_get_node t.root_idx from rfl, hrootn]
        rfl
    · -- unreferenced
      intro pidx pnode hp
      have hp' : (t1.map.setAt idx ⟨father.compression, father.val,
          ⟨father.childs.idxs ++ [ii], father.childs.radixs ++ [radix],
           father.childs.maybe_next_childs_idx⟩⟩).get? pidx = some pnode := hp
      by_cases hpi : pidx = idx
      · rw [hpi, Slab.get?_setAt_self hidx_live] at hp'
        injection hp' with hp'
        subst hp'
        constructor
        · show t.root_idx ∉ father.childs.idxs ++ [ii]
          intro hmem
          rcases List.mem_append.mp hmem with hm | hm
          · exact (hB idx father hfa).1 hm
          · rw [List.mem_singleton] at hm
            exact hii_ne_root hm.symm
        · intro hi h hx hg
          have hg' : t.child_list.get? hi = some h := hg
          have hx' : father.childs.maybe_next_childs_idx = some hi := hx
          exact (hB idx father hfa).2 hi h hx' hg'
      · rw [Slab.get?_setAt_ne _ hpi] at hp'
        by_cases hpii : pidx = ii
        · rw [hpii, ht1self] at hp'
          injection hp' with hp'
          subst hp'
          constructor
          · show t.root_idx ∉ ([] : List Nat)
            simp
          · intro hi h hx hg
            exact absurd hx (by simp [hnl, Node.new_leaf, Childs.default])
        · rw [ht1ne _ hpii] at hp'
          obtain ⟨hg1, hg2⟩ := hB pidx pnode hp'
          exact ⟨hg1, fun hi h hx hg => hg2 hi h hx hg⟩
    · -- inv3
      intro j node hj hne
      have hj' : (t1.map.setAt idx ⟨father.compression, father.val,
          ⟨father.childs.idxs ++ [ii], father.childs.radixs ++ [radix],
           father.childs.maybe_next_childs_idx⟩⟩).get? j = some node := hj
      have hne' : j ≠ t.root_idx := hne
      by_cases hji : j = idx
      · rw [hji, Slab.get?_setAt_self hidx_live] at hj'
        injection hj' with hj'
        subst hj'
        rcases hF father hfa (hji ▸ hne') with hv | hx | hl
        · exact Or.inl hv
        · exact Or.inr (Or.inl hx)
        · refine Or.inr (Or.inr ?_)
          show 2 ≤ (father.childs.idxs ++ [ii]).length
          simp only [List.length_append, List.length_cons, List.length_nil]
          omega
      · rw [Slab.get?_setAt_ne _ hji] at hj'
        by_cases hpii : j = ii
        · rw [hpii, ht1self] at hj'
          injection hj' with hj'
          subst hj'
          exact Or.inl (by simp [hnl, Node.new_leaf])
        · rw [ht1ne _ hpii] at hj'
          exact hC j node hj' hne' hji
  | true =>
    have hlen10 : father.childs.idxs.length = CHILDS_SIZE := by
      have := hfull
      unfold Childs.is_full at this
      exact of_decide_eq_true this
    cases hhuge : father.get_huge_childs_idx with
    | none =>
      simp only [hfull, hhuge] at hres
      set newt := HugeChilds.new radix ii with hnewt
      set hj := (t1.intiate_new_huge_child radix ii).1 with hjdef
      set t2 := (t1.intiate_new_huge_child radix ii).2 with ht2def
      have ht2map : t2.map = t1.map := rfl
      have ht2cl : t2.child_list = (t.child_list.insert newt).2 := rfl
      have hjeq : hj = (t.child_list.insert newt).1 := rfl
      have hjfresh : t.child_list.get? hj = none :=
        hjeq ▸ Slab.insert_fst_fresh t.child_list newt
      have ht2self : t2.child_list.get? hj = some newt := by
        rw [ht2cl, hjeq]; exact Slab.insert_get?_self t.child_list newt
      have ht2ne : ∀ k, k ≠ hj → t2.child_list.get? k = t.child_list.get? k := by
        intro k hk
        rw [ht2cl]; exact Slab.insert_get?_ne t.child_list newt (hjeq ▸ hk)
      have hmn : father.childs.maybe_next_childs_idx = none := hhuge
      have h1 : t2.try_get_node idx = some father := by
        show t2.map.get? idx = _
        rw [ht2map, ht1ne idx (fun he => hii_ne_idx he.symm)]
        exact hfa
      rw [h1] at hres
      simp only [Option.some_bind] at hres
      cases hsnc : father.childs.set_new_childs hj with
      | none => rw [hsnc] at hres; exact absurd hres (by simp)
      | some cs =>
      rw [hsnc] at hres
      simp only [Option.some_bind] at hres
      injection hres with hres
      subst hres
      have hcs : cs = ⟨father.childs.idxs, father.childs.radixs, some hj⟩ := by
        unfold Childs.set_new_childs at hsnc
        rw [hmn] at hsnc
        simp at hsnc
        exact hsnc.symm
      subst hcs
      have hidx_live : idx < t2.map.entries.length :=
        Slab.lt_length_of_get? (a := father) h1
      refine ⟨⟨?_, ?_, ?_⟩, rfl⟩
      · show ((t2.map.setAt idx _).get? t.root_idx).isSome
        by_cases hir : idx = t.root_idx
        · rw [← hir, Slab.get?_setAt_self hidx_live]
          rfl
        · rw [Slab.get?_setAt_ne _ (fun he => hir he.symm), ht2map,
            ht1ne _ (fun he => hii_ne_root he.symm), show t.map.get? t.root_idx =
              t.try_get_node t.root_idx from rfl, hrootn]
          rfl
      · intro pidx pnode hp
        have hp' : (t2.map.setAt idx ⟨father.compression, father.val,
            ⟨father.childs.idxs, father.childs.radixs, some hj⟩⟩).get? pidx =
            some pnode := hp
        by_cases hpi : pidx = idx
        · rw [hpi, Slab.get?_setAt_self hidx_live] at hp'
          injection hp' with hp'
          subst hp'
          constructor
          · exact (hB idx father hfa).1
          · intro hi h hx hg
            have hx' : hj = hi := by injection hx
            subst hx'
            have hg' : t2.child_list.get? hj = some h := hg
            rw [ht2self] at hg'
            injection hg' with hg'
            subst hg'
            intro hmem
            rw [hnewt] at hmem
            unfold HugeChilds.new at hmem
            simp at hmem
            exact hii_ne_root hmem.symm
        · rw [Slab.get?_setAt_ne _ hpi] at hp'
          by_cases hpii : pidx = ii
          · rw [hpii, ht2map, ht1self] at hp'
            injection hp' with hp'
            subst hp'
            constructor
            · show t.root_idx ∉ ([] : List Nat)
              simp
            · intro hi h hx hg
              exact absurd hx (by simp [hnl, Node.new_leaf, Childs.default])
          · rw [ht2map, ht1ne _ hpii] at hp'
            refine ⟨(hB pidx pnode hp').1, ?_⟩
            intro hi h hx hg
            by_cases hih : hi = hj
            · subst hih
              have hg' : t2.child_list.get? hj = some h := hg
              rw [ht2self] at hg'
              injection hg' with hg'
              subst hg'
              intro hmem
              rw [hnewt] at hmem
              unfold HugeChilds.new at hmem
              simp at hmem
              exact hii_ne_root hmem.symm
            · have hg' : t2.child_list.get? hi = some h := hg
              rw [ht2ne hi hih] at hg'
              exact (hB pidx pnode hp').2 hi h hx hg'
      · intro j node hj2 hne
        have hj' : (t2.map.setAt idx ⟨father.compression, father.val,
            ⟨father.childs.idxs, father.childs.radixs, some hj⟩⟩).get? j =
            some node := hj2
        have hne' : j ≠ t.root_idx := hne
        by_cases hji : j = idx
        · rw [hji, Slab.get?_setAt_self hidx_live] at hj'
          injection hj' with hj'
          subst hj'
          exact Or.inr (Or.inl rfl)
        · rw [Slab.get?_setAt_ne _ hji] at hj'
          by_cases hpii : j = ii
          · rw [hpii, ht2map, ht1self] at hj'
            injection hj' with hj'
            subst hj'
            exact Or.inl (by simp [hnl, Node.new_leaf])
          · rw [ht2map, ht1ne _ hpii] at hj'
            exact hC j node hj' hne' hji
    | some hgi =>
      simp only [hfull, hhuge] at hres
      cases hgt : t1.child_list.get? hgi with
      | none =>
          rw [show t1.child_list = t.child_list from rfl] at hgt
          rw [show t1.child_list = t.child_list from rfl, hgt] at hres
          exact absurd hres (by simp)
      | some hg0 =>
      rw [hgt] at hres
      simp only [Option.some_bind] at hres
      cases hp2 : hg0.push radix ii with
      | none => rw [hp2] at hres; exact absurd hres (by simp)
      | some hg1 =>
      rw [hp2] at hres
      simp only [Option.some_bind] at hres
      injection hres with hres
      subst hres
      have hg1eq : hg1 = ⟨hg0.entries ++ [(radix, ii)]⟩ := by
        unfold HugeChilds.push at hp2
        split at hp2
        · exact absurd hp2 (by simp)
        · injection hp2 with hp2; exact hp2.symm
      subst hg1eq
      have hgt' : t.child_list.get? hgi = some hg0 := hgt
      have hgi_live : hgi < t1.child_list.entries.length :=
        Slab.lt_length_of_get? (a := hg0) hgt
      refine ⟨⟨?_, ?_, ?_⟩, rfl⟩
      · show (t1.map.get? t.root_idx).isSome
        rw [ht1ne _ (fun he => hii_ne_root he.symm), show t.map.get? t.root_idx =
          t.try_get_node t.root_idx from rfl, hrootn]
        rfl
      · intro pidx pnode hp
        have hp' : t1.map.get? pidx = some pnode := hp
        by_cases hpii : pidx = ii
        · rw [hpii, ht1self] at hp'
          injection hp' with hp'
          subst hp'
          constructor
          · show t.root_idx ∉ ([] : List Nat)
            simp
          · intro hi h hx hg
            exact absurd hx (by simp [hnl, Node.new_leaf, Childs.default])
        · rw [ht1ne _ hpii] at hp'
          refine ⟨(hB pidx pnode hp').1, ?_⟩
          intro hi h hx hg
          by_cases hih : hi = hgi
          · subst hih
            have hg' : (t1.child_list.setAt hi
                ⟨hg0.entries ++ [(radix, ii)]⟩).get? hi = some h := hg
            rw [Slab.get?_setAt_self hgi_live] at hg'
            injection hg' with hg'
            subst hg'
            intro hmem
            simp only [List.map_append] at hmem
            rcases List.mem_append.mp hmem with hm | hm
            · exact (hB pidx pnode hp').2 hi hg0 hx hgt' hm
            · simp at hm
              exact hii_ne_root hm.symm
          · have hg' : (t1.child_list.setAt hgi
                ⟨hg0.entries ++ [(radix, ii)]⟩).get? hi = some h := hg
            rw [Slab.get?_setAt_ne _ hih] at hg'
            exact (hB pidx pnode hp').2 hi h hx hg'
      · intro j node hj2 hne
        have hj' : t1.map.get? j = some node := hj2
        have hne' : j ≠ t.root_idx := hne
        by_cases hpii : j = ii
        · rw [hpii, ht1self] at hj'
          injection hj' with hj'
          subst hj'
          exact Or.inl (by simp [hnl, Node.new_leaf])
        · rw [ht1ne _ hpii] at hj'
          by_cases hji : j = idx
          · subst hji
            rw [show t.map.get? j = t.try_get_node j from rfl, hfa] at hj'
            injection hj' with hj'
            subst hj'
            refine Or.inr (Or.inr ?_)
            rw [hlen10]
            decide
          · exact hC j node hj' hne' hji


theorem set_loop_preserves (fuel : Nat) :
    ∀ (t : OxidArt) (idx : Nat) (key : List Nat) (v : Nat) (t' : OxidArt),
    struct_inv t → t.set_loop fuel idx key v = some t' →
    struct_inv t' ∧ t'.root_idx = t.root_idx := by
  induction fuel with
  | zero =>
      intro t idx key v t' hinv hres
      cases key with
      | nil => exact absurd hres (by simp [OxidArt.set_loop])
      | cons b rest => exact absurd hres (by simp [OxidArt.set_loop])
  | succ fuel ih =>
      intro t idx key v t' hinv hres
      cases key with
      | nil => exact absurd hres (by simp [OxidArt.set_loop])
      | cons b rest =>
      obtain ⟨hA, hB, hC⟩ := hinv
      obtain ⟨rootn, hrootn⟩ := isSome_exists hA
      simp only [OxidArt.set_loop] at hres
      split at hres
      · -- missing child: attach a fresh leaf
        exact create_preserves hres hA hB
          (fun j node hj hne _ => hC j node hj hne)
          (fun node hn hne => (hC idx node hn hne).imp id
            (Or.imp id (fun h2 => by omega)))
      · next child_idx hf =>
        have hcne : child_idx ≠ t.root_idx := find_ne_root hB hf
        split at hres
        · exact absurd hres (by simp)
        · next node hn =>
          split at hres
          · -- Final
            injection hres with hres
            subst hres
            have hlive : child_idx < t.map.entries.length :=
              Slab.lt_length_of_get? (a := node) hn
            refine ⟨⟨?_, ?_, ?_⟩, rfl⟩
            · show ((t.map.setAt child_idx (node.set_val v)).get?
                t.root_idx).isSome
              rw [Slab.get?_setAt_ne _ (fun he => hcne he.symm),
                show t.map.get? t.root_idx = t.try_get_node t.root_idx from rfl,
                hrootn]
              rfl
            · intro pidx pnode hp
              have hp' : (t.map.setAt child_idx (node.set_val v)).get? pidx =
                  some pnode := hp
              by_cases hpi : pidx = child_idx
              · rw [hpi, Slab.get?_setAt_self hlive] at hp'
                injection hp' with hp'
                subst hp'
                exact ⟨(hB child_idx node hn).1,
                  fun hi h hx hg => (hB child_idx node hn).2 hi h hx hg⟩
              · rw [Slab.get?_setAt_ne _ hpi] at hp'
                exact hB pidx pnode hp'
            · intro j nd hj hne
              have hj' : (t.map.setAt child_idx (node.set_val v)).get? j =
                  some nd := hj
              by_cases hji : j = child_idx
              · rw [hji, Slab.get?_setAt_self hlive] at hj'
                injection hj' with hj'
                subst hj'
                exact Or.inl rfl
              · rw [Slab.get?_setAt_ne _ hji] at hj'
                exact hC j nd hj' hne
          · -- Path
            exact ih t child_idx (rest.drop node.compression.length) v t'
              ⟨hA, hB, hC⟩ hres
          · -- Partial
            next common_len hcmp =>
            have hlive : child_idx < t.map.entries.length :=
              Slab.lt_length_of_get? (a := node) hn
            split at hres
            · exact absurd hres (by simp)
            · next old_radix hor =>
              -- name the split intermediate state
              set inter : Node := ⟨List.take common_len node.compression,
                if common_len = rest.length then some v else none,
                Childs.default⟩ with hinterdef
              set ta : OxidArt :=
                ⟨t.map.setAt child_idx inter, t.child_list, t.root_idx⟩
                with htadef
              set och : Node := ⟨List.drop (common_len + 1) node.compression,
                node.val, node.childs⟩ with hochdef
              set oc := (ta.insertNode och).1 with hocdef
              set tb := (ta.insertNode och).2 with htbdef
              have htamap : ta.map = t.map.setAt child_idx inter := rfl
              have hta_child : ta.map.get? child_idx = some inter :=
                Slab.get?_setAt_self hlive inter
              have hta_ne : ∀ j, j ≠ child_idx → ta.map.get? j = t.map.get? j :=
                fun j hj => Slab.get?_setAt_ne _ hj inter
              have htbmap : tb.map = (ta.map.insert och).2 := rfl
              have hoceq : oc = (ta.map.insert och).1 := rfl
              have hocfresh : ta.map.get? oc = none :=
                hoceq ▸ Slab.insert_fst_fresh ta.map och
              have htbself : tb.map.get? oc = some och := by
                rw [htbmap, hoceq]; exact Slab.insert_get?_self ta.map och
              have htbne : ∀ j, j ≠ oc → tb.map.get? j = ta.map.get? j := by
                intro j hj
                rw [htbmap]; exact Slab.insert_get?_ne ta.map och (hoceq ▸ hj)
              have hoc_ne_child : oc ≠ child_idx := by
                intro he
                rw [he, hta_child] at hocfresh
                exact absurd hocfresh (by simp)
              have hta_root : ta.map.get? t.root_idx = some rootn := by
                rw [hta_ne _ (fun he => hcne he.symm)]
                exact hrootn
              have hoc_ne_root : oc ≠ t.root_idx := by
                intro he
                rw [he, hta_root] at hocfresh
                exact absurd hocfresh (by simp)
              have htb_child : tb.map.get? child_idx = some inter := by
                rw [htbne _ (fun he => hoc_ne_child he.symm)]
                exact hta_child
              split at hres
              · exact absurd hres (by simp)
              · next node2 hnode2 =>
                have hnode2' : node2 = inter := by
                  have h0 : tb.try_get_node child_idx = some node2 := hnode2
                  rw [show tb.try_get_node child_idx =
                    tb.map.get? child_idx from rfl, htb_child] at h0
                  injection h0 with h0
                  exact h0.symm
                subst hnode2'
                split at hres
                · exact absurd hres (by simp)
                · next cs hpush =>
                  have hcs : cs = ⟨[oc], [old_radix], none⟩ := by
                    rw [hinterdef] at hpush
                    unfold Childs.push at hpush
                    simp [Childs.default, Childs.is_full, CHILDS_SIZE] at hpush
                    exact hpush.symm
                  subst hcs
                  -- the state after the split, before the optional second leaf
                  set inter2 : Node := ⟨inter.compression, inter.val,
                    ⟨[oc], [old_radix], none⟩⟩ with hinter2def
                  set tc : OxidArt := ⟨tb.map.setAt child_idx inter2,
                    tb.child_list, tb.root_idx⟩ with htcdef
                  have hchild_live_tb : child_idx < tb.map.entries.length :=
                    Slab.lt_length_of_get? (a := inter) htb_child
                  have htc_child : tc.map.get? child_idx = some inter2 :=
                    Slab.get?_setAt_self hchild_live_tb inter2
                  have htc_ne : ∀ j, j ≠ child_idx →
                      tc.map.get? j = tb.map.get? j :=
                    fun j hj => Slab.get?_setAt_ne _ hj inter2
                  have htc_oc : tc.map.get? oc = some och := by
                    rw [htc_ne _ hoc_ne_child]
                    exact htbself
                  have htc_cl : tc.child_list = t.child_list := rfl
                  have htc_root : tc.root_idx = t.root_idx := rfl
                  have htc_other : ∀ j, j ≠ child_idx → j ≠ oc →
                      tc.map.get? j = t.map.get? j := by
                    intro j h1 h2
                    rw [htc_ne _ h1, htbne _ h2, hta_ne _ h1]
                  have hA_c : (tc.try_get_node tc.root_idx).isSome := by
                    show (tc.map.get? t.root_idx).isSome
                    rw [htc_other _ (fun he => hcne he.symm)
                      (fun he => hoc_ne_root he.symm),
                      show t.map.get? t.root_idx =
                        t.try_get_node t.root_idx from rfl, hrootn]
                    rfl
                  have hB_c : unreferenced tc tc.root_idx := by
                    intro pidx pnode hp
                    have hp' : tc.map.get? pidx = some pnode := hp
                    by_cases hpi : pidx = child_idx
                    · rw [hpi, htc_child] at hp'
                      injection hp' with hp'
                      subst hp'
                      constructor
                      · show t.root_idx ∉ [oc]
                        intro hm
                        rw [List.mem_singleton] at hm
                        exact hoc_ne_root hm.symm
                      · intro hi h hx hg
                        exact absurd hx (by rw [hinter2def]; simp)
                    · rw [htc_ne _ hpi] at hp'
                      by_cases hpo : pidx = oc
                      · rw [hpo, htbself] at hp'
                        injection hp' with hp'
                        subst hp'
                        refine ⟨(hB child_idx node hn).1, ?_⟩
                        intro hi h hx hg
                        exact (hB child_idx node hn).2 hi h hx hg
                      · rw [htbne _ hpo, hta_ne _ hpi] at hp'
                        exact hB pidx pnode hp'
                  have hC_c : ∀ j nd, tc.try_get_node j = some nd →
                      j ≠ tc.root_idx → j ≠ child_idx →
                      nd.val.isSome ∨ nd.childs.maybe_next_childs_idx.isSome ∨
                        2 ≤ nd.childs.idxs.length := by
                    intro j nd hj hne hji
                    have hj' : tc.map.get? j = some nd := hj
                    rw [htc_ne _ hji] at hj'
                    by_cases hpo : j = oc
                    · rw [hpo, htbself] at hj'
                      injection hj' with hj'
                      subst hj'
                      rcases hC child_idx node hn hcne with hv | hx | hl
                      · exact Or.inl hv
                      · exact Or.inr (Or.inl hx)
                      · exact Or.inr (Or.inr hl)
                    · rw [htbne _ hpo, hta_ne _ hji] at hj'
                      exact hC j nd hj' hne
                  have hF_c : ∀ nd, tc.try_get_node child_idx = some nd →
                      child_idx ≠ tc.root_idx →
                      nd.val.isSome ∨ nd.childs.maybe_next_childs_idx.isSome ∨
                        1 ≤ nd.childs.idxs.length := by
                    intro nd hj _
                    have hj' : tc.map.get? child_idx = some nd := hj
                    rw [htc_child] at hj'
                    injection hj' with hj'
                    subst hj'
                    refine Or.inr (Or.inr ?_)
                    rw [hinter2def]
                    simp
                  by_cases hvoi : common_len = rest.length
                  · rw [if_pos hvoi] at hres
                    injection hres with hres
                    subst hres
                    refine ⟨⟨hA_c, hB_c, ?_⟩, rfl⟩
                    intro j nd hj hne
                    by_cases hji : j = child_idx
                    · subst hji
                      have hj' : tc.map.get? j = some nd := hj
                      rw [htc_child] at hj'
                      injection hj' with hj'
                      subst hj'
                      refine Or.inl ?_
                      rw [hinter2def, hinterdef]
                      simp [if_pos hvoi]
                    · exact hC_c j nd hj hne hji
                  · rw [if_neg hvoi] at hres
                    split at hres
                    · exact absurd hres (by simp)
                    · next new_radix hnr =>
                      have := create_preserves hres hA_c hB_c hC_c hF_c
                      exact ⟨this.1, this.2⟩

/-- `set` preserves the structural invariant. -/
theorem set_preserves {t t' : OxidArt} {key : List Nat} {v : Nat}
    (hinv : struct_inv t) (hres : t.set key v = some t') :
    struct_inv t' ∧ t'.root_idx = t.root_idx := by
  obtain ⟨hA, hB, hC⟩ := hinv
  obtain ⟨rootn, hrootn⟩ := isSome_exists hA
  unfold OxidArt.set at hres
  by_cases hk : key.length = 0
  · rw [if_pos hk, hrootn] at hres
    simp only [Option.bind_eq_bind, Option.some_bind] at hres
    injection hres with hres
    subst hres
    have hlive : t.root_idx < t.map.entries.length :=
      Slab.lt_length_of_get? (a := rootn) hrootn
    refine ⟨⟨?_, ?_, ?_⟩, rfl⟩
    · show ((t.map.setAt t.root_idx (rootn.set_val v)).get? t.root_idx).isSome
      rw [Slab.get?_setAt_self hlive]
      rfl
    · intro pidx pnode hp
      have hp' : (t.map.setAt t.root_idx (rootn.set_val v)).get? pidx =
          some pnode := hp
      by_cases hpi : pidx = t.root_idx
      · rw [hpi, Slab.get?_setAt_self hlive] at hp'
        injection hp' with hp'
        subst hp'
        exact ⟨(hB t.root_idx rootn hrootn).1,
          fun hi h hx hg => (hB t.root_idx rootn hrootn).2 hi h hx hg⟩
      · rw [Slab.get?_setAt_ne _ hpi] at hp'
        exact hB pidx pnode hp'
    · intro j nd hj hne
      have hj' : (t.map.setAt t.root_idx (rootn.set_val v)).get? j = some nd :=
        hj
      rw [Slab.get?_setAt_ne _ hne] at hj'
      exact hC j nd hj' hne
  · rw [if_neg hk] at hres
    exact set_loop_preserves _ t t.root_idx key v t' ⟨hA, hB, hC⟩ hres

/-- `try_recompress` restores the structural invariant from its weakening. -/
theorem try_recompress_restores {t : OxidArt} {p : Nat} {t' : OxidArt}
    (hw : weak_inv t p) (hres : t.try_recompress p = some t') :
    struct_inv t' ∧ t'.root_idx = t.root_idx := by
  obtain ⟨hA, hB, hC2, hC1⟩ := hw
  obtain ⟨rootn, hrootn⟩ := isSome_exists hA
  unfold OxidArt.try_recompress at hres
  cases hnp : t.try_get_node p with
  | none => rw [hnp] at hres; exact absurd hres (by simp)
  | some node =>
  rw [hnp] at hres
  simp only [Option.bind_eq_bind, Option.some_bind] at hres
  by_cases hv : node.val.isSome
  · rw [if_pos hv] at hres
    injection hres with hres
    subst hres
    refine ⟨⟨hA, hB, ?_⟩, rfl⟩
    intro j nd hj hne
    by_cases hjp : j = p
    · subst hjp
      rw [hnp] at hj
      injection hj with hj
      subst hj
      exact Or.inl hv
    · exact hC2 j nd hj hne hjp
  · rw [if_neg hv] at hres
    cases hsc : node.childs.get_single_child with
    | none =>
        rw [hsc] at hres
        injection hres with hres
        subst hres
        refine ⟨⟨hA, hB, ?_⟩, rfl⟩
        intro j nd hj hne
        by_cases hjp : j = p
        · subst hjp
          rw [hnp] at hj
          injection hj with hj
          subst hj
          rcases hC1 node hnp hne with h1 | h1 | h1
          · exact Or.inl h1
          · exact Or.inr (Or.inl h1)
          · -- one primary child but not a single child: either an overflow
            -- table is attached or the primary region has ≥ 2 entries
            cases hx : node.childs.maybe_next_childs_idx with
            | some k => exact Or.inr (Or.inl rfl)
            | none =>
                refine Or.inr (Or.inr ?_)
                unfold Childs.get_single_child at hsc
                split at hsc
                · exact absurd hsc (by simp)
                · next hcond =>
                    rw [not_and_or] at hcond
                    rcases hcond with hlen | hnx
                    · omega
                    · exact absurd hx hnx
        · exact hC2 j nd hj hne hjp
    | some pr =>
    obtain ⟨cr, ci⟩ := pr
    rw [hsc] at hres
    simp only [Option.bind_eq_bind, Option.some_bind] at hres
    obtain ⟨hci_mem, hlen1, hnext⟩ := Childs.get_single_child_mem hsc
    have hci_ne_root : ci ≠ t.root_idx := by
      intro he
      exact (hB p node hnp).1 (he ▸ hci_mem)
    cases htake : t.map.take ci with
    | none => rw [htake] at hres; exact absurd hres (by simp)
    | some pr2 =>
    rw [htake] at hres
    simp only [Option.some_bind] at hres
    obtain ⟨child, map'⟩ := pr2
    have htake' := htake
    unfold Slab.take at htake'
    cases hgci : t.map.get? ci with
    | none => rw [hgci] at htake'; exact absurd htake' (by simp)
    | some child0 =>
    rw [hgci] at htake'
    injection htake' with htake'
    rw [Prod.mk.injEq] at htake'
    obtain ⟨hc0, hm0⟩ := htake'
    have hmap' : map' = t.map.removeAt ci := hm0.symm
    have hchild : t.map.get? ci = some child := by rw [← hc0]; exact hgci
    rw [hmap'] at hres
    have hp_ne_ci : p ≠ ci := by
      intro he
      rw [show ({ t with map := t.map.removeAt ci } : OxidArt).try_get_node p =
        (t.map.removeAt ci).get? p from rfl, he,
        Slab.get?_removeAt_self] at hres
      exact absurd hres (by simp)
    rw [show ({ t with map := t.map.removeAt ci } : OxidArt).try_get_node p =
      (t.map.removeAt ci).get? p from rfl,
      Slab.get?_removeAt_ne _ hp_ne_ci,
      show t.map.get? p = some node from hnp] at hres
    simp only [Option.some_bind] at hres
    injection hres with hres
    subst hres
    have hp_live : p < (t.map.removeAt ci).entries.length :=
      Slab.lt_length_of_get? (a := node)
        (by rw [Slab.get?_removeAt_ne _ hp_ne_ci]; exact hnp)
    have hci_ne_p : ci ≠ p := fun he => hp_ne_ci he.symm
    have hchild_inv := hC2 ci child (by exact hchild) hci_ne_root hci_ne_p
    refine ⟨⟨?_, ?_, ?_⟩, rfl⟩
    · show (((t.map.removeAt ci).setAt p _).get? t.root_idx).isSome
      by_cases hpr : p = t.root_idx
      · rw [← hpr, Slab.get?_setAt_self hp_live]
        rfl
      · rw [Slab.get?_setAt_ne _ (fun he => hpr he.symm),
          Slab.get?_removeAt_ne _ (fun he => hci_ne_root he.symm),
          show t.map.get? t.root_idx = t.try_get_node t.root_idx from rfl,
          hrootn]
        rfl
    · intro pidx pnode hp
      have hp' : ((t.map.removeAt ci).setAt p
          ⟨node.compression ++ cr :: child.compression, child.val,
            child.childs⟩).get? pidx = some pnode := hp
      by_cases hpi : pidx = p
      · rw [hpi, Slab.get?_setAt_self hp_live] at hp'
        injection hp' with hp'
        subst hp'
        exact ⟨(hB ci child hchild).1,
          fun hi h hx hg => (hB ci child hchild).2 hi h hx hg⟩
      · rw [Slab.get?_setAt_ne _ hpi] at hp'
        by_cases hpc : pidx = ci
        · rw [hpc, Slab.get?_removeAt_self] at hp'
          exact absurd hp' (by simp)
        · rw [Slab.get?_removeAt_ne _ hpc] at hp'
          exact hB pidx pnode hp'
    · intro j nd hj hne
      have hj' : ((t.map.removeAt ci).setAt p
          ⟨node.compression ++ cr :: child.compression, child.val,
            child.childs⟩).get? j = some nd := hj
      by_cases hjp : j = p
      · rw [hjp, Slab.get?_setAt_self hp_live] at hj'
        injection hj' with hj'
        subst hj'
        exact hchild_inv
      · rw [Slab.get?_setAt_ne _ hjp] at hj'
        by_cases hjc : j = ci
        · rw [hjc, Slab.get?_removeAt_self] at hj'
          exact absurd hj' (by simp)
        · rw [Slab.get?_removeAt_ne _ hjc] at hj'
          exact hC2 j nd hj' hne hjp


theorem struct_inv_weak {t : OxidArt} (h : struct_inv t) (p : Nat) :
    weak_inv t p :=
  ⟨h.1, h.2.1, fun j nd hj hne _ => h.2.2 j nd hj hne,
   fun nd hj hne => (h.2.2 p nd hj hne).imp id (Or.imp id fun h2 => by omega)⟩

theorem struct_of_weak_root {t : OxidArt} (h : weak_inv t t.root_idx) :
    struct_inv t :=
  ⟨h.1, h.2.1, fun j nd hj hne => h.2.2.1 j nd hj hne hne⟩

/-- Vacating a non-root slot preserves the structural invariant. -/
theorem struct_inv_removeAt {t : OxidArt} {x : Nat} (h : struct_inv t)
    (hx : x ≠ t.root_idx) :
    struct_inv { t with map := t.map.removeAt x } := by
  refine ⟨?_, ?_, ?_⟩
  · show ((t.map.removeAt x).get? t.root_idx).isSome
    rw [Slab.get?_removeAt_ne _ (fun he => hx he.symm)]
    exact h.1
  · intro pidx pnode hp
    have hp' : (t.map.removeAt x).get? pidx = some pnode := hp
    by_cases hpx : pidx = x
    · rw [hpx, Slab.get?_removeAt_self] at hp'
      exact absurd hp' (by simp)
    · rw [Slab.get?_removeAt_ne _ hpx] at hp'
      exact h.2.1 pidx pnode hp'
  · intro j nd hj hne
    have hj' : (t.map.removeAt x).get? j = some nd := hj
    by_cases hjx : j = x
    · rw [hjx, Slab.get?_removeAt_self] at hj'
      exact absurd hj' (by simp)
    · rw [Slab.get?_removeAt_ne _ hjx] at hj'
      exact h.2.2 j nd hj' hne

/-- `remove_child` yields the weakened invariant at the parent. -/
theorem remove_child_weak {t : OxidArt} {p r : Nat} {t' : OxidArt}
    (hinv : struct_inv t) (hres : t.remove_child p r = some t') :
    weak_inv t' p ∧ t'.root_idx = t.root_idx := by
  obtain ⟨hA, hB, hC⟩ := hinv
  obtain ⟨rootn, hrootn⟩ := isSome_exists hA
  unfold OxidArt.remove_child at hres
  cases hnp : t.try_get_node p with
  | none => rw [hnp] at hres; exact absurd hres (by simp)
  | some parent =>
  rw [hnp] at hres
  simp only [Option.bind_eq_bind, Option.some_bind] at hres
  split at hres
  · next x cs hrm =>
    injection hres with hres
    subst hres
    have hp_live : p < t.map.entries.length :=
      Slab.lt_length_of_get? (a := parent) hnp
    have hcs : cs.idxs.length = parent.childs.idxs.length - 1 ∧
        (∀ y ∈ cs.idxs, y ∈ parent.childs.idxs) ∧
        cs.maybe_next_childs_idx = parent.childs.maybe_next_childs_idx ∧
        1 ≤ parent.childs.idxs.length := by
      unfold Childs.remove at hrm
      cases hfi : parent.childs.radixs.findIdx? (· = r) with
      | none =>
          rw [hfi] at hrm
          rw [Prod.mk.injEq] at hrm
          exact absurd hrm.1 (by simp)
      | some pos =>
          rw [hfi] at hrm
          rw [Prod.mk.injEq] at hrm
          obtain ⟨hrm1, hrm2⟩ := hrm
          rw [← hrm2]
          refine ⟨?_, listSwapRemove_subset _ _, rfl, ?_⟩
          · show (listSwapRemove parent.childs.idxs pos).length = _
            unfold listSwapRemove
            rw [List.length_dropLast, List.length_set]
          · cases hq : parent.childs.idxs with
            | nil =>
                rw [hq] at hrm1
                exact absurd hrm1 (by simp)
            | cons a as => simp
    refine ⟨⟨?_, ?_, ?_, ?_⟩, rfl⟩
    · show ((t.map.setAt p _).get? t.root_idx).isSome
      by_cases hpr : p = t.root_idx
      · rw [← hpr, Slab.get?_setAt_self hp_live]
        rfl
      · rw [Slab.get?_setAt_ne _ (fun he => hpr he.symm),
          show t.map.get? t.root_idx = t.try_get_node t.root_idx from rfl,
          hrootn]
        rfl
    · intro pidx pnode hp2
      have hp' : (t.map.setAt p
          ⟨parent.compression, parent.val, cs⟩).get? pidx = some pnode := hp2
      by_cases hpi : pidx = p
      · rw [hpi, Slab.get?_setAt_self hp_live] at hp'
        injection hp' with hp'
        subst hp'
        constructor
        · show t.root_idx ∉ cs.idxs
          intro hm
          exact (hB p parent hnp).1 (hcs.2.1 _ hm)
        · intro hi h hx2 hg
          have hx' : parent.childs.maybe_next_childs_idx = some hi := by
            rw [← hcs.2.2.1]
            exact hx2
          exact (hB p parent hnp).2 hi h hx' hg
      · rw [Slab.get?_setAt_ne _ hpi] at hp'
        exact hB pidx pnode hp'
    · intro j nd hj hne hjp
      have hj' : (t.map.setAt p
          ⟨parent.compression, parent.val, cs⟩).get? j = some nd := hj
      rw [Slab.get?_setAt_ne _ hjp] at hj'
      exact hC j nd hj' hne
    · intro nd hj hne
      have hj' : (t.map.setAt p
          ⟨parent.compression, parent.val, cs⟩).get? p = some nd := hj
      rw [Slab.get?_setAt_self hp_live] at hj'
      injection hj' with hj'
      subst hj'
      rcases hC p parent hnp hne with h1 | h1 | h1
      · exact Or.inl h1
      · exact Or.inr (Or.inl (by
          show cs.maybe_next_childs_idx.isSome = true
          rw [hcs.2.2.1]; exact h1))
      · refine Or.inr (Or.inr ?_)
        show 1 ≤ cs.idxs.length
        omega
  · -- the radix was not in the primary region
    split at hres
    · -- no overflow table either: no mutation
      injection hres with hres
      subst hres
      exact ⟨struct_inv_weak ⟨hA, hB, hC⟩ p, rfl⟩
    · next hgi hx =>
      cases hgt : t.child_list.get? hgi with
      | none => rw [hgt] at hres; exact absurd hres (by simp)
      | some huge =>
      rw [hgt] at hres
      simp only [Option.some_bind] at hres
      injection hres with hres
      subst hres
      have hgi_live : hgi < t.child_list.entries.length :=
        Slab.lt_length_of_get? (a := huge) hgt
      have hsub : ∀ y ∈ (huge.remove r).2.entries, y ∈ huge.entries := by
        intro y hy
        unfold HugeChilds.remove at hy
        cases hfi : huge.entries.findIdx? (·.1 = r) with
        | none => rw [hfi] at hy; exact hy
        | some pos =>
            rw [hfi] at hy
            exact listSwapRemovePair_subset _ _ y hy
      refine ⟨⟨hA, ?_, ?_, ?_⟩, rfl⟩
      · intro pidx pnode hp2
        have hp' : t.map.get? pidx = some pnode := hp2
        refine ⟨(hB pidx pnode hp').1, ?_⟩
        intro hi h hx2 hg
        by_cases hih : hi = hgi
        · subst hih
          have hg' : (t.child_list.setAt hi (huge.remove r).2).get? hi =
              some h := hg
          rw [Slab.get?_setAt_self hgi_live] at hg'
          injection hg' with hg'
          subst hg'
          intro hm
          rw [List.mem_map] at hm
          obtain ⟨e, he, hesnd⟩ := hm
          exact (hB pidx pnode hp').2 hi huge hx2 hgt
            (List.mem_map.mpr ⟨e, hsub e he, hesnd⟩)
        · have hg' : (t.child_list.setAt hgi (huge.remove r).2).get? hi =
              some h := hg
          rw [Slab.get?_setAt_ne _ hih] at hg'
          exact (hB pidx pnode hp').2 hi h hx2 hg'
      · intro j nd hj hne _
        exact hC j nd hj hne
      · intro nd hj hne
        exact (hC p nd hj hne).imp id (Or.imp id fun h2 => by omega)

/-- The `del` descent only ever returns a referenced, live, non-root
target. -/
theorem del_loop_target {t : OxidArt} (hB : unreferenced t t.root_idx) :
    ∀ (fuel p pr idx : Nat) (rest : List Nat) (out : Nat × Nat × Nat),
      idx ≠ t.root_idx →
      t.del_loop fuel p pr idx rest = some out →
      out.1 ≠ t.root_idx ∧ ∃ nd, t.try_get_node out.1 = some nd := by
  intro fuel
  induction fuel with
  | zero =>
      intro p pr idx rest out hne hres
      exact absurd hres (by simp [OxidArt.del_loop])
  | succ fuel ih =>
      intro p pr idx rest out hne hres
      simp only [OxidArt.del_loop] at hres
      split at hres
      · exact absurd hres (by simp)
      · next node hnode =>
        split at hres
        · injection hres with hres
          subst hres
          exact ⟨hne, node, hnode⟩
        · exact absurd hres (by simp)
        · split at hres
          · exact absurd hres (by simp)
          · split at hres
            · exact absurd hres (by simp)
            · next child_idx hf =>
              exact ih idx _ child_idx _ out (find_ne_root hB hf) hres

/-- The `deln` descent only ever returns a referenced, live, non-root
target. -/
theorem deln_loop_target {t : OxidArt} (hB : unreferenced t t.root_idx) :
    ∀ (fuel p pr idx : Nat) (rest : List Nat) (out : Nat × Nat × Nat),
      idx ≠ t.root_idx →
      t.deln_loop fuel p pr idx rest = some out →
      out.1 ≠ t.root_idx ∧ ∃ nd, t.try_get_node out.1 = some nd := by
  intro fuel
  induction fuel with
  | zero =>
      intro p pr idx rest out hne hres
      exact absurd hres (by simp [OxidArt.deln_loop])
  | succ fuel ih =>
      intro p pr idx rest out hne hres
      simp only [OxidArt.deln_loop] at hres
      split at hres
      · exact absurd hres (by simp)
      · next node hnode =>
        split at hres
        · injection hres with hres
          subst hres
          exact ⟨hne, node, hnode⟩
        · split at hres
          · injection hres with hres
            subst hres
            exact ⟨hne, node, hnode⟩
          · exact absurd hres (by simp)
        · split at hres
          · exact absurd hres (by simp)
          · split at hres
            · exact absurd hres (by simp)
            · next child_idx hf =>
              exact ih idx _ child_idx _ out (find_ne_root hB hf) hres


/-- `del` preserves the structural invariant. -/
theorem del_preserves {t t' : OxidArt} {key : List Nat} {res : Option Nat}
    (hinv : struct_inv t) (hres : t.del key = some (res, t')) :
    struct_inv t' ∧ t'.root_idx = t.root_idx := by
  obtain ⟨hA, hB, hC⟩ := hinv
  obtain ⟨rootn, hrootn⟩ := isSome_exists hA
  have hroot_live : t.root_idx < t.map.entries.length :=
    Slab.lt_length_of_get? (a := rootn) hrootn
  cases key with
  | nil =>
      simp only [OxidArt.del] at hres
      rw [hrootn] at hres
      simp only [Option.bind_eq_bind, Option.some_bind] at hres
      rw [Option.bind_eq_some] at hres
      obtain ⟨t2, hrc, heq⟩ := hres
      injection heq with heq
      rw [Prod.mk.injEq] at heq
      obtain ⟨_, heq2⟩ := heq
      subst heq2
      have hmidw : weak_inv
          { t with
            map := t.map.setAt t.root_idx (Node.mk rootn.compression none rootn.childs) }
          t.root_idx := by
        refine ⟨?_, ?_, ?_, ?_⟩
        · show ((t.map.setAt t.root_idx _).get? t.root_idx).isSome
          rw [Slab.get?_setAt_self hroot_live]
          rfl
        · intro pidx pnode hp
          have hp' : (t.map.setAt t.root_idx
              ⟨rootn.compression, none, rootn.childs⟩).get? pidx =
              some pnode := hp
          by_cases hpi : pidx = t.root_idx
          · rw [hpi, Slab.get?_setAt_self hroot_live] at hp'
            injection hp' with hp'
            subst hp'
            exact ⟨(hB t.root_idx rootn hrootn).1,
              fun hi h hx hg => (hB t.root_idx rootn hrootn).2 hi h hx hg⟩
          · rw [Slab.get?_setAt_ne _ hpi] at hp'
            exact hB pidx pnode hp'
        · intro j nd hj hne _
          have hj' : (t.map.setAt t.root_idx
              ⟨rootn.compression, none, rootn.childs⟩).get? j = some nd := hj
          rw [Slab.get?_setAt_ne _ hne] at hj'
          exact hC j nd hj' hne
        · intro nd _ hne
          exact absurd rfl hne
      obtain ⟨hs2, hr2⟩ := try_recompress_restores hmidw hrc
      exact ⟨hs2, hr2⟩
  | cons b rest =>
      simp only [OxidArt.del] at hres
      split at hres
      · injection hres with hres
        rw [Prod.mk.injEq] at hres
        obtain ⟨_, h2⟩ := hres
        subst h2
        exact ⟨⟨hA, hB, hC⟩, rfl⟩
      · next idx hf =>
        split at hres
        · injection hres with hres
          rw [Prod.mk.injEq] at hres
          obtain ⟨_, h2⟩ := hres
          subst h2
          exact ⟨⟨hA, hB, hC⟩, rfl⟩
        · next ti pi pri hloop =>
          have hidx_ne := find_ne_root hB hf
          obtain ⟨hti_ne, nd, hnd⟩ :=
            del_loop_target hB _ _ _ _ _ _ hidx_ne hloop
          rw [hnd] at hres
          simp only [Option.bind_eq_bind, Option.some_bind] at hres
          split at hres
          · -- the target keeps its children
            next hhc =>
            split at hres
            · injection hres with hres
              rw [Prod.mk.injEq] at hres
              obtain ⟨_, h2⟩ := hres
              subst h2
              exact ⟨⟨hA, hB, hC⟩, rfl⟩
            · next old_val hval =>
              rw [Option.bind_eq_some] at hres
              obtain ⟨t2, hrc, heq⟩ := hres
              injection heq with heq
              rw [Prod.mk.injEq] at heq
              obtain ⟨_, heq2⟩ := heq
              subst heq2
              have hti_live : ti < t.map.entries.length :=
                Slab.lt_length_of_get? (a := nd) hnd
              have hmidw : weak_inv
                  { t with
                    map := t.map.setAt ti (Node.mk nd.compression none nd.childs) }
                  ti := by
                refine ⟨?_, ?_, ?_, ?_⟩
                · show ((t.map.setAt ti _).get? t.root_idx).isSome
                  rw [Slab.get?_setAt_ne _ (fun he => hti_ne he.symm),
                    show t.map.get? t.root_idx =
                      t.try_get_node t.root_idx from rfl, hrootn]
                  rfl
                · intro pidx pnode hp
                  have hp' : (t.map.setAt ti
                      ⟨nd.compression, none, nd.childs⟩).get? pidx =
                      some pnode := hp
                  by_cases hpi : pidx = ti
                  · rw [hpi, Slab.get?_setAt_self hti_live] at hp'
                    injection hp' with hp'
                    subst hp'
                    exact ⟨(hB ti nd hnd).1,
                      fun hi h hx hg => (hB ti nd hnd).2 hi h hx hg⟩
                  · rw [Slab.get?_setAt_ne _ hpi] at hp'
                    exact hB pidx pnode hp'
                · intro j nd2 hj hne hjp
                  have hj' : (t.map.setAt ti
                      ⟨nd.compression, none, nd.childs⟩).get? j = some nd2 := hj
                  rw [Slab.get?_setAt_ne _ hjp] at hj'
                  exact hC j nd2 hj' hne
                · intro nd2 hj _
                  have hj' : (t.map.setAt ti
                      ⟨nd.compression, none, nd.childs⟩).get? ti =
                      some nd2 := hj
                  rw [Slab.get?_setAt_self hti_live] at hj'
                  injection hj' with hj'
                  subst hj'
                  rcases Bool.or_eq_true_iff.mp hhc with h1 | h1
                  · refine Or.inr (Or.inr ?_)
                    show 1 ≤ nd.childs.idxs.length
                    have : ¬ nd.childs.idxs.isEmpty :=
                      fun he => by rw [Childs.is_empty, he] at h1; simp at h1
                    cases hq : nd.childs.idxs with
                    | nil => rw [hq] at this; simp at this
                    | cons a as => simp
                  · refine Or.inr (Or.inl ?_)
                    show nd.childs.maybe_next_childs_idx.isSome = true
                    exact h1
              obtain ⟨hs2, hr2⟩ := try_recompress_restores hmidw hrc
              exact ⟨hs2, hr2⟩
          · -- leaf removal
            next hhc =>
            rw [Option.bind_eq_some] at hres
            obtain ⟨pr2, htake, hres⟩ := hres
            obtain ⟨node2, map2⟩ := pr2
            unfold Slab.take at htake
            rw [show t.map.get? ti = some nd from hnd] at htake
            injection htake with htake
            rw [Prod.mk.injEq] at htake
            obtain ⟨hn2, hm2⟩ := htake
            subst hn2
            have hmap2 : map2 = t.map.removeAt ti := hm2.symm
            rw [hmap2] at hres
            have hrm_inv : struct_inv { t with map := t.map.removeAt ti } :=
              struct_inv_removeAt ⟨hA, hB, hC⟩ hti_ne
            split at hres
            · injection hres with hres
              rw [Prod.mk.injEq] at hres
              obtain ⟨_, h2⟩ := hres
              subst h2
              exact ⟨hrm_inv, rfl⟩
            · next old_val hval =>
              rw [Option.bind_eq_some] at hres
              obtain ⟨t3, hrm, hres⟩ := hres
              obtain ⟨hw3, hr3⟩ := remove_child_weak hrm_inv hrm
              split at hres
              · next hpir =>
                rw [Option.bind_eq_some] at hres
                obtain ⟨t4, hrec, heq⟩ := hres
                injection heq with heq
                rw [Prod.mk.injEq] at heq
                obtain ⟨_, heq2⟩ := heq
                subst heq2
                obtain ⟨hs4, hr4⟩ := try_recompress_restores hw3 hrec
                refine ⟨hs4, ?_⟩
                rw [hr4, hr3]
              · next hpir =>
                injection hres with hres
                rw [Prod.mk.injEq] at hres
                obtain ⟨_, heq2⟩ := hres
                subst heq2
                have hpir' : pi = t3.root_idx := by
                  by_contra hcon
                  exact hpir hcon
                rw [hpir'] at hw3
                exact ⟨struct_of_weak_root hw3, hr3⟩


theorem mem_iter_snd {c : Childs} {x : Nat} (h : x ∈ c.iter.map (·.2)) :
    x ∈ c.idxs := by
  rw [List.mem_map] at h
  obtain ⟨pr, hpr, hsnd⟩ := h
  exact hsnd ▸ (List.of_mem_zip hpr).2

/-- Every index in a node's child collection is a stored child reference, so
none of them is the root. -/
theorem collect_child_indices_ne_root {t : OxidArt} {x : Nat}
    (hB : unreferenced t t.root_idx) :
    ∀ s ∈ t.collect_child_indices x, s ≠ t.root_idx := by
  intro s hs
  unfold OxidArt.collect_child_indices at hs
  cases hnx : t.try_get_node x with
  | none => rw [hnx] at hs; simp at hs
  | some node =>
      rw [hnx] at hs
      rcases List.mem_append.mp hs with hm | hm
      · intro he
        exact (hB x node hnx).1 (he ▸ mem_iter_snd hm)
      · split at hm
        · next hi hgx =>
            split at hm
            · next huge hgt =>
                intro he
                exact (hB x node hnx).2 hi huge hgx hgt (he ▸ hm)
            · simp at hm
        · simp at hm

/-- `free_subtree_loop` only ever vacates slots: every node and table live
afterwards was live, unchanged, before; and when the root never enters the
stack (which `unreferenced` guarantees for everything pushed), the root's
slot is untouched. -/
theorem free_loop_submap :
    ∀ (fuel : Nat) (t : OxidArt) (stack : List Nat) (c : Nat) (t' : OxidArt),
      t.free_subtree_loop fuel stack = some (c, t') →
      (∀ j a, t'.map.get? j = some a → t.map.get? j = some a) ∧
      (∀ hi h, t'.child_list.get? hi = some h →
        t.child_list.get? hi = some h) ∧
      t'.root_idx = t.root_idx ∧
      (unreferenced t t.root_idx → (∀ s ∈ stack, s ≠ t.root_idx) →
        t'.map.get? t'.root_idx = t.map.get? t.root_idx) := by
  intro fuel
  induction fuel with
  | zero =>
      intro t stack c t' hres
      exact absurd hres (by simp [OxidArt.free_subtree_loop])
  | succ fuel ih =>
      intro t stack c t' hres
      cases stack with
      | nil =>
          simp only [OxidArt.free_subtree_loop] at hres
          injection hres with hres
          rw [Prod.mk.injEq] at hres
          obtain ⟨_, h2⟩ := hres
          subst h2
          exact ⟨fun j a h => h, fun hi h hh => hh, rfl, fun _ _ => rfl⟩
      | cons nidx rest =>
      simp only [OxidArt.free_subtree_loop] at hres
      split at hres
      · -- vacant slot: skip
        next hvac =>
        obtain ⟨hm, hcl, hr, hro⟩ := ih t rest c t' hres
        exact ⟨hm, hcl, hr,
          fun hB hs => hro hB (fun s hs2 => hs s (List.mem_cons_of_mem _ hs2))⟩
      · next node hnode =>
        split at hres
        · exact absurd hres (by simp)
        · next cl2 hcl2 =>
          split at hres
          · exact absurd hres (by simp)
          · next c0 tfin hrec =>
            injection hres with hres
            rw [Prod.mk.injEq] at hres
            obtain ⟨_, h2⟩ := hres
            subst h2
            obtain ⟨hm, hcl, hr, hro⟩ := ih _ _ _ _ hrec
            have hclsub : ∀ hi h, cl2.get? hi = some h →
                t.child_list.get? hi = some h := by
              intro hi h hh
              cases hgx : node.childs.get_next_idx with
              | none =>
                  rw [hgx] at hcl2
                  have hcl2x : some t.child_list = some cl2 := hcl2
                  injection hcl2x with hcl2x
                  rw [← hcl2x] at hh
                  exact hh
              | some hgi =>
                  rw [hgx] at hcl2
                  have hcl2x : Option.map (fun pr => pr.2)
                      (t.child_list.take hgi) = some cl2 := hcl2
                  cases htk : t.child_list.take hgi with
                  | none => rw [htk] at hcl2x; exact absurd hcl2x (by simp)
                  | some pr =>
                      rw [htk] at hcl2x
                      have hcl2y : some pr.2 = some cl2 := hcl2x
                      injection hcl2y with hcl2y
                      unfold Slab.take at htk
                      cases hgt : t.child_list.get? hgi with
                      | none => rw [hgt] at htk; exact absurd htk (by simp)
                      | some huge =>
                          rw [hgt] at htk
                          injection htk with htk
                          have hpr2 : pr.2 = t.child_list.removeAt hgi := by
                            rw [← htk]
                            rfl
                          rw [← hcl2y, hpr2] at hh
                          by_cases hih : hi = hgi
                          · rw [hih, Slab.get?_removeAt_self] at hh
                            exact absurd hh (by simp)
                          · rw [Slab.get?_removeAt_ne _ hih] at hh
                            exact hh
            refine ⟨?_, ?_, hr, ?_⟩
            · intro j a hja
              have := hm j a hja
              by_cases hjn : j = nidx
              · rw [hjn] at this
                rw [show (OxidArt.mk (t.map.removeAt nidx) cl2
                    t.root_idx).map = t.map.removeAt nidx from rfl,
                  Slab.get?_removeAt_self] at this
                exact absurd this (by simp)
              · rw [show (OxidArt.mk (t.map.removeAt nidx) cl2
                    t.root_idx).map = t.map.removeAt nidx from rfl,
                  Slab.get?_removeAt_ne _ hjn] at this
                exact this
            · intro hi h hh
              exact hclsub hi h (hcl hi h hh)
            · intro hB hs
              have hnidx_ne : nidx ≠ t.root_idx :=
                hs nidx (List.mem_cons_self _ _)
              have hB2 : unreferenced (OxidArt.mk (t.map.removeAt nidx) cl2
                  t.root_idx) t.root_idx := by
                have := @unreferenced_of_submap t
                  (OxidArt.mk (t.map.removeAt nidx) cl2 t.root_idx) t.root_idx
                  ?_ ?_ hB
                · exact this
                · intro j a hja
                  have hja' : (t.map.removeAt nidx).get? j = some a := hja
                  by_cases hjn : j = nidx
                  · rw [hjn, Slab.get?_removeAt_self] at hja'
                    exact absurd hja' (by simp)
                  · rw [Slab.get?_removeAt_ne _ hjn] at hja'
                    exact hja'
                · exact hclsub
              have hstack2 : ∀ s ∈ (((node.childs.iter.map (·.2)) ++
                  (match node.childs.get_next_idx with
                   | some huge_idx =>
                       match t.child_list.get? huge_idx with
                       | some huge => huge.entries.map (·.2)
                       | none => []
                   | none => [])).reverse ++ rest), s ≠ t.root_idx := by
                intro s hs2
                rcases List.mem_append.mp hs2 with hm2 | hm2
                · rw [List.mem_reverse] at hm2
                  rcases List.mem_append.mp hm2 with hm3 | hm3
                  · intro he
                    exact (hB nidx node hnode).1 (he ▸ mem_iter_snd hm3)
                  · split at hm3
                    · next hgi hgx =>
                        split at hm3
                        · next huge hgt =>
                            intro he
                            exact (hB nidx node hnode).2 hgi huge hgx hgt
                              (he ▸ hm3)
                        · simp at hm3
                    · simp at hm3
                · exact hs s (List.mem_cons_of_mem _ hm2)
              have := hro hB2 hstack2
              rw [hr] at this ⊢
              rw [this,
                show (OxidArt.mk (t.map.removeAt nidx) cl2 t.root_idx).map =
                  t.map.removeAt nidx from rfl,
                show (OxidArt.mk (t.map.removeAt nidx) cl2
                  t.root_idx).root_idx = t.root_idx from rfl,
                Slab.get?_removeAt_ne _ (fun he => hnidx_ne he.symm)]

theorem weak_inv_of_submap {t t2 : OxidArt} {p : Nat}
    (hm : ∀ j a, t2.map.get? j = some a → t.map.get? j = some a)
    (hcl : ∀ hi h, t2.child_list.get? hi = some h →
      t.child_list.get? hi = some h)
    (hroot : t2.root_idx = t.root_idx)
    (hrootget : t2.map.get? t2.root_idx = t.map.get? t.root_idx)
    (hw : weak_inv t p) : weak_inv t2 p := by
  obtain ⟨hA, hB, hC2, hC1⟩ := hw
  refine ⟨?_, ?_, ?_, ?_⟩
  · show (t2.map.get? t2.root_idx).isSome
    rw [hrootget]
    exact hA
  · have := @unreferenced_of_submap t t2 _ hm hcl hB
    rw [hroot]
    exact this
  · intro j nd hj hne hjp
    exact hC2 j nd (hm j nd hj) (by rw [← hroot]; exact hne) hjp
  · intro nd hj hne
    exact hC1 nd (hm p nd hj) (by rw [← hroot]; exact hne)

theorem struct_inv_of_submap {t t2 : OxidArt}
    (hm : ∀ j a, t2.map.get? j = some a → t.map.get? j = some a)
    (hcl : ∀ hi h, t2.child_list.get? hi = some h →
      t.child_list.get? hi = some h)
    (hroot : t2.root_idx = t.root_idx)
    (hrootget : t2.map.get? t2.root_idx = t.map.get? t.root_idx)
    (hw : struct_inv t) : struct_inv t2 := by
  obtain ⟨hA, hB, hC⟩ := hw
  refine ⟨?_, ?_, ?_⟩
  · show (t2.map.get? t2.root_idx).isSome
    rw [hrootget]
    exact hA
  · have := @unreferenced_of_submap t t2 _ hm hcl hB
    rw [hroot]
    exact this
  · intro j nd hj hne
    exact hC j nd (hm j nd hj) (by rw [← hroot]; exact hne)


/-- `deln` preserves the structural invariant and the root index. -/
theorem deln_preserves {t t' : OxidArt} {pfx : List Nat} {n : Nat}
    (hinv : struct_inv t) (hres : t.deln pfx = some (n, t')) :
    struct_inv t' ∧ t'.root_idx = t.root_idx := by
  obtain ⟨hA, hB, hC⟩ := hinv
  obtain ⟨rootn, hrootn⟩ := isSome_exists hA
  have hroot_live : t.root_idx < t.map.entries.length :=
    Slab.lt_length_of_get? (a := rootn) hrootn
  cases pfx with
  | nil =>
      simp only [OxidArt.deln] at hres
      rw [hrootn] at hres
      simp only [Option.bind_eq_bind, Option.some_bind] at hres
      rw [Option.bind_eq_some] at hres
      obtain ⟨root2, hroot2, hres⟩ := hres
      have hroot2x : (t.map.setAt t.root_idx
          (Node.mk rootn.compression none rootn.childs)).get? t.root_idx =
          some root2 := hroot2
      rw [Slab.get?_setAt_self hroot_live] at hroot2x
      injection hroot2x with hroot2x
      subst hroot2x
      rw [Option.bind_eq_some] at hres
      obtain ⟨p, hfree, hres⟩ := hres
      obtain ⟨c0, t3⟩ := p
      injection hres with hres
      rw [Prod.mk.injEq] at hres
      obtain ⟨_, h2⟩ := hres
      subst h2
      have hlen1 : t.root_idx < (t.map.setAt t.root_idx
          (Node.mk rootn.compression none rootn.childs)).entries.length := by
        have hl : (t.map.setAt t.root_idx
            (Node.mk rootn.compression none
              rootn.childs)).entries.length = t.map.entries.length := by
          show (t.map.entries.set _ _).length = _
          simp
        rw [hl]
        exact hroot_live
      have hstructb : struct_inv (OxidArt.mk
          ((t.map.setAt t.root_idx
            (Node.mk rootn.compression none rootn.childs)).setAt t.root_idx
            (Node.mk rootn.compression none Childs.default))
          t.child_list t.root_idx) := by
        refine ⟨?_, ?_, ?_⟩
        · show (((t.map.setAt t.root_idx
            (Node.mk rootn.compression none rootn.childs)).setAt t.root_idx
            (Node.mk rootn.compression none
              Childs.default)).get? t.root_idx).isSome
          rw [Slab.get?_setAt_self hlen1]
          rfl
        · intro pidx pnode hp
          have hp' : ((t.map.setAt t.root_idx
              (Node.mk rootn.compression none rootn.childs)).setAt t.root_idx
              (Node.mk rootn.compression none Childs.default)).get? pidx =
              some pnode := hp
          by_cases hpi : pidx = t.root_idx
          · rw [hpi, Slab.get?_setAt_self hlen1] at hp'
            injection hp' with hp'
            subst hp'
            refine ⟨by simp [Childs.default], ?_⟩
            intro hi h hx hg
            simp [Childs.default] at hx
          · rw [Slab.get?_setAt_ne _ hpi, Slab.get?_setAt_ne _ hpi] at hp'
            exact hB pidx pnode hp'
        · intro j nd hj hne
          have hj' : ((t.map.setAt t.root_idx
              (Node.mk rootn.compression none rootn.childs)).setAt t.root_idx
              (Node.mk rootn.compression none Childs.default)).get? j =
              some nd := hj
          have hne' : j ≠ t.root_idx := hne
          rw [Slab.get?_setAt_ne _ hne', Slab.get?_setAt_ne _ hne'] at hj'
          exact hC j nd hj' hne'
      have hBa : unreferenced (OxidArt.mk
          (t.map.setAt t.root_idx
            (Node.mk rootn.compression none rootn.childs))
          t.child_list t.root_idx) t.root_idx := by
        intro pidx pnode hp
        have hp' : (t.map.setAt t.root_idx
            (Node.mk rootn.compression none rootn.childs)).get? pidx =
            some pnode := hp
        by_cases hpi : pidx = t.root_idx
        · rw [hpi, Slab.get?_setAt_self hroot_live] at hp'
          injection hp' with hp'
          subst hp'
          exact ⟨(hB t.root_idx rootn hrootn).1,
            fun hi h hx hg => (hB t.root_idx rootn hrootn).2 hi h hx hg⟩
        · rw [Slab.get?_setAt_ne _ hpi] at hp'
          exact hB pidx pnode hp'
      have hcollect := collect_child_indices_ne_root (x := t.root_idx) hBa
      have hstack : ∀ s ∈ ((OxidArt.mk
          (t.map.setAt t.root_idx
            (Node.mk rootn.compression none rootn.childs))
          t.child_list t.root_idx).collect_child_indices
            t.root_idx).reverse, s ≠ t.root_idx :=
        fun s hs => hcollect s (List.mem_reverse.mp hs)
      have hfree2 : (OxidArt.mk
          ((t.map.setAt t.root_idx
            (Node.mk rootn.compression none rootn.childs)).setAt t.root_idx
            (Node.mk rootn.compression none Childs.default))
          t.child_list t.root_idx).free_subtree_loop
          ((OxidArt.mk
            ((t.map.setAt t.root_idx
              (Node.mk rootn.compression none rootn.childs)).setAt t.root_idx
              (Node.mk rootn.compression none Childs.default))
            t.child_list t.root_idx).free_fuel
            (((OxidArt.mk
              (t.map.setAt t.root_idx
                (Node.mk rootn.compression none rootn.childs))
              t.child_list t.root_idx).collect_child_indices
                t.root_idx).reverse) + 1)
          (((OxidArt.mk
            (t.map.setAt t.root_idx
              (Node.mk rootn.compression none rootn.childs))
            t.child_list t.root_idx).collect_child_indices
              t.root_idx).reverse) = some (c0, t3) := hfree
      obtain ⟨hm, hcl, hr, hro⟩ := free_loop_submap _ _ _ _ _ hfree2
      have hroeq := hro hstructb.2.1 hstack
      have hfin := struct_inv_of_submap hm hcl hr hroeq hstructb
      exact ⟨hfin, hr⟩
  | cons b rest =>
      simp only [OxidArt.deln] at hres
      split at hres
      · injection hres with hres
        rw [Prod.mk.injEq] at hres
        obtain ⟨_, h2⟩ := hres
        subst h2
        exact ⟨⟨hA, hB, hC⟩, rfl⟩
      · next idx hf =>
        split at hres
        · injection hres with hres
          rw [Prod.mk.injEq] at hres
          obtain ⟨_, h2⟩ := hres
          subst h2
          exact ⟨⟨hA, hB, hC⟩, rfl⟩
        · next ti pi pri hloop =>
          have hidx_ne := find_ne_root hB hf
          obtain ⟨hti_ne, nd, hnd⟩ :=
            deln_loop_target hB _ _ _ _ _ _ hidx_ne hloop
          simp only [Option.bind_eq_bind] at hres
          rw [Option.bind_eq_some] at hres
          obtain ⟨t2, hrm, hres⟩ := hres
          obtain ⟨hw2, hr2⟩ := remove_child_weak ⟨hA, hB, hC⟩ hrm
          rw [Option.bind_eq_some] at hres
          obtain ⟨p, hfree, hres⟩ := hres
          obtain ⟨c0, t3⟩ := p
          unfold OxidArt.free_subtree_iterative at hfree
          obtain ⟨hm, hcl, hr, hro⟩ := free_loop_submap _ _ _ _ _ hfree
          have hstack : ∀ s ∈ [ti], s ≠ t2.root_idx := by
            intro s hs
            rw [List.mem_singleton] at hs
            subst hs
            rw [hr2]
            exact hti_ne
          have hroeq := hro hw2.2.1 hstack
          have hw3 : weak_inv t3 pi :=
            weak_inv_of_submap hm hcl hr hroeq hw2
          split at hres
          · next hne' =>
            rw [Option.bind_eq_some] at hres
            obtain ⟨t4, hrc, heq⟩ := hres
            injection heq with heq
            rw [Prod.mk.injEq] at heq
            obtain ⟨_, h2⟩ := heq
            subst h2
            obtain ⟨hs4, hr4⟩ := try_recompress_restores hw3 hrc
            refine ⟨hs4, ?_⟩
            rw [hr4, hr, hr2]
          · next hne' =>
            simp only [Option.bind_eq_bind, Option.some_bind] at hres
            injection hres with hres
            rw [Prod.mk.injEq] at hres
            obtain ⟨_, h2⟩ := hres
            subst h2
            have hpir : pi = t3.root_idx := not_ne_iff.mp hne'
            refine ⟨struct_of_weak_root ?_, by rw [hr, hr2]⟩
            rw [← hpir]
            exact hw3


/-- The structural invariant holds in every reachable engine state: it holds
of `new` and is preserved by every completed `set`, `del` and `deln`. -/
theorem reachable_struct_inv {t : OxidArt} (h : Reachable t) :
    struct_inv t := by
  induction h with
  | new => exact struct_inv_new
  | set _ hset ih => exact (set_preserves ih hset).1
  | del _ hdel ih => exact (del_preserves ih hdel).1
  | deln _ hdeln ih => exact (deln_preserves ih hdeln).1

/-- The structural invariant implies the canonical shape: a value-less live
non-root node has an overflow table or at least two primary children, and
either disqualifies `get_single_child`. -/
theorem canonical_of_struct_inv {t : OxidArt} (h : struct_inv t) :
    canonical_shape t := by
  intro idx node hn hne hval
  rcases h.2.2 idx node hn hne with hv | hov | hlen
  · rw [hval] at hv
    exact absurd hv (by simp)
  · unfold Childs.get_single_child
    rw [if_neg]
    rintro ⟨h1, h2⟩
    rw [h2] at hov
    exact absurd hov (by simp)
  · unfold Childs.get_single_child
    rw [if_neg]
    rintro ⟨h1, h2⟩
    omega

/-- C5: canonical shape after every public mutating call — in every engine
state reachable from `new` through completed `set`, `del` and `deln` calls,
no non-root node is simultaneously value-less and in possession of exactly
one child with no overflow region attached. -/
theorem C5_canonical_shape (t : OxidArt) (h : Reachable t) :
    canonical_shape t :=
  canonical_of_struct_inv (reachable_struct_inv h)

/-- C5, witness: the empty engine is reachable and canonically shaped. -/
theorem C5_witness : canonical_shape OxidArt.new :=
  C5_canonical_shape OxidArt.new Reachable.new


set_option maxRecDepth 40000 in
/-- C9: counterexample to "at most one stranded overflow region".  Two
rounds of inserting eleven distinct single-byte keys (which forces the root
to allocate an overflow child table) followed by `deln("")` leave the node
arena with only the root, but the overflow arena with TWO live tables: each
`deln("")` resets the root's child table to `default` — losing the pointer
to the just-stranded overflow table — so the next fill allocates a fresh
one and the leak grows by one slot per round, unboundedly. -/
theorem C9_stranded_overflow_accumulates :
    (match c9state with
     | some tf => (tf.map.liveCount, tf.child_list.liveCount)
     | none => (0, 0)) = (1, 2) := by
  decide


/-! ### C1: representation-tree machinery -/

theorem nidxsL_mem_iff {l : List (Nat × ITree)} {j : Nat} :
    j ∈ nidxsL l ↔ ∃ p ∈ l, j ∈ ITree.nidxs p.2 := by
  induction l with
  | nil => simp [nidxsL]
  | cons p rest ih =>
      simp only [nidxsL, List.mem_append, ih, List.mem_cons]
      constructor
      · rintro (h | ⟨q, hq, hjq⟩)
        · exact ⟨p, Or.inl rfl, h⟩
        · exact ⟨q, Or.inr hq, hjq⟩
      · rintro ⟨q, hq | hq, hjq⟩
        · exact Or.inl (hq ▸ hjq)
        · exact Or.inr ⟨q, hq, hjq⟩

theorem oidxsL_mem_iff {l : List (Nat × ITree)} {j : Nat} :
    j ∈ oidxsL l ↔ ∃ p ∈ l, j ∈ ITree.oidxs p.2 := by
  induction l with
  | nil => simp [oidxsL]
  | cons p rest ih =>
      simp only [oidxsL, List.mem_append, ih, List.mem_cons]
      constructor
      · rintro (h | ⟨q, hq, hjq⟩)
        · exact ⟨p, Or.inl rfl, h⟩
        · exact ⟨q, Or.inr hq, hjq⟩
      · rintro ⟨q, hq | hq, hjq⟩
        · exact Or.inl (hq ▸ hjq)
        · exact Or.inr ⟨q, hq, hjq⟩

theorem mem_nidxs_self (s : ITree) : ITree.idx s ∈ ITree.nidxs s := by
  cases s with
  | mk i c v o pr ov => simp [ITree.nidxs, ITree.idx]

theorem mem_nidxs_child {s : ITree} {p : Nat × ITree} {j : Nat}
    (hp : p ∈ ITree.prim s ∨ p ∈ ITree.ovch s) (hj : j ∈ ITree.nidxs p.2) :
    j ∈ ITree.nidxs s := by
  cases s with
  | mk i c v o pr ov =>
      simp only [ITree.prim, ITree.ovch] at hp
      simp only [ITree.nidxs, List.mem_cons, List.mem_append,
        nidxsL_mem_iff]
      rcases hp with hp | hp
      · exact Or.inr (Or.inl ⟨p, hp, hj⟩)
      · exact Or.inr (Or.inr ⟨p, hp, hj⟩)

theorem mem_oidxs_child {s : ITree} {p : Nat × ITree} {j : Nat}
    (hp : p ∈ ITree.prim s ∨ p ∈ ITree.ovch s) (hj : j ∈ ITree.oidxs p.2) :
    j ∈ ITree.oidxs s := by
  cases s with
  | mk i c v o pr ov =>
      simp only [ITree.prim, ITree.ovch] at hp
      simp only [ITree.oidxs, List.mem_append, oidxsL_mem_iff]
      rcases hp with hp | hp
      · exact Or.inr (Or.inl ⟨p, hp, hj⟩)
      · exact Or.inr (Or.inr ⟨p, hp, hj⟩)

theorem repr_live_n {t : OxidArt} {s : ITree} (h : ReprP t s) :
    ∀ j ∈ ITree.nidxs s, (t.try_get_node j).isSome := by
  induction h with
  | intro hnode hcomp hval hovp hlen hprim hhuge hpr hovr ihpr ihovr =>
      intro j hj
      simp only [ITree.nidxs, List.mem_cons, List.mem_append,
        nidxsL_mem_iff] at hj
      rcases hj with hj | ⟨p, hp, hjp⟩ | ⟨p, hp, hjp⟩
      · subst hj; rw [hnode]; rfl
      · exact ihpr p hp j hjp
      · exact ihovr p hp j hjp

theorem repr_live_o {t : OxidArt} {s : ITree} (h : ReprP t s) :
    ∀ hi ∈ ITree.oidxs s, (t.child_list.get? hi).isSome := by
  induction h with
  | @intro i c v o pr ov node hnode hcomp hval hovp hlen hprim hhuge hpr
      hovr ihpr ihovr =>
      intro hi hhi
      simp only [ITree.oidxs, List.mem_append, oidxsL_mem_iff] at hhi
      rcases hhi with hhi | ⟨p, hp, hjp⟩ | ⟨p, hp, hjp⟩
      · cases o with
        | none => simp at hhi
        | some hx =>
            simp only [List.mem_singleton] at hhi
            subst hhi
            obtain ⟨h2, hg, _⟩ := hhuge
            rw [hg]
            rfl
      · exact ihpr p hp hi hjp
      · exact ihovr p hp hi hjp


/-- The representation relation only reads the subtree's own slots, so it
survives any arena change outside them. -/
theorem repr_mono {t t2 : OxidArt} {s : ITree} (h : ReprP t s) :
    (∀ j ∈ ITree.nidxs s, t2.try_get_node j = t.try_get_node j) →
    (∀ hi ∈ ITree.oidxs s, t2.child_list.get? hi = t.child_list.get? hi) →
    ReprP t2 s := by
  induction h with
  | @intro i c v o pr ov node hnode hcomp hval hovp hlen hprim hhuge hpr
      hovr ihpr ihovr =>
      intro hm hc
      refine ReprP.intro ?_ hcomp hval hovp hlen hprim ?_ ?_ ?_
      · rw [hm i (mem_nidxs_self (ITree.mk i c v o pr ov))]
        exact hnode
      · cases o with
        | none => exact hhuge
        | some hx =>
            obtain ⟨h2, hg, he⟩ := hhuge
            refine ⟨h2, ?_, he⟩
            rw [hc hx (by simp [ITree.oidxs])]
            exact hg
      · intro p hp
        refine ihpr p hp ?_ ?_
        · intro j hj
          exact hm j (mem_nidxs_child (s := ITree.mk i c v o pr ov)
            (Or.inl hp) hj)
        · intro hi hhi
          exact hc hi (mem_oidxs_child (s := ITree.mk i c v o pr ov)
            (Or.inl hp) hhi)
      · intro p hp
        refine ihovr p hp ?_ ?_
        · intro j hj
          exact hm j (mem_nidxs_child (s := ITree.mk i c v o pr ov)
            (Or.inr hp) hj)
        · intro hi hhi
          exact hc hi (mem_oidxs_child (s := ITree.mk i c v o pr ov)
            (Or.inr hp) hhi)

/-- The node slot at a represented subtree's root. -/
theorem repr_node {t : OxidArt} {s : ITree} (h : ReprP t s) :
    ∃ node, t.try_get_node (ITree.idx s) = some node ∧
      node.compression = ITree.comp s ∧ node.val = ITree.val s := by
  cases h with
  | intro hnode hcomp hval hovp hlen hprim hhuge hpr hovr =>
      exact ⟨_, hnode, hcomp, hval⟩

/-- A child found by `findChildT` is itself represented. -/
theorem repr_child {t : OxidArt} {s : ITree} {b : Nat} {sc : ITree}
    (h : ReprP t s) (hfc : findChildT s b = some sc) : ReprP t sc := by
  unfold findChildT at hfc
  cases hf : (ITree.children s).find? (fun p => decide (p.1 = b)) with
  | none => rw [hf] at hfc; exact absurd hfc (by simp)
  | some p =>
      rw [hf] at hfc
      injection hfc with hfc
      have hp : p ∈ ITree.children s := List.mem_of_find?_eq_some hf
      cases h with
      | intro hnode hcomp hval hovp hlen hprim hhuge hpr hovr =>
          rcases List.mem_append.mp hp with hp | hp
          · exact hfc ▸ hpr p hp
          · exact hfc ▸ hovr p hp

theorem compare_final_iff (n : Node) (r : List Nat) :
    n.compare_compression_key r = CompResult.Final ↔ n.compression = r := by
  rw [(compare_spec n r).1]
  by_cases he : n.compression = r
  · simp [he]
  · rw [if_neg he]
    by_cases hp : properPreOf n.compression r
    · simp [hp, he]
    · simp [hp, he]

theorem compare_path_iff (n : Node) (r : List Nat) :
    n.compare_compression_key r = CompResult.Path ↔
      properPreOf n.compression r := by
  rw [(compare_spec n r).1]
  by_cases he : n.compression = r
  · rw [if_pos he]
    constructor
    · intro h; exact absurd h (by simp)
    · intro hp
      exact absurd (he ▸ hp.1) (Nat.lt_irrefl _)
  · rw [if_neg he]
    by_cases hp : properPreOf n.compression r
    · simp [hp]
    · simp [hp]

theorem compare_partial_eq (n : Node) (r : List Nat)
    (he : n.compression ≠ r) (hp : ¬ properPreOf n.compression r) :
    n.compare_compression_key r =
      CompResult.Partial (lcpLen n.compression r) := by
  rw [(compare_spec n r).1, if_neg he, if_neg hp]

theorem findIdx_zip {b : Nat} :
    ∀ (rs is : List Nat), rs.length = is.length →
      ((rs.findIdx? (fun r => decide (r = b))).bind is.get?) =
        ((rs.zip is).find? (fun p => decide (p.1 = b))).map (·.2) := by
  intro rs
  induction rs with
  | nil => intro is h; simp
  | cons r rest ih =>
      intro is h
      cases is with
      | nil => simp at h
      | cons i irest =>
          simp only [List.length_cons, Nat.succ.injEq] at h
          rw [List.zip_cons_cons, List.findIdx?_cons, List.find?_cons]
          by_cases hr : r = b
          · simp [hr]
          · rw [if_neg (by simpa using hr),
              show (decide ((r, i).1 = b)) = false by simpa using hr,
              ← ih irest h, List.findIdx?_succ]
            cases hfi : rest.findIdx? (fun r => decide (r = b)) with
            | none => rfl
            | some k => simp

theorem childs_find_eq {c : Childs}
    (hlen : c.radixs.length = c.idxs.length) (b : Nat) :
    c.find b = ((c.iter.find? (fun p => decide (p.1 = b))).map (·.2)) := by
  unfold Childs.find Childs.iter
  exact findIdx_zip c.radixs c.idxs hlen

theorem find?_pairsOf (l : List (Nat × ITree)) (b : Nat) :
    (pairsOf l).find? (fun q => decide (q.1 = b)) =
      (l.find? (fun p => decide (p.1 = b))).map
        (fun p => (p.1, ITree.idx p.2)) := by
  unfold pairsOf
  rw [List.find?_map]
  rfl

/-- Child lookup in the arena agrees with child lookup in the tree. -/
theorem find_sim {t : OxidArt} {s : ITree} (h : ReprP t s) (b : Nat) :
    t.find (ITree.idx s) b = (findChildT s b).map ITree.idx := by
  cases h with
  | @intro i c v o pr ov node hnode hcomp hval hovp hlen hprim hhuge hpr
      hovr =>
      show t.find i b = _
      unfold OxidArt.find
      rw [show t.try_get_node i = some node from hnode]
      simp only [Option.bind_eq_bind, Option.some_bind]
      rw [childs_find_eq hlen b, hprim, find?_pairsOf]
      unfold findChildT
      show _ = (((ITree.children (ITree.mk i c v o pr ov)).find?
        (fun p => decide (p.1 = b))).map (·.2)).map ITree.idx
      rw [show ITree.children (ITree.mk i c v o pr ov) = pr ++ ov from rfl,
        List.find?_append]
      cases hfp : pr.find? (fun p => decide (p.1 = b)) with
      | some p0 => simp
      | none =>
          cases o with
          | none =>
              have hov : ov = [] := hhuge
              subst hov
              rw [show node.childs.get_next_idx =
                node.childs.maybe_next_childs_idx from rfl, hovp]
              simp
          | some hx =>
              obtain ⟨h2, hg, he⟩ := hhuge
              rw [show node.childs.get_next_idx =
                node.childs.maybe_next_childs_idx from rfl, hovp]
              simp only [Option.some_bind, Option.map_none', Option.none_or]
              rw [hg]
              simp only [Option.some_bind]
              unfold HugeChilds.find
              rw [he, find?_pairsOf]
              cases hfo : ov.find? (fun p => decide (p.1 = b)) with
              | none => simp
              | some q => simp [ITree.idx]


/-- The arena `get` descent computes the specification-level `sGet` on any
represented subtree. -/
theorem get_loop_sim {t : OxidArt} :
    ∀ (fuel : Nat) (s : ITree) (key : List Nat), ReprP t s →
      t.get_loop fuel (ITree.idx s) key = sGet fuel s key := by
  intro fuel
  induction fuel with
  | zero =>
      intro s key h
      cases key <;> rfl
  | succ fuel ih =>
      intro s key h
      cases key with
      | nil => rfl
      | cons b rest =>
          have hf := find_sim h b
          cases hfc : findChildT s b with
          | none =>
              rw [hfc] at hf
              simp only [OxidArt.get_loop, sGet, hfc, hf,
                Option.map_none', Option.bind_eq_bind, Option.none_bind]
          | some sc =>
              rw [hfc] at hf
              have hsc : ReprP t sc := repr_child h hfc
              obtain ⟨node2, hn2, hc2, hv2⟩ := repr_node hsc
              simp only [OxidArt.get_loop, sGet, hfc, hf,
                Option.map_some', Option.bind_eq_bind, Option.some_bind,
                hn2]
              by_cases he : node2.compression = rest
              · rw [(compare_final_iff node2 rest).mpr he]
                rw [hc2] at he
                rw [if_pos he]
                exact hv2
              · have hne2 : ITree.comp sc ≠ rest := hc2 ▸ he
                rw [if_neg hne2]
                by_cases hp : properPreOf node2.compression rest
                · rw [(compare_path_iff node2 rest).mpr hp]
                  have hp2 : properPreOf (ITree.comp sc) rest := hc2 ▸ hp
                  rw [if_pos hp2, ih sc _ hsc, hc2]
                · have hp2 : ¬ properPreOf (ITree.comp sc) rest :=
                    fun hx => hp (by rw [hc2]; exact hx)
                  rw [compare_partial_eq node2 rest he hp, if_neg hp2]

/-- The arena `get` computes the specification-level `specGet` on a
represented engine. -/
theorem get_sim {t : OxidArt} {s : ITree} (h : ReprP t s)
    (hr : ITree.idx s = t.root_idx) (key : List Nat) :
    t.get key = specGet s key := by
  obtain ⟨node, hn, hc, hv⟩ := repr_node h
  unfold OxidArt.get specGet
  cases key with
  | nil =>
      rw [if_pos rfl, if_pos (by simp)]
      rw [← hr, hn]
      simp only [Option.bind_eq_bind, Option.some_bind]
      exact hv
  | cons b rest =>
      rw [if_neg (by simp), if_neg (by simp), ← hr]
      exact get_loop_sim _ s _ h


theorem lcpLen_take : ∀ (a b : List Nat),
    a.take (lcpLen a b) = b.take (lcpLen a b)
  | [], _ => by simp [lcpLen.eq_def]
  | _ :: _, [] => by simp [lcpLen.eq_def]
  | x :: xs, y :: ys => by
      simp only [lcpLen]
      by_cases h : x = y
      · rw [if_pos h, List.take_succ_cons, List.take_succ_cons, h,
          lcpLen_take xs ys]
      · rw [if_neg h]
        simp

theorem lcpLen_le_right (a b : List Nat) : lcpLen a b ≤ b.length := by
  rw [lcpLen_comm]
  exact lcpLen_le_left b a

theorem lcpLen_append (p : List Nat) : ∀ (a b : List Nat),
    lcpLen (p ++ a) (p ++ b) = p.length + lcpLen a b := by
  induction p with
  | nil => intro a b; simp
  | cons x xs ih =>
      intro a b
      simp only [List.cons_append, lcpLen, List.length_cons, if_true]
      have h2 : lcpLen (xs.append a) (xs.append b) = xs.length + lcpLen a b :=
        ih a b
      omega

theorem lcpLen_mismatch : ∀ (a b : List Nat),
    lcpLen a b < a.length → lcpLen a b < b.length →
    a.get? (lcpLen a b) ≠ b.get? (lcpLen a b)
  | [], _ => by simp
  | _ :: _, [] => by simp
  | x :: xs, y :: ys => by
      intro ha hb
      simp only [lcpLen, List.length_cons] at ha hb ⊢
      by_cases h : x = y
      · rw [if_pos h] at ha hb ⊢
        simp only [List.get?_cons_succ]
        exact lcpLen_mismatch xs ys (by omega) (by omega)
      · rw [if_neg h] at ha hb ⊢
        simp only [List.get?_cons_zero]
        intro he
        injection he with he
        exact h he

theorem properPre_append {p l : List Nat} (h : properPreOf p l) :
    l = p ++ l.drop p.length ∧ l.drop p.length ≠ [] := by
  obtain ⟨hlt, htk⟩ := h
  constructor
  · conv_lhs => rw [← List.take_append_drop p.length l]
    rw [htk]
  · intro he
    have := List.length_drop p.length l
    rw [he] at this
    simp at this
    omega

theorem properPre_of_append {p u : List Nat} (hu : u ≠ []) :
    properPreOf p (p ++ u) := by
  constructor
  · simp only [List.length_append]
    have : 0 < u.length := List.length_pos.mpr hu
    omega
  · show (p ++ u).take p.length = p
    exact List.take_left p u

theorem lcpLen_of_properPre {p l : List Nat} (h : properPreOf p l) :
    lcpLen p l = p.length :=
  (lcpLen_eq_left_iff p l (Nat.le_of_lt h.1)).mpr h.2

theorem nidxsL_append (a b : List (Nat × ITree)) :
    nidxsL (a ++ b) = nidxsL a ++ nidxsL b := by
  induction a with
  | nil => simp [nidxsL]
  | cons p rest ih => simp [nidxsL, ih]

theorem oidxsL_append (a b : List (Nat × ITree)) :
    oidxsL (a ++ b) = oidxsL a ++ oidxsL b := by
  induction a with
  | nil => simp [oidxsL]
  | cons p rest ih => simp [oidxsL, ih]

theorem find?_split {α : Type} {p : α → Bool} {l : List α} {x : α}
    (h : l.find? p = some x) :
    ∃ l1 l2, l = l1 ++ x :: l2 ∧ l1.find? p = none ∧ p x = true := by
  induction l with
  | nil => simp at h
  | cons a rest ih =>
      rw [List.find?_cons] at h
      cases hp : p a with
      | true =>
          rw [hp] at h
          injection h with h
          exact ⟨[], rest, by rw [h]; rfl, rfl, h ▸ hp⟩
      | false =>
          rw [hp] at h
          have h2 : rest.find? p = some x := h
          obtain ⟨l1, l2, he, hn, hx⟩ := ih h2
          refine ⟨a :: l1, l2, by rw [he]; rfl, ?_, hx⟩
          rw [List.find?_cons, hp]
          exact hn

theorem find?_insert_ne {α : Type} {p : α → Bool} (l1 l2 : List α) {x : α}
    (hx : p x = false) :
    (l1 ++ x :: l2).find? p = (l1 ++ l2).find? p := by
  rw [List.find?_append, List.find?_append, List.find?_cons, hx]

theorem find?_append_none {α : Type} {p : α → Bool} {l1 l2 : List α}
    (h : (l1 ++ l2).find? p = none) :
    l1.find? p = none ∧ l2.find? p = none := by
  rw [List.find?_append] at h
  cases h1 : l1.find? p with
  | some a => rw [h1] at h; simp at h
  | none => rw [h1] at h; simpa using h

theorem find?_insert_hit {α : Type} {p : α → Bool} {l1 l2 : List α} {x : α}
    (h : (l1 ++ l2).find? p = none) (hx : p x = true) :
    (l1 ++ x :: l2).find? p = some x := by
  obtain ⟨h1, _⟩ := find?_append_none h
  rw [List.find?_append, h1, List.find?_cons, hx]
  rfl

theorem replaceFirstL_split {l1 l2 : List (Nat × ITree)} {b : Nat}
    {sc c2 : ITree}
    (h : l1.find? (fun p => decide (p.1 = b)) = none) :
    replaceFirstL (l1 ++ (b, sc) :: l2) b c2 = l1 ++ (b, c2) :: l2 := by
  induction l1 with
  | nil => simp [replaceFirstL]
  | cons a rest ih =>
      rw [List.find?_cons] at h
      cases hp : decide (a.1 = b) with
      | true => rw [hp] at h; simp at h
      | false =>
          rw [hp] at h
          have h2 : rest.find? (fun p => decide (p.1 = b)) = none := h
          have ha : ¬ (a.1 = b) := by simpa using hp
          simp only [List.cons_append, replaceFirstL, if_neg ha]
          have h3 : replaceFirstL (rest.append ((b, sc) :: l2)) b c2 =
              rest ++ (b, c2) :: l2 := ih h2
          rw [h3]


theorem find?_first {α : Type} {p : α → Bool} {l1 : List α} (l2 : List α)
    {x : α} (h : l1.find? p = none) (hx : p x = true) :
    (l1 ++ x :: l2).find? p = some x := by
  rw [List.find?_append, h, List.find?_cons, hx]
  rfl

theorem find?_radix_congr {l1 l2 : List (Nat × ITree)} {b b2 : Nat}
    {x y : ITree} (hb : b ≠ b2) :
    (l1 ++ (b, x) :: l2).find? (fun p => decide (p.1 = b2)) =
      (l1 ++ (b, y) :: l2).find? (fun p => decide (p.1 = b2)) := by
  rw [List.find?_append, List.find?_append, List.find?_cons, List.find?_cons,
    show (decide ((b, x).1 = b2)) = false by simpa using hb]

theorem withVal_comp (s : ITree) (w : Option Nat) :
    ITree.comp (ITree.withVal s w) = ITree.comp s := by
  cases s; rfl

theorem withVal_val (s : ITree) (w : Option Nat) :
    ITree.val (ITree.withVal s w) = w := by
  cases s; rfl

theorem withVal_idx (s : ITree) (w : Option Nat) :
    ITree.idx (ITree.withVal s w) = ITree.idx s := by
  cases s; rfl

theorem withVal_children (s : ITree) (w : Option Nat) :
    ITree.children (ITree.withVal s w) = ITree.children s := by
  cases s; rfl

/-- `sGet` reads only the children of its argument. -/
theorem sGet_congr_children {s s2 : ITree}
    (h : ITree.children s = ITree.children s2) :
    ∀ fuel k, sGet fuel s k = sGet fuel s2 k := by
  intro fuel k
  have hfc : ∀ b, findChildT s b = findChildT s2 b := by
    intro b
    unfold findChildT
    rw [h]
  cases fuel with
  | zero => cases k <;> rfl
  | succ f =>
      cases k with
      | nil => rfl
      | cons b rest => simp only [sGet, hfc b]

/-- A childless node answers no non-empty key. -/
theorem sGet_childless {i : Nat} {c : List Nat} {vv : Option Nat}
    {o : Option Nat} :
    ∀ fuel key, key ≠ [] →
      sGet fuel (ITree.mk i c vv o [] []) key = none := by
  intro fuel key hk
  cases key with
  | nil => exact absurd rfl hk
  | cons b rest =>
      cases fuel with
      | zero => rfl
      | succ f =>
          have : findChildT (ITree.mk i c vv o [] []) b = none := rfl
          simp only [sGet, this]

/-- Attaching a fresh leaf under an absent radix: the new subtree answers
the new key with the new value and every other key as before. -/
theorem sGet_insert (s s2 : ITree) (l1 l2 : List (Nat × ITree)) (b j : Nat)
    (rest : List Nat) (v : Nat)
    (h1 : ITree.children s = l1 ++ l2)
    (h2 : ITree.children s2 =
      l1 ++ (b, ITree.mk j rest (some v) none [] []) :: l2)
    (hnone : (ITree.children s).find? (fun p => decide (p.1 = b)) = none) :
    ∀ fuel2 key2, 0 < fuel2 →
      sGet fuel2 s2 key2 = if key2 = b :: rest then some v
        else sGet fuel2 s key2 := by
  intro fuel2 key2 hf
  obtain ⟨f, rfl⟩ : ∃ f, fuel2 = f + 1 := ⟨fuel2 - 1, by omega⟩
  cases key2 with
  | nil => rw [if_neg (by simp)]; rfl
  | cons b2 rest2 =>
      by_cases hb : b2 = b
      · subst hb
        have hfind1 : findChildT s b2 = none := by
          unfold findChildT
          rw [hnone]
          rfl
        have hfind2 : findChildT s2 b2 =
            some (ITree.mk j rest (some v) none [] []) := by
          unfold findChildT
          rw [h2, find?_first l2
            (find?_append_none (by rw [← h1]; exact hnone)).1 (by simp)]
          rfl
        simp only [sGet, hfind1, hfind2, ITree.comp, ITree.val]
        by_cases he : rest = rest2
        · rw [if_pos he, if_pos (by rw [he])]
        · have hne2 : ¬ ((b2 :: rest2) = b2 :: rest) := by
            intro hk
            injection hk with _ hk2
            exact he hk2.symm
          simp only [if_neg he, if_neg hne2]
          by_cases hp : properPreOf rest rest2
          · simp only [if_pos hp]
            exact sGet_childless f _ (properPre_append hp).2
          · simp only [if_neg hp]
      · have hch : findChildT s2 b2 = findChildT s b2 := by
          unfold findChildT
          rw [h1, h2, find?_insert_ne _ _ (by
            simp only [decide_eq_false_iff_not]
            exact fun hbb => hb hbb.symm)]
        have hne : (b2 :: rest2) ≠ (b :: rest) := by
          intro hk
          injection hk with hk1 _
          exact hb hk1
        rw [if_neg hne]
        simp only [sGet, hch]

/-- Overwriting the value of the child ending exactly at the key: the new
subtree answers that key with the new value and every other key as before. -/
theorem sGet_replace_final (s s2 : ITree) (l1 l2 : List (Nat × ITree))
    (b : Nat) (sc : ITree) (v : Nat)
    (h1 : ITree.children s = l1 ++ (b, sc) :: l2)
    (h2 : ITree.children s2 = l1 ++ (b, ITree.withVal sc (some v)) :: l2)
    (hl1 : l1.find? (fun p => decide (p.1 = b)) = none) :
    ∀ fuel2 key2, 0 < fuel2 →
      sGet fuel2 s2 key2 =
        if key2 = b :: ITree.comp sc then some v else sGet fuel2 s key2 := by
  intro fuel2 key2 hf
  obtain ⟨f, rfl⟩ : ∃ f, fuel2 = f + 1 := ⟨fuel2 - 1, by omega⟩
  cases key2 with
  | nil => rw [if_neg (by simp)]; rfl
  | cons b2 rest2 =>
      by_cases hb : b2 = b
      · subst hb
        have hfind1 : findChildT s b2 = some sc := by
          unfold findChildT
          rw [h1, find?_first l2 hl1 (by simp)]
          rfl
        have hfind2 : findChildT s2 b2 =
            some (ITree.withVal sc (some v)) := by
          unfold findChildT
          rw [h2, find?_first l2 hl1 (by simp)]
          rfl
        simp only [sGet, hfind1, hfind2, withVal_comp, withVal_val]
        by_cases he : ITree.comp sc = rest2
        · simp only [if_pos he, if_pos (show (b2 :: rest2) =
            b2 :: ITree.comp sc by rw [he])]
        · have hne2 : ¬ ((b2 :: rest2) = b2 :: ITree.comp sc) := by
            intro hk
            injection hk with _ hk2
            exact he hk2.symm
          simp only [if_neg he, if_neg hne2]
          by_cases hp : properPreOf (ITree.comp sc) rest2
          · simp only [if_pos hp]
            exact sGet_congr_children (withVal_children sc (some v)) f _
          · simp only [if_neg hp]
      · have hch : findChildT s2 b2 = findChildT s b2 := by
          unfold findChildT
          rw [h1, h2, find?_radix_congr (fun hbb => hb hbb.symm)]
        have hne : (b2 :: rest2) ≠ (b :: ITree.comp sc) := by
          intro hk
          injection hk with hk1 _
          exact hb hk1
        rw [if_neg hne]
        simp only [sGet, hch]

/-- Replacing the child the descent continues into: the new subtree answers
the descended key with the new value and every other key as before. -/
theorem sGet_replace_path (s s2 : ITree) (l1 l2 : List (Nat × ITree))
    (b : Nat) (sc sc2 : ITree) (rest : List Nat) (v : Nat)
    (h1 : ITree.children s = l1 ++ (b, sc) :: l2)
    (h2 : ITree.children s2 = l1 ++ (b, sc2) :: l2)
    (hl1 : l1.find? (fun p => decide (p.1 = b)) = none)
    (hcomp : ITree.comp sc2 = ITree.comp sc)
    (hval : ITree.val sc2 = ITree.val sc)
    (hp : properPreOf (ITree.comp sc) rest)
    (hrel : ∀ f2 k2, k2.length < f2 → sGet f2 sc2 k2 =
      if k2 = rest.drop (ITree.comp sc).length then some v
      else sGet f2 sc k2) :
    ∀ fuel2 key2, key2.length < fuel2 →
      sGet fuel2 s2 key2 =
        if key2 = b :: rest then some v else sGet fuel2 s key2 := by
  intro fuel2 key2 hlen
  obtain ⟨f, rfl⟩ : ∃ f, fuel2 = f + 1 := ⟨fuel2 - 1, by omega⟩
  cases key2 with
  | nil => rw [if_neg (by simp)]; rfl
  | cons b2 rest2 =>
      by_cases hb : b2 = b
      · subst hb
        have hfind1 : findChildT s b2 = some sc := by
          unfold findChildT
          rw [h1, find?_first l2 hl1 (by simp)]
          rfl
        have hfind2 : findChildT s2 b2 = some sc2 := by
          unfold findChildT
          rw [h2, find?_first l2 hl1 (by simp)]
          rfl
        have hcne : ITree.comp sc ≠ rest := by
          intro he
          exact absurd (he ▸ hp.1) (Nat.lt_irrefl _)
        obtain ⟨hrsplit, hrne⟩ := properPre_append hp
        simp only [sGet, hfind1, hfind2, hcomp, hval]
        by_cases he : ITree.comp sc = rest2
        · have hne2 : ¬ ((b2 :: rest2) = b2 :: rest) := by
            intro hk
            injection hk with _ hk2
            exact hcne (he.trans hk2)
          simp only [if_pos he, if_neg hne2]
        · simp only [if_neg he]
          by_cases hp2 : properPreOf (ITree.comp sc) rest2
          · simp only [if_pos hp2]
            simp only [List.length_cons, Nat.succ_lt_succ_iff] at hlen
            rw [hrel f _ (by
              have := List.length_drop (ITree.comp sc).length rest2
              omega)]
            obtain ⟨hr2split, _⟩ := properPre_append hp2
            by_cases hd : rest2.drop (ITree.comp sc).length =
                rest.drop (ITree.comp sc).length
            · have heq2 : (b2 :: rest2) = b2 :: rest := by
                rw [List.cons.injEq]
                refine ⟨rfl, ?_⟩
                rw [hr2split, hrsplit, hd]
              simp only [if_pos hd, if_pos heq2]
            · have hne2 : ¬ ((b2 :: rest2) = b2 :: rest) := by
                intro hk
                injection hk with _ hk2
                exact hd (by rw [hk2])
              simp only [if_neg hd, if_neg hne2]
          · have hne2 : ¬ ((b2 :: rest2) = b2 :: rest) := by
              intro hk
              injection hk with _ hk2
              exact hp2 (hk2 ▸ hp)
            simp only [if_neg hp2, if_neg hne2]
      · have hch : findChildT s2 b2 = findChildT s b2 := by
          unfold findChildT
          rw [h1, h2, find?_radix_congr (fun hbb => hb hbb.symm)]
        have hne : (b2 :: rest2) ≠ (b :: rest) := by
          intro hk
          injection hk with hk1 _
          exact hb hk1
        rw [if_neg hne]
        simp only [sGet, hch]


theorem nidxs_eq (s : ITree) : ITree.nidxs s =
    ITree.idx s :: nidxsL (ITree.children s) := by
  cases s with
  | mk i c vv o pr ov =>
      simp [ITree.nidxs, ITree.idx, ITree.children, nidxsL_append]

theorem oidxs_eq (s : ITree) : ITree.oidxs s =
    (ITree.ov s).toList ++ oidxsL (ITree.children s) := by
  cases s with
  | mk i c vv o pr ov =>
      cases o <;>
        simp [ITree.oidxs, ITree.ov, ITree.children, oidxsL_append,
          Option.toList]

theorem findChildT_none {s : ITree} {b : Nat} (h : findChildT s b = none) :
    (ITree.children s).find? (fun p => decide (p.1 = b)) = none := by
  unfold findChildT at h
  cases hf : (ITree.children s).find? (fun p => decide (p.1 = b)) with
  | none => rfl
  | some p => rw [hf] at h; exact absurd h (by simp)

theorem Childs.push_eq_fields {c : Childs} {b j : Nat} {cs : Childs}
    (h : c.push b j = some cs) :
    cs = ⟨c.idxs ++ [j], c.radixs ++ [b], c.maybe_next_childs_idx⟩ := by
  unfold Childs.push at h
  by_cases hf : c.is_full = true
  · rw [if_pos hf] at h
    exact absurd h (by simp)
  · rw [if_neg hf] at h
    injection h with h
    exact h.symm

theorem HugeChilds.push_eq_pairs {c : HugeChilds} {b j : Nat} {cs : HugeChilds}
    (h : c.push b j = some cs) :
    cs = ⟨c.entries ++ [(b, j)]⟩ := by
  unfold HugeChilds.push at h
  by_cases hf : c.entries.length = HUGE_CHILDS_SIZE
  · rw [if_pos hf] at h
    exact absurd h (by simp)
  · rw [if_neg hf] at h
    injection h with h
    exact h.symm

theorem Childs.set_new_childs_eq {c : Childs} {hi : Nat} {cs : Childs}
    (h : c.set_new_childs hi = some cs) :
    c.maybe_next_childs_idx = none ∧
      cs = ⟨c.idxs, c.radixs, some hi⟩ := by
  unfold Childs.set_new_childs at h
  cases ho : c.maybe_next_childs_idx with
  | some x => rw [ho] at h; exact absurd h (by simp)
  | none =>
      rw [ho] at h
      injection h with h
      exact ⟨rfl, h.symm⟩

theorem iter_append_one {c : Childs}
    (hlen : c.radixs.length = c.idxs.length) (b j : Nat) (o : Option Nat) :
    Childs.iter ⟨c.idxs ++ [j], c.radixs ++ [b], o⟩ =
      c.iter ++ [(b, j)] := by
  show (c.radixs ++ [b]).zip (c.idxs ++ [j]) = c.radixs.zip c.idxs ++ _
  rw [List.zip_append hlen]
  rfl

theorem pairsOf_append (a b : List (Nat × ITree)) :
    pairsOf (a ++ b) = pairsOf a ++ pairsOf b := by
  simp [pairsOf]

/-- The leaf subtree created by `create_node_with_val`. -/
theorem repr_leaf {t : OxidArt} {j : Nat} {rest : List Nat} {v : Nat}
    (h : t.try_get_node j = some (Node.new_leaf rest v)) :
    ReprP t (ITree.mk j rest (some v) none [] []) := by
  refine ReprP.intro h rfl rfl rfl rfl rfl rfl ?_ ?_ <;> intro p hp <;>
    simp at hp


/-- Attaching a fresh leaf (`create_node_with_val`) simulates inserting a
leaf child in the specification tree. -/
theorem create_sim {t : OxidArt} {s : ITree} {b v : Nat}
    {rest : List Nat} {t2 : OxidArt}
    (h : ReprP t s) (hnd : (ITree.nidxs s).Nodup)
    (hod : (ITree.oidxs s).Nodup)
    (hfc : findChildT s b = none)
    (hres : t.create_node_with_val (ITree.idx s) b v rest = some t2) :
    ∃ s2, SimOut t t2 s s2 (b :: rest) v := by
  have hlive_n := repr_live_n h
  have hlive_o := repr_live_o h
  have hfnone := findChildT_none hfc
  cases h with
  | @intro i c vv o pr ov node hnode hcomp hval hovp hlen hprim hhuge hpr
      hovr =>
  rw [show ITree.idx (ITree.mk i c vv o pr ov) = i from rfl] at hres
  unfold OxidArt.create_node_with_val OxidArt.insertNode
    OxidArt.intiate_new_huge_child at hres
  rw [hnode] at hres
  simp only [Option.bind_eq_bind, Option.some_bind] at hres
  obtain ⟨j, m2, hins⟩ : ∃ j m2,
      t.map.insert (Node.new_leaf rest v) = (j, m2) := ⟨_, _, rfl⟩
  rw [hins] at hres
  have hjfresh : t.map.get? j = none := by
    have h0 := Slab.insert_fst_fresh t.map (Node.new_leaf rest v)
    rw [hins] at h0
    exact h0
  have hjget : m2.get? j = some (Node.new_leaf rest v) := by
    have h0 := Slab.insert_get?_self t.map (Node.new_leaf rest v)
    rw [hins] at h0
    exact h0
  have hmne : ∀ k, k ≠ j → m2.get? k = t.map.get? k := by
    intro k hk
    have h0 := Slab.insert_get?_ne t.map (Node.new_leaf rest v)
      (show k ≠ (t.map.insert (Node.new_leaf rest v)).1 by
        rw [hins]; exact hk)
    rw [hins] at h0
    exact h0
  have hij : i ≠ j := by
    intro he
    rw [show t.try_get_node i = t.map.get? i from rfl, he, hjfresh] at hnode
    exact absurd hnode (by simp)
  have hjnot : j ∉ ITree.nidxs (ITree.mk i c vv o pr ov) := by
    intro hmem
    have h0 := hlive_n j hmem
    rw [show t.try_get_node j = t.map.get? j from rfl, hjfresh] at h0
    exact absurd h0 (by simp)
  have hilt : i < m2.entries.length :=
    Slab.lt_length_of_get? (a := node) (by rw [hmne i hij]; exact hnode)
  have hold_n : ITree.nidxs (ITree.mk i c vv o pr ov) =
      i :: (nidxsL pr ++ nidxsL ov) := by
    simp [ITree.nidxs]
  split at hres
  · -- primary region has room: push (b, fresh leaf) onto it
    next hfull =>
    rw [Option.bind_eq_some] at hres
    obtain ⟨father2, hf2, hres⟩ := hres
    have hf2x : m2.get? i = some father2 := hf2
    rw [hmne i hij, show t.map.get? i = t.try_get_node i from rfl, hnode]
      at hf2x
    injection hf2x with hf2x
    subst hf2x
    rw [Option.bind_eq_some] at hres
    obtain ⟨cs, hcs, hres⟩ := hres
    have hcsx : node.childs.push b j = some cs := hcs
    have hcseq := Childs.push_eq_fields hcsx
    injection hres with hres
    subst hres
    refine ⟨ITree.mk i c vv o
      (pr ++ [(b, ITree.mk j rest (some v) none [] [])]) ov,
      ?_, rfl, rfl, rfl, ?_, ?_, ?_, ?_, ?_, ?_, rfl, ?_⟩
    · refine @ReprP.intro _ i c vv _ _ _
        (Node.mk node.compression node.val cs) ?_ ?_ ?_ ?_ ?_ ?_ ?_ ?_ ?_
      · show (m2.setAt i (Node.mk node.compression node.val cs)).get? i =
          some (Node.mk node.compression node.val cs)
        rw [Slab.get?_setAt_self hilt]
      · exact hcomp
      · exact hval
      · show cs.maybe_next_childs_idx = o
        rw [hcseq]
        exact hovp
      · show cs.radixs.length = cs.idxs.length
        rw [hcseq]
        simp [hlen]
      · show cs.iter = _
        rw [hcseq, iter_append_one hlen b j, hprim, pairsOf_append]
        rfl
      · cases o with
        | none => exact hhuge
        | some hx =>
            obtain ⟨h2, hg, he⟩ := hhuge
            exact ⟨h2, hg, he⟩
      · intro p hp
        rcases List.mem_append.mp hp with hp | hp
        · refine repr_mono (hpr p hp) ?_ (fun _ _ => rfl)
          intro k hk
          have hki : k ≠ i := by
            intro he
            subst he
            rw [hold_n] at hnd
            exact (List.nodup_cons.mp hnd).1
              (List.mem_append.mpr (Or.inl (nidxsL_mem_iff.mpr ⟨p, hp, hk⟩)))
          have hkj : k ≠ j := by
            intro he
            exact hjnot (he ▸ mem_nidxs_child (Or.inl hp) hk)
          show (m2.setAt i _).get? k = t.map.get? k
          rw [Slab.get?_setAt_ne _ hki, hmne k hkj]
        · simp only [List.mem_singleton] at hp
          subst hp
          refine repr_leaf ?_
          show (m2.setAt i _).get? j = _
          rw [Slab.get?_setAt_ne _ (fun he => hij he.symm), hjget]
      · intro p hp
        refine repr_mono (hovr p hp) ?_ (fun _ _ => rfl)
        intro k hk
        have hki : k ≠ i := by
          intro he
          subst he
          rw [hold_n] at hnd
          exact (List.nodup_cons.mp hnd).1
            (List.mem_append.mpr (Or.inr (nidxsL_mem_iff.mpr ⟨p, hp, hk⟩)))
        have hkj : k ≠ j := by
          intro he
          exact hjnot (he ▸ mem_nidxs_child (Or.inr hp) hk)
        show (m2.setAt i _).get? k = t.map.get? k
        rw [Slab.get?_setAt_ne _ hki, hmne k hkj]
    · have hsh : ITree.nidxs (ITree.mk i c vv o
          (pr ++ [(b, ITree.mk j rest (some v) none [] [])]) ov) =
          i :: (nidxsL pr ++ (j :: nidxsL ov)) := by
        simp [ITree.nidxs, nidxsL_append, nidxsL]
      rw [hsh]
      have hperm : (i :: (nidxsL pr ++ (j :: nidxsL ov))).Perm
          (i :: (j :: (nidxsL pr ++ nidxsL ov))) :=
        List.Perm.cons i List.perm_middle
      rw [hperm.nodup_iff]
      rw [hold_n] at hnd hjnot
      rw [List.nodup_cons] at hnd
      rw [List.nodup_cons, List.nodup_cons]
      simp only [List.mem_cons] at hjnot ⊢
      push_neg at hjnot ⊢
      exact ⟨⟨fun he => hjnot.1 he.symm, hnd.1⟩, hjnot.2, hnd.2⟩
    · have hsh : ITree.oidxs (ITree.mk i c vv o
          (pr ++ [(b, ITree.mk j rest (some v) none [] [])]) ov) =
          ITree.oidxs (ITree.mk i c vv o pr ov) := by
        cases o <;> simp [ITree.oidxs, oidxsL_append, oidxsL]
      rw [hsh]
      exact hod
    · intro k hk
      have hsh : ITree.nidxs (ITree.mk i c vv o
          (pr ++ [(b, ITree.mk j rest (some v) none [] [])]) ov) =
          i :: (nidxsL pr ++ (j :: nidxsL ov)) := by
        simp [ITree.nidxs, nidxsL_append, nidxsL]
      rw [hsh] at hk
      rw [hold_n]
      simp only [List.mem_cons, List.mem_append] at hk ⊢
      rcases hk with hk | hk | hk | hk
      · exact Or.inl (Or.inl hk)
      · exact Or.inl (Or.inr (Or.inl hk))
      · subst hk
        exact Or.inr hjfresh
      · exact Or.inl (Or.inr (Or.inr hk))
    · intro hi2 hk
      have hsh : ITree.oidxs (ITree.mk i c vv o
          (pr ++ [(b, ITree.mk j rest (some v) none [] [])]) ov) =
          ITree.oidxs (ITree.mk i c vv o pr ov) := by
        cases o <;> simp [ITree.oidxs, oidxsL_append, oidxsL]
      rw [hsh] at hk
      exact Or.inl hk
    · intro k hlive hnot
      have hki : k ≠ i := by
        intro he
        exact hnot (he ▸ mem_nidxs_self (ITree.mk i c vv o pr ov))
      have hkj : k ≠ j := by
        intro he
        rw [show t.try_get_node k = t.map.get? k from rfl, he, hjfresh]
          at hlive
        exact hlive rfl
      show (m2.setAt i _).get? k = t.map.get? k
      rw [Slab.get?_setAt_ne _ hki, hmne k hkj]
    · intro hi2 _ _
      rfl
    · intro fuel2 key2 hklen
      refine sGet_insert (ITree.mk i c vv o pr ov) _ pr ov b j rest v rfl
        ?_ hfnone fuel2 key2 (by omega)
      show (pr ++ [(b, ITree.mk j rest (some v) none [] [])]) ++ ov = _
      simp
  · -- primary full, no overflow yet: allocate a fresh overflow table
    next hfull hnone2 =>
    have ho : o = none := by
      rw [← hovp]
      exact hnone2
    subst ho
    have hov : ov = [] := hhuge
    subst hov
    obtain ⟨hi, cl2, hins2⟩ : ∃ hi cl2,
        t.child_list.insert (HugeChilds.new b (j, m2).1) = (hi, cl2) :=
      ⟨_, _, rfl⟩
    rw [hins2] at hres
    have hifresh : t.child_list.get? hi = none := by
      have h0 := Slab.insert_fst_fresh t.child_list
        (HugeChilds.new b (j, m2).1)
      rw [hins2] at h0
      exact h0
    have higet : cl2.get? hi = some (HugeChilds.new b j) := by
      have h0 := Slab.insert_get?_self t.child_list
        (HugeChilds.new b (j, m2).1)
      rw [hins2] at h0
      exact h0
    have hclne : ∀ k, k ≠ hi → cl2.get? k = t.child_list.get? k := by
      intro k hk
      have h0 := Slab.insert_get?_ne t.child_list
        (HugeChilds.new b (j, m2).1)
        (show k ≠ (t.child_list.insert (HugeChilds.new b (j, m2).1)).1 by
          rw [hins2]; exact hk)
      rw [hins2] at h0
      exact h0
    have hinot : hi ∉ ITree.oidxs (ITree.mk i c vv none pr []) := by
      intro hmem
      have h0 := hlive_o hi hmem
      rw [hifresh] at h0
      exact absurd h0 (by simp)
    rw [Option.bind_eq_some] at hres
    obtain ⟨father2, hf2, hres⟩ := hres
    have hf2x : m2.get? i = some father2 := hf2
    rw [hmne i hij, show t.map.get? i = t.try_get_node i from rfl, hnode]
      at hf2x
    injection hf2x with hf2x
    subst hf2x
    rw [Option.bind_eq_some] at hres
    obtain ⟨cs, hcs, hres⟩ := hres
    have hcsx : node.childs.set_new_childs hi = some cs := hcs
    obtain ⟨_, hcseq⟩ := Childs.set_new_childs_eq hcsx
    injection hres with hres
    subst hres
    refine ⟨ITree.mk i c vv (some hi) pr
      [(b, ITree.mk j rest (some v) none [] [])],
      ?_, rfl, rfl, rfl, ?_, ?_, ?_, ?_, ?_, ?_, rfl, ?_⟩
    · refine @ReprP.intro _ i c vv _ _ _
        (Node.mk node.compression node.val cs) ?_ ?_ ?_ ?_ ?_ ?_ ?_ ?_ ?_
      · show (m2.setAt i (Node.mk node.compression node.val cs)).get? i =
          some (Node.mk node.compression node.val cs)
        rw [Slab.get?_setAt_self hilt]
      · exact hcomp
      · exact hval
      · show cs.maybe_next_childs_idx = some hi
        rw [hcseq]
      · show cs.radixs.length = cs.idxs.length
        rw [hcseq]
        exact hlen
      · show cs.iter = _
        rw [hcseq]
        exact hprim
      · exact ⟨HugeChilds.new b j, higet, rfl⟩
      · intro p hp
        refine repr_mono (hpr p hp) ?_ ?_
        · intro k hk
          have hki : k ≠ i := by
            intro he
            subst he
            rw [hold_n] at hnd
            exact (List.nodup_cons.mp hnd).1
              (List.mem_append.mpr (Or.inl (nidxsL_mem_iff.mpr ⟨p, hp, hk⟩)))
          have hkj : k ≠ j := by
            intro he
            exact hjnot (he ▸ mem_nidxs_child (Or.inl hp) hk)
          show (m2.setAt i _).get? k = t.map.get? k
          rw [Slab.get?_setAt_ne _ hki, hmne k hkj]
        · intro k2 hk2
          have hk2i : k2 ≠ hi := by
            intro he
            exact hinot (he ▸ mem_oidxs_child (Or.inl hp) hk2)
          exact hclne k2 hk2i
      · intro p hp
        simp only [List.mem_singleton] at hp
        subst hp
        refine repr_leaf ?_
        show (m2.setAt i _).get? j = _
        rw [Slab.get?_setAt_ne _ (fun he => hij he.symm), hjget]
    · have hsh : ITree.nidxs (ITree.mk i c vv (some hi) pr
          [(b, ITree.mk j rest (some v) none [] [])]) =
          i :: (nidxsL pr ++ [j]) := by
        simp [ITree.nidxs, nidxsL]
      rw [hsh]
      have hperm : (i :: (nidxsL pr ++ [j])).Perm
          (i :: (j :: (nidxsL pr ++ []))) :=
        List.Perm.cons i List.perm_middle
      rw [hperm.nodup_iff]
      rw [hold_n] at hnd hjnot
      simp only [nidxsL, List.append_nil] at hnd hjnot ⊢
      rw [List.nodup_cons] at hnd
      rw [List.nodup_cons, List.nodup_cons]
      simp only [List.mem_cons] at hjnot ⊢
      push_neg at hjnot ⊢
      exact ⟨⟨fun he => hjnot.1 he.symm, hnd.1⟩, hjnot.2, hnd.2⟩
    · have hsh : ITree.oidxs (ITree.mk i c vv (some hi) pr
          [(b, ITree.mk j rest (some v) none [] [])]) =
          hi :: oidxsL pr := by
        simp [ITree.oidxs, oidxsL]
      rw [hsh]
      have hsho : ITree.oidxs (ITree.mk i c vv none pr []) =
          oidxsL pr := by
        simp [ITree.oidxs, oidxsL]
      rw [hsho] at hod hinot
      exact List.nodup_cons.mpr ⟨hinot, hod⟩
    · intro k hk
      have hsh : ITree.nidxs (ITree.mk i c vv (some hi) pr
          [(b, ITree.mk j rest (some v) none [] [])]) =
          i :: (nidxsL pr ++ [j]) := by
        simp [ITree.nidxs, nidxsL]
      rw [hsh] at hk
      rw [hold_n]
      simp only [nidxsL, List.append_nil]
      simp only [List.mem_cons, List.mem_append, List.mem_singleton] at hk ⊢
      rcases hk with hk | hk | hk | hk
      · exact Or.inl (Or.inl hk)
      · exact Or.inl (Or.inr hk)
      · subst hk
        exact Or.inr hjfresh
      · simp at hk
    · intro hi2 hk
      have hsh : ITree.oidxs (ITree.mk i c vv (some hi) pr
          [(b, ITree.mk j rest (some v) none [] [])]) =
          hi :: oidxsL pr := by
        simp [ITree.oidxs, oidxsL]
      rw [hsh] at hk
      have hsho : ITree.oidxs (ITree.mk i c vv none pr []) =
          oidxsL pr := by
        simp [ITree.oidxs, oidxsL]
      rw [hsho]
      rcases List.mem_cons.mp hk with hk | hk
      · subst hk
        exact Or.inr hifresh
      · exact Or.inl hk
    · intro k hlive hnot
      have hki : k ≠ i := by
        intro he
        exact hnot (he ▸ mem_nidxs_self (ITree.mk i c vv none pr []))
      have hkj : k ≠ j := by
        intro he
        rw [show t.try_get_node k = t.map.get? k from rfl, he, hjfresh]
          at hlive
        exact hlive rfl
      show (m2.setAt i _).get? k = t.map.get? k
      rw [Slab.get?_setAt_ne _ hki, hmne k hkj]
    · intro k2 hlive hnot
      have hk2i : k2 ≠ hi := by
        intro he
        rw [he, hifresh] at hlive
        exact hlive rfl
      exact hclne k2 hk2i
    · intro fuel2 key2 hklen
      exact sGet_insert (ITree.mk i c vv none pr [])
        (ITree.mk i c vv (some hi) pr
          [(b, ITree.mk j rest (some v) none [] [])]) pr [] b j rest v rfl
        rfl hfnone fuel2 key2 (by omega)
  · -- primary full, overflow table attached: push onto it
    next hi2 hfull2 hhix =>
    have ho : o = some hi2 := by
      rw [← hovp]
      exact hhix
    subst ho
    obtain ⟨h2, hg, he⟩ := hhuge
    rw [Option.bind_eq_some] at hres
    obtain ⟨huge, hhg, hres⟩ := hres
    have hhgx : t.child_list.get? hi2 = some huge := hhg
    rw [hg] at hhgx
    injection hhgx with hhgx
    subst hhgx
    rw [Option.bind_eq_some] at hres
    obtain ⟨huge2, hh2, hres⟩ := hres
    have hh2x : h2.push b j = some huge2 := hh2
    have hh2eq := HugeChilds.push_eq_pairs hh2x
    injection hres with hres
    subst hres
    have hi2lt : hi2 < t.child_list.entries.length :=
      Slab.lt_length_of_get? (a := h2) hg
    have hi2notL : hi2 ∉ oidxsL pr ∧ hi2 ∉ oidxsL ov := by
      have hsho : ITree.oidxs (ITree.mk i c vv (some hi2) pr ov) =
          hi2 :: (oidxsL pr ++ oidxsL ov) := by
        simp [ITree.oidxs, oidxsL_append]
      rw [hsho] at hod
      have := (List.nodup_cons.mp hod).1
      simp only [List.mem_append] at this
      push_neg at this
      exact this
    refine ⟨ITree.mk i c vv (some hi2) pr
      (ov ++ [(b, ITree.mk j rest (some v) none [] [])]),
      ?_, rfl, rfl, rfl, ?_, ?_, ?_, ?_, ?_, ?_, rfl, ?_⟩
    · refine ReprP.intro (i := i) ?_ hcomp hval hovp hlen hprim ?_ ?_ ?_
      · show m2.get? i = some node
        rw [hmne i hij, show t.map.get? i = t.try_get_node i from rfl, hnode]
      · refine ⟨huge2, ?_, ?_⟩
        · show (t.child_list.setAt hi2 huge2).get? hi2 = some huge2
          rw [Slab.get?_setAt_self hi2lt]
        · rw [hh2eq, he, pairsOf_append]
          rfl
      · intro p hp
        refine repr_mono (hpr p hp) ?_ ?_
        · intro k hk
          have hkj : k ≠ j := by
            intro hkeq
            exact hjnot (hkeq ▸ mem_nidxs_child (Or.inl hp) hk)
          show m2.get? k = t.map.get? k
          exact hmne k hkj
        · intro k2 hk2
          have hk2i : k2 ≠ hi2 := by
            intro hkeq
            exact hi2notL.1 (hkeq ▸ oidxsL_mem_iff.mpr ⟨p, hp, hk2⟩)
          show (t.child_list.setAt hi2 huge2).get? k2 = _
          rw [Slab.get?_setAt_ne _ hk2i]
      · intro p hp
        rcases List.mem_append.mp hp with hp | hp
        · refine repr_mono (hovr p hp) ?_ ?_
          · intro k hk
            have hkj : k ≠ j := by
              intro hkeq
              exact hjnot (hkeq ▸ mem_nidxs_child (Or.inr hp) hk)
            show m2.get? k = t.map.get? k
            exact hmne k hkj
          · intro k2 hk2
            have hk2i : k2 ≠ hi2 := by
              intro hkeq
              exact hi2notL.2 (hkeq ▸ oidxsL_mem_iff.mpr ⟨p, hp, hk2⟩)
            show (t.child_list.setAt hi2 huge2).get? k2 = _
            rw [Slab.get?_setAt_ne _ hk2i]
        · simp only [List.mem_singleton] at hp
          subst hp
          refine repr_leaf ?_
          show m2.get? j = _
          rw [hjget]
    · have hsh : ITree.nidxs (ITree.mk i c vv (some hi2) pr
          (ov ++ [(b, ITree.mk j rest (some v) none [] [])])) =
          i :: (nidxsL pr ++ (nidxsL ov ++ [j])) := by
        simp [ITree.nidxs, nidxsL_append, nidxsL]
      rw [hsh]
      have hassoc : nidxsL pr ++ (nidxsL ov ++ [j]) =
          (nidxsL pr ++ nidxsL ov) ++ [j] := by
        rw [List.append_assoc]
      rw [hassoc]
      have hperm : (i :: ((nidxsL pr ++ nidxsL ov) ++ [j])).Perm
          (i :: (j :: ((nidxsL pr ++ nidxsL ov) ++ []))) :=
        List.Perm.cons i List.perm_middle
      rw [hperm.nodup_iff]
      rw [hold_n] at hnd hjnot
      simp only [List.append_nil] at hperm ⊢
      rw [List.nodup_cons] at hnd
      rw [List.nodup_cons, List.nodup_cons]
      simp only [List.mem_cons] at hjnot ⊢
      push_neg at hjnot ⊢
      exact ⟨⟨fun heq => hjnot.1 heq.symm, hnd.1⟩, hjnot.2, hnd.2⟩
    · have hsh : ITree.oidxs (ITree.mk i c vv (some hi2) pr
          (ov ++ [(b, ITree.mk j rest (some v) none [] [])])) =
          ITree.oidxs (ITree.mk i c vv (some hi2) pr ov) := by
        simp [ITree.oidxs, oidxsL_append, oidxsL]
      rw [hsh]
      exact hod
    · intro k hk
      have hsh : ITree.nidxs (ITree.mk i c vv (some hi2) pr
          (ov ++ [(b, ITree.mk j rest (some v) none [] [])])) =
          i :: (nidxsL pr ++ (nidxsL ov ++ [j])) := by
        simp [ITree.nidxs, nidxsL_append, nidxsL]
      rw [hsh] at hk
      rw [hold_n]
      simp only [List.mem_cons, List.mem_append, List.mem_singleton] at hk ⊢
      rcases hk with hk | hk | hk | hk | hk
      · exact Or.inl (Or.inl hk)
      · exact Or.inl (Or.inr (Or.inl hk))
      · exact Or.inl (Or.inr (Or.inr hk))
      · subst hk
        exact Or.inr hjfresh
      · simp at hk
    · intro k2 hk
      have hsh : ITree.oidxs (ITree.mk i c vv (some hi2) pr
          (ov ++ [(b, ITree.mk j rest (some v) none [] [])])) =
          ITree.oidxs (ITree.mk i c vv (some hi2) pr ov) := by
        simp [ITree.oidxs, oidxsL_append, oidxsL]
      rw [hsh] at hk
      exact Or.inl hk
    · intro k hlive hnot
      have hkj : k ≠ j := by
        intro hkeq
        rw [show t.try_get_node k = t.map.get? k from rfl, hkeq, hjfresh]
          at hlive
        exact hlive rfl
      show m2.get? k = t.map.get? k
      exact hmne k hkj
    · intro k2 hlive hnot
      have hk2i : k2 ≠ hi2 := by
        intro hkeq
        refine hnot ?_
        rw [hkeq]
        have hsho : ITree.oidxs (ITree.mk i c vv (some hi2) pr ov) =
            hi2 :: (oidxsL pr ++ oidxsL ov) := by
          simp [ITree.oidxs, oidxsL_append]
        rw [hsho]
        exact List.mem_cons_self _ _
      show (t.child_list.setAt hi2 huge2).get? k2 = _
      rw [Slab.get?_setAt_ne _ hk2i]
    · intro fuel2 key2 hklen
      refine sGet_insert (ITree.mk i c vv (some hi2) pr ov) _ (pr ++ ov) []
        b j rest v (by simp [ITree.children]) ?_ hfnone fuel2 key2 (by omega)
      show ITree.children (ITree.mk i c vv (some hi2) pr
        (ov ++ [(b, ITree.mk j rest (some v) none [] [])])) = _
      simp [ITree.children]


/-- `sGet` is fuel-irrelevant once the fuel exceeds the key length: every
descent step consumes at least the decision byte. -/
theorem sGet_fuel_irrel :
    ∀ (f1 : Nat) (f2 : Nat) (s : ITree) (k : List Nat),
      k.length < f1 → k.length < f2 → sGet f1 s k = sGet f2 s k := by
  intro f1
  induction f1 with
  | zero => intro f2 s k h1 h2; omega
  | succ f1 ih =>
      intro f2 s k h1 h2
      cases k with
      | nil => cases f2 with
        | zero => omega
        | succ f2 => rfl
      | cons b rest =>
          cases f2 with
          | zero => omega
          | succ f2 =>
              show sGet (f1 + 1) s (b :: rest) = sGet (f2 + 1) s (b :: rest)
              simp only [sGet]
              cases hfc : findChildT s b with
              | none => rfl
              | some sc =>
                  by_cases he : ITree.comp sc = rest
                  · simp only [if_pos he]
                  · simp only [if_neg he]
                    by_cases hp : properPreOf (ITree.comp sc) rest
                    · simp only [if_pos hp]
                      have hd := List.length_drop (ITree.comp sc).length rest
                      simp only [List.length_cons] at h1 h2
                      exact ih f2 sc _ (by omega) (by omega)
                    · simp only [if_neg hp]

theorem take_eq_of_lcpLen {a b : List Nat} {m : Nat}
    (h : m ≤ lcpLen a b) : a.take m = b.take m := by
  have h1 : (a.take (lcpLen a b)).take m = (b.take (lcpLen a b)).take m := by
    rw [lcpLen_take]
  rw [List.take_take, List.take_take, Nat.min_eq_left h] at h1
  exact h1

theorem eq_iff_drop {a b : List Nat} {m : Nat}
    (ht : a.take m = b.take m) :
    a = b ↔ (a.length = b.length ∧ a.drop m = b.drop m) := by
  constructor
  · intro he
    exact ⟨by rw [he], by rw [he]⟩
  · rintro ⟨hl, hd⟩
    conv_lhs => rw [← List.take_append_drop m a]
    conv_rhs => rw [← List.take_append_drop m b]
    rw [ht, hd]

theorem properPre_iff_drop {a b : List Nat} {m : Nat}
    (ht : a.take m = b.take m) (ha : m ≤ a.length) (hb : m ≤ b.length) :
    properPreOf a b ↔ properPreOf (a.drop m) (b.drop m) := by
  constructor
  · rintro ⟨hl, htk⟩
    refine ⟨?_, ?_⟩
    · rw [List.length_drop, List.length_drop]
      omega
    · rw [List.length_drop]
      have h2 := congrArg (List.drop m) htk
      rw [List.drop_take] at h2
      exact h2
  · rintro ⟨hl, htk⟩
    rw [List.length_drop, List.length_drop] at hl
    rw [List.length_drop] at htk
    refine ⟨by omega, ?_⟩
    have hsum : a.length = m + (a.length - m) := by omega
    rw [hsum, List.take_add, ← ht, htk]
    conv_rhs => rw [← List.take_append_drop m a]


theorem eq_iff_drop2 {a b : List Nat} {m : Nat}
    (ht : a.take m = b.take m) : a = b ↔ a.drop m = b.drop m := by
  constructor
  · intro he
    rw [he]
  · intro hd
    conv_lhs => rw [← List.take_append_drop m a]
    conv_rhs => rw [← List.take_append_drop m b]
    rw [ht, hd]

theorem drop_eq_cons {l : List Nat} {m x : Nat} (h : l.get? m = some x) :
    l.drop m = x :: l.drop (m + 1) := by
  induction l generalizing m with
  | nil => simp at h
  | cons a rest ih =>
      cases m with
      | zero =>
          rw [List.get?_cons_zero] at h
          injection h with h
          rw [h]
          rfl
      | succ m =>
          rw [List.get?_cons_succ] at h
          show rest.drop m = x :: rest.drop (m + 1)
          exact ih h

theorem get?_append_at (A : List Nat) (x : Nat) (r : List Nat) :
    (A ++ x :: r).get? A.length = some x := by
  induction A with
  | nil => rfl
  | cons a rest ih => exact ih

theorem drop_append_past (A : List Nat) (x : Nat) (r : List Nat) :
    (A ++ x :: r).drop (A.length + 1) = r := by
  induction A with
  | nil => rfl
  | cons a rest ih => exact ih

theorem drop_append_at (A : List Nat) (r : List Nat) :
    (A ++ r).drop A.length = r := by
  induction A with
  | nil => rfl
  | cons a rest ih => exact ih

theorem children_eta (s : ITree) (i : Nat) (c : List Nat) (vv o : Option Nat) :
    ITree.children (ITree.mk i c vv o (ITree.prim s) (ITree.ovch s)) =
      ITree.children s := by
  cases s
  rfl

theorem lcpLen_lt_comp {comp rest : List Nat}
    (hne : comp ≠ rest) (hnp : ¬ properPreOf comp rest) :
    lcpLen comp rest < comp.length := by
  rcases Nat.lt_trichotomy comp.length rest.length with hlt | heq | hgt
  · by_contra hge
    have h1 : lcpLen comp rest = comp.length :=
      Nat.le_antisymm (lcpLen_le_left _ _) (by omega)
    exact hnp ⟨hlt, (lcpLen_eq_left_iff comp rest (by omega)).mp h1⟩
  · by_contra hge
    have h1 : lcpLen comp rest = comp.length :=
      Nat.le_antisymm (lcpLen_le_left _ _) (by omega)
    have h2 := (lcpLen_eq_left_iff comp rest (by omega)).mp h1
    rw [heq, List.take_length] at h2
    exact hne h2.symm
  · have := lcpLen_le_right comp rest
    omega

theorem take_lcp_len {comp rest : List Nat}
    (h : lcpLen comp rest < comp.length) :
    (comp.take (lcpLen comp rest)).length = lcpLen comp rest := by
  rw [List.length_take]
  omega


theorem sGet_step (f : Nat) (s : ITree) (b : Nat) (rest2 : List Nat) :
    sGet (f + 1) s (b :: rest2) =
      match findChildT s b with
      | none => none
      | some sc => childStep f sc rest2 := rfl

theorem take_append_at (A : List Nat) (x : Nat) (r : List Nat) :
    (A ++ x :: r).take (A.length + 1) = A ++ [x] := by
  induction A with
  | nil => rfl
  | cons a rest ih =>
      show a :: (rest ++ x :: r).take (rest.length + 1) = _
      rw [ih]
      rfl

theorem drop_append_add (A : List Nat) (x : Nat) (r : List Nat) (k : Nat) :
    (A ++ x :: r).drop (A.length + 1 + k) = r.drop k := by
  rw [← List.drop_drop, drop_append_past]

theorem prefix_get? {a b : List Nat} {m : Nat}
    (h : b.take a.length = a) (hm : m < a.length) :
    b.get? m = a.get? m := by
  conv_rhs => rw [← h]
  rw [List.get?_eq_getElem?, List.get?_eq_getElem?, List.getElem?_take,
    if_pos hm]

/-- Replacing the first child under a radix, given the step-level relation
between the old and new child. -/
theorem sGet_replace_gen (s s2 : ITree) (l1 l2 : List (Nat × ITree))
    (b : Nat) (sc sc2 : ITree) (key : List Nat) (v : Nat)
    (h1 : ITree.children s = l1 ++ (b, sc) :: l2)
    (h2 : ITree.children s2 = l1 ++ (b, sc2) :: l2)
    (hl1 : l1.find? (fun p => decide (p.1 = b)) = none)
    (hstep : ∀ f2 rest2, rest2.length < f2 →
      childStep f2 sc2 rest2 =
        if rest2 = key then some v else childStep f2 sc rest2) :
    ∀ fuel2 key2, key2.length < fuel2 →
      sGet fuel2 s2 key2 =
        if key2 = b :: key then some v else sGet fuel2 s key2 := by
  intro fuel2 key2 hlen
  obtain ⟨f, rfl⟩ : ∃ f, fuel2 = f + 1 := ⟨fuel2 - 1, by omega⟩
  cases key2 with
  | nil => rw [if_neg (by simp)]; rfl
  | cons b2 rest2 =>
      by_cases hb : b2 = b
      · subst hb
        have hfind1 : findChildT s b2 = some sc := by
          unfold findChildT
          rw [h1, find?_first l2 hl1 (by simp)]
          rfl
        have hfind2 : findChildT s2 b2 = some sc2 := by
          unfold findChildT
          rw [h2, find?_first l2 hl1 (by simp)]
          rfl
        rw [sGet_step, sGet_step, hfind1, hfind2]
        simp only [List.length_cons, Nat.succ_lt_succ_iff] at hlen
        show childStep f sc2 rest2 =
          if (b2 :: rest2) = b2 :: key then some v else childStep f sc rest2
        rw [hstep f rest2 hlen]
        by_cases hk : rest2 = key
        · rw [if_pos hk, if_pos (by rw [hk])]
        · rw [if_neg hk, if_neg (by
            intro hc
            injection hc with _ hc2
            exact hk hc2)]
      · have hch : findChildT s2 b2 = findChildT s b2 := by
          unfold findChildT
          rw [h1, h2, find?_radix_congr (fun hbb => hb hbb.symm)]
        have hne : (b2 :: rest2) ≠ (b :: key) := by
          intro hk
          injection hk with hk1 _
          exact hb hk1
        rw [if_neg hne, sGet_step, sGet_step, hch]


theorem find?_pair_cons_ne {b r : Nat} {x : ITree}
    {l : List (Nat × ITree)} (h : r ≠ b) :
    ((r, x) :: l).find? (fun p => decide (p.1 = b)) =
      l.find? (fun p => decide (p.1 = b)) := by
  rw [List.find?_cons, show (decide ((r, x).1 = b)) = false by simp [h]]

theorem find?_pair_cons_self {b : Nat} {x : ITree}
    {l : List (Nat × ITree)} :
    ((b, x) :: l).find? (fun p => decide (p.1 = b)) = some (b, x) := by
  rw [List.find?_cons, show (decide ((b, x).1 = b)) = true by simp]

/-- The child-level step relation for the compression split in the
`val_on_intermediate` case: the prefix ends inside the node's compression,
so the node splits into a value-carrying intermediate (keeping the common
part) with the old node, compression shortened, as its only child. -/
theorem childStep_split_val (sc : ITree) (rest : List Nat) (v j orx : Nat)
    (C : List Nat) (cl : Nat)
    (hC : ITree.comp sc = C) (hcl : lcpLen C rest = cl)
    (hne : C ≠ rest) (hnp : ¬ properPreOf C rest)
    (hor : C.get? cl = some orx)
    (hclr : cl = rest.length) :
    ∀ f rest2, rest2.length < f →
      childStep f (ITree.mk (ITree.idx sc) (C.take cl) (some v) none
        [(orx, ITree.mk j (C.drop (cl + 1)) (ITree.val sc) (ITree.ov sc)
          (ITree.prim sc) (ITree.ovch sc))] []) rest2 =
      if rest2 = rest then some v else childStep f sc rest2 := by
  have hcl_lt : cl < C.length := hcl ▸ lcpLen_lt_comp hne hnp
  have htake : C.take cl = rest.take cl := hcl ▸ lcpLen_take C rest
  have hlen2 : (C.take cl).length = cl := by
    rw [List.length_take]
    omega
  have hrest : C.take cl = rest := by
    rw [htake, hclr, List.take_length]
  intro f rest2 hflen
  show (if (C.take cl) = rest2 then some v
    else if properPreOf (C.take cl) rest2 then
      sGet f (ITree.mk (ITree.idx sc) (C.take cl) (some v) none
        [(orx, ITree.mk j (C.drop (cl + 1)) (ITree.val sc) (ITree.ov sc)
          (ITree.prim sc) (ITree.ovch sc))] [])
        (rest2.drop (C.take cl).length)
    else none) =
    if rest2 = rest then some v
    else if (ITree.comp sc) = rest2 then ITree.val sc
    else if properPreOf (ITree.comp sc) rest2 then
      sGet f sc (rest2.drop (ITree.comp sc).length)
    else none
  simp only [hC]
  by_cases hα : C.take cl = rest2
  · have hr2 : rest2 = rest := by rw [← hα, hrest]
    rw [if_pos hα, if_pos hr2]
  · rw [if_neg hα]
    have hr2ne : rest2 ≠ rest := by
      rw [← hrest]
      exact fun heq => hα heq.symm
    rw [if_neg hr2ne]
    by_cases hβ : properPreOf (C.take cl) rest2
    · rw [if_pos hβ]
      obtain ⟨hr2s, hr2nn⟩ := properPre_append hβ
      rw [hlen2] at hr2s hr2nn
      have hr2len : cl < rest2.length := by
        have := hβ.1
        omega
      cases hr2d : rest2.drop cl with
      | nil => exact absurd hr2d hr2nn
      | cons b3 rest3 =>
          rw [hr2d] at hr2s
          have hlen3 : rest2.length = cl + (rest3.length + 1) := by
            have h0 := congrArg List.length hr2s
            simp only [List.length_append, List.length_cons, hlen2] at h0
            omega
          obtain ⟨f2, rfl⟩ : ∃ f2, f = f2 + 1 := ⟨f - 1, by omega⟩
          rw [hlen2, hr2d, sGet_step]
          by_cases hb3 : b3 = orx
          · subst hb3
            have hfc : findChildT (ITree.mk (ITree.idx sc) (C.take cl)
                (some v) none [(b3, ITree.mk j (C.drop (cl + 1))
                  (ITree.val sc) (ITree.ov sc) (ITree.prim sc)
                  (ITree.ovch sc))] []) b3 =
                some (ITree.mk j (C.drop (cl + 1)) (ITree.val sc)
                  (ITree.ov sc) (ITree.prim sc) (ITree.ovch sc)) := by
              unfold findChildT
              simp [ITree.children]
            rw [hfc]
            show (if (C.drop (cl + 1)) = rest3 then ITree.val sc
              else if properPreOf (C.drop (cl + 1)) rest3 then
                sGet f2 (ITree.mk j (C.drop (cl + 1)) (ITree.val sc)
                  (ITree.ov sc) (ITree.prim sc) (ITree.ovch sc))
                  (rest3.drop (C.drop (cl + 1)).length)
              else none) =
              if C = rest2 then ITree.val sc
              else if properPreOf C rest2 then
                sGet (f2 + 1) sc (rest2.drop C.length)
              else none
            have htC : C.take (cl + 1) = C.take cl ++ [b3] := by
              rw [List.take_succ, ← List.get?_eq_getElem?, hor]
              rfl
            have htR : rest2.take (cl + 1) = C.take cl ++ [b3] := by
              rw [hr2s]
              have h0 := take_append_at (C.take cl) b3 rest3
              rw [hlen2] at h0
              exact h0
            have hdR : rest2.drop (cl + 1) = rest3 := by
              rw [hr2s]
              have h0 := drop_append_past (C.take cl) b3 rest3
              rw [hlen2] at h0
              exact h0
            have heq2 := eq_iff_drop2 (a := C) (b := rest2)
              (htC.trans htR.symm)
            rw [hdR] at heq2
            have hP2 := properPre_iff_drop (a := C) (b := rest2)
              (htC.trans htR.symm) (by omega) (by omega)
            rw [hdR] at hP2
            by_cases hF : C.drop (cl + 1) = rest3
            · rw [if_pos hF, if_pos (heq2.mpr hF)]
            · rw [if_neg hF, if_neg (fun hCC => hF (heq2.mp hCC))]
              by_cases hP : properPreOf (C.drop (cl + 1)) rest3
              · rw [if_pos hP, if_pos (hP2.mpr hP)]
                have hXeq : rest2.drop C.length =
                    rest3.drop (C.drop (cl + 1)).length := by
                  rw [List.length_drop, hr2s]
                  have h0 := drop_append_add (C.take cl) b3 rest3
                    (C.length - (cl + 1))
                  rw [hlen2] at h0
                  rw [← h0]
                  congr 1
                  omega
                rw [hXeq]
                rw [sGet_congr_children
                  (children_eta sc j (C.drop (cl + 1)) (ITree.val sc)
                    (ITree.ov sc)) f2]
                refine sGet_fuel_irrel f2 (f2 + 1) sc _ ?_ ?_ <;>
                  · have h0 := List.length_drop
                      (C.drop (cl + 1)).length rest3
                    omega
              · rw [if_neg hP, if_neg (fun hPP => hP (hP2.mp hPP))]
          · have hfc : findChildT (ITree.mk (ITree.idx sc) (C.take cl)
                (some v) none [(orx, ITree.mk j (C.drop (cl + 1))
                  (ITree.val sc) (ITree.ov sc) (ITree.prim sc)
                  (ITree.ovch sc))] []) b3 = none := by
              unfold findChildT
              simp [ITree.children]
              exact fun h => hb3 h.symm
            rw [hfc]
            have hgR : rest2.get? cl = some b3 := by
              rw [hr2s]
              have h0 := get?_append_at (C.take cl) b3 rest3
              rw [hlen2] at h0
              exact h0
            have hCne : C ≠ rest2 := by
              intro hc
              rw [← hc, hor] at hgR
              injection hgR with hgR
              exact hb3 hgR.symm
            have hPne : ¬ properPreOf C rest2 := by
              rintro ⟨hl, htk⟩
              have h0 := prefix_get? htk hcl_lt
              rw [hor, hgR] at h0
              injection h0 with h0
              exact hb3 h0
            rw [if_neg hCne, if_neg hPne]
    · rw [if_neg hβ]
      have hCne : C ≠ rest2 := by
        intro hc
        refine hβ ⟨?_, ?_⟩
        · rw [hlen2, ← hc]
          exact hcl_lt
        · rw [hlen2, ← hc]
      have hPne : ¬ properPreOf C rest2 := by
        rintro ⟨hl, htk⟩
        refine hβ ⟨?_, ?_⟩
        · rw [hlen2]
          omega
        · rw [hlen2]
          have h3 := congrArg (List.take cl) htk
          rw [List.take_take, Nat.min_eq_left (by omega)] at h3
          exact h3
      rw [if_neg hCne, if_neg hPne]


/-- The child-level step relation for the compression split in the
diverging case: the node splits into a value-less intermediate with the old
node and a fresh leaf for the written key as its two children. -/
theorem childStep_split_new (sc : ITree) (rest : List Nat)
    (v j j2 orx nrx : Nat) (C : List Nat) (cl : Nat)
    (hC : ITree.comp sc = C) (hcl : lcpLen C rest = cl)
    (hne : C ≠ rest) (hnp : ¬ properPreOf C rest)
    (hor : C.get? cl = some orx)
    (hclr : cl ≠ rest.length)
    (hnr : rest.get? cl = some nrx) :
    ∀ f rest2, rest2.length < f →
      childStep f (ITree.mk (ITree.idx sc) (C.take cl) none none
        [(orx, ITree.mk j (C.drop (cl + 1)) (ITree.val sc) (ITree.ov sc)
          (ITree.prim sc) (ITree.ovch sc)),
         (nrx, ITree.mk j2 (rest.drop (cl + 1)) (some v) none [] [])]
        []) rest2 =
      if rest2 = rest then some v else childStep f sc rest2 := by
  have hcl_lt : cl < C.length := hcl ▸ lcpLen_lt_comp hne hnp
  have hcl_le : cl ≤ rest.length := hcl ▸ lcpLen_le_right C rest
  have hcl_ltr : cl < rest.length := by omega
  have htake : C.take cl = rest.take cl := hcl ▸ lcpLen_take C rest
  have hlen2 : (C.take cl).length = cl := by
    rw [List.length_take]
    omega
  have hmm0 : C.get? cl ≠ rest.get? cl := by
    have h0 := lcpLen_mismatch C rest (by rw [hcl]; exact hcl_lt)
      (by rw [hcl]; exact hcl_ltr)
    rw [hcl] at h0
    exact h0
  have horn : orx ≠ nrx := by
    intro heq
    rw [hor, hnr, heq] at hmm0
    exact hmm0 rfl
  have hrsplit : rest = C.take cl ++ nrx :: rest.drop (cl + 1) := by
    conv_lhs => rw [← List.take_append_drop cl rest]
    rw [← htake, drop_eq_cons hnr]
  intro f rest2 hflen
  show (if (C.take cl) = rest2 then none
    else if properPreOf (C.take cl) rest2 then
      sGet f (ITree.mk (ITree.idx sc) (C.take cl) none none
        [(orx, ITree.mk j (C.drop (cl + 1)) (ITree.val sc) (ITree.ov sc)
          (ITree.prim sc) (ITree.ovch sc)),
         (nrx, ITree.mk j2 (rest.drop (cl + 1)) (some v) none [] [])] [])
        (rest2.drop (C.take cl).length)
    else none) =
    if rest2 = rest then some v
    else if (ITree.comp sc) = rest2 then ITree.val sc
    else if properPreOf (ITree.comp sc) rest2 then
      sGet f sc (rest2.drop (ITree.comp sc).length)
    else none
  simp only [hC]
  by_cases hα : C.take cl = rest2
  · have hr2len : rest2.length = cl := by
      rw [← hα]
      exact hlen2
    have hr2ne : rest2 ≠ rest := by
      intro heq
      rw [heq] at hr2len
      omega
    have hCne : C ≠ rest2 := by
      intro hc
      have := congrArg List.length hc
      omega
    have hPne : ¬ properPreOf C rest2 := by
      rintro ⟨hl, _⟩
      omega
    rw [if_pos hα, if_neg hr2ne, if_neg hCne, if_neg hPne]
  · rw [if_neg hα]
    by_cases hβ : properPreOf (C.take cl) rest2
    · rw [if_pos hβ]
      obtain ⟨hr2s, hr2nn⟩ := properPre_append hβ
      rw [hlen2] at hr2s hr2nn
      have hr2len : cl < rest2.length := by
        have := hβ.1
        omega
      cases hr2d : rest2.drop cl with
      | nil => exact absurd hr2d hr2nn
      | cons b3 rest3 =>
          rw [hr2d] at hr2s
          have hlen3 : rest2.length = cl + (rest3.length + 1) := by
            have h0 := congrArg List.length hr2s
            simp only [List.length_append, List.length_cons, hlen2] at h0
            omega
          obtain ⟨f2, rfl⟩ : ∃ f2, f = f2 + 1 := ⟨f - 1, by omega⟩
          rw [hlen2, hr2d, sGet_step]
          have hgR : rest2.get? cl = some b3 := by
            rw [hr2s]
            have h0 := get?_append_at (C.take cl) b3 rest3
            rw [hlen2] at h0
            exact h0
          by_cases hb3 : b3 = orx
          · subst hb3
            have hfc : findChildT (ITree.mk (ITree.idx sc) (C.take cl)
                none none [(b3, ITree.mk j (C.drop (cl + 1))
                  (ITree.val sc) (ITree.ov sc) (ITree.prim sc)
                  (ITree.ovch sc)),
                 (nrx, ITree.mk j2 (rest.drop (cl + 1)) (some v) none []
                   [])] []) b3 =
                some (ITree.mk j (C.drop (cl + 1)) (ITree.val sc)
                  (ITree.ov sc) (ITree.prim sc) (ITree.ovch sc)) := by
              unfold findChildT
              rw [show ITree.children (ITree.mk (ITree.idx sc) (C.take cl)
                  none none [(b3, ITree.mk j (C.drop (cl + 1))
                    (ITree.val sc) (ITree.ov sc) (ITree.prim sc)
                    (ITree.ovch sc)),
                   (nrx, ITree.mk j2 (rest.drop (cl + 1)) (some v) none []
                     [])] []) =
                  [(b3, ITree.mk j (C.drop (cl + 1)) (ITree.val sc)
                    (ITree.ov sc) (ITree.prim sc) (ITree.ovch sc)),
                   (nrx, ITree.mk j2 (rest.drop (cl + 1)) (some v) none []
                     [])] from rfl, find?_pair_cons_self]
              rfl
            rw [hfc]
            have hr2nr : rest2 ≠ rest := by
              intro heq
              rw [heq] at hgR
              rw [hnr] at hgR
              injection hgR with hgR
              exact horn hgR.symm
            rw [if_neg hr2nr]
            show (if (C.drop (cl + 1)) = rest3 then ITree.val sc
              else if properPreOf (C.drop (cl + 1)) rest3 then
                sGet f2 (ITree.mk j (C.drop (cl + 1)) (ITree.val sc)
                  (ITree.ov sc) (ITree.prim sc) (ITree.ovch sc))
                  (rest3.drop (C.drop (cl + 1)).length)
              else none) =
              if C = rest2 then ITree.val sc
              else if properPreOf C rest2 then
                sGet (f2 + 1) sc (rest2.drop C.length)
              else none
            have htC : C.take (cl + 1) = C.take cl ++ [b3] := by
              rw [List.take_succ, ← List.get?_eq_getElem?, hor]
              rfl
            have htR : rest2.take (cl + 1) = C.take cl ++ [b3] := by
              rw [hr2s]
              have h0 := take_append_at (C.take cl) b3 rest3
              rw [hlen2] at h0
              exact h0
            have hdR : rest2.drop (cl + 1) = rest3 := by
              rw [hr2s]
              have h0 := drop_append_past (C.take cl) b3 rest3
              rw [hlen2] at h0
              exact h0
            have heq2 := eq_iff_drop2 (a := C) (b := rest2)
              (htC.trans htR.symm)
            rw [hdR] at heq2
            have hP2 := properPre_iff_drop (a := C) (b := rest2)
              (htC.trans htR.symm) (by omega) (by omega)
            rw [hdR] at hP2
            by_cases hF : C.drop (cl + 1) = rest3
            · rw [if_pos hF, if_pos (heq2.mpr hF)]
            · rw [if_neg hF, if_neg (fun hCC => hF (heq2.mp hCC))]
              by_cases hP : properPreOf (C.drop (cl + 1)) rest3
              · rw [if_pos hP, if_pos (hP2.mpr hP)]
                have hXeq : rest2.drop C.length =
                    rest3.drop (C.drop (cl + 1)).length := by
                  rw [List.length_drop, hr2s]
                  have h0 := drop_append_add (C.take cl) b3 rest3
                    (C.length - (cl + 1))
                  rw [hlen2] at h0
                  rw [← h0]
                  congr 1
                  omega
                rw [hXeq]
                rw [sGet_congr_children
                  (children_eta sc j (C.drop (cl + 1)) (ITree.val sc)
                    (ITree.ov sc)) f2]
                refine sGet_fuel_irrel f2 (f2 + 1) sc _ ?_ ?_ <;>
                  · have h0 := List.length_drop
                      (C.drop (cl + 1)).length rest3
                    omega
              · rw [if_neg hP, if_neg (fun hPP => hP (hP2.mp hPP))]
          · by_cases hb3n : b3 = nrx
            · subst hb3n
              have hfc : findChildT (ITree.mk (ITree.idx sc) (C.take cl)
                  none none [(orx, ITree.mk j (C.drop (cl + 1))
                    (ITree.val sc) (ITree.ov sc) (ITree.prim sc)
                    (ITree.ovch sc)),
                   (b3, ITree.mk j2 (rest.drop (cl + 1)) (some v) none []
                     [])] []) b3 =
                  some (ITree.mk j2 (rest.drop (cl + 1)) (some v) none []
                    []) := by
                unfold findChildT
                rw [show ITree.children (ITree.mk (ITree.idx sc)
                    (C.take cl) none none [(orx, ITree.mk j
                      (C.drop (cl + 1)) (ITree.val sc) (ITree.ov sc)
                      (ITree.prim sc) (ITree.ovch sc)),
                     (b3, ITree.mk j2 (rest.drop (cl + 1)) (some v) none []
                       [])] []) =
                    [(orx, ITree.mk j (C.drop (cl + 1)) (ITree.val sc)
                      (ITree.ov sc) (ITree.prim sc) (ITree.ovch sc)),
                     (b3, ITree.mk j2 (rest.drop (cl + 1)) (some v) none []
                       [])] from rfl,
                  find?_pair_cons_ne (fun h => hb3 h.symm),
                  find?_pair_cons_self]
                rfl
              rw [hfc]
              show (if (rest.drop (cl + 1)) = rest3 then some v
                else if properPreOf (rest.drop (cl + 1)) rest3 then
                  sGet f2 (ITree.mk j2 (rest.drop (cl + 1)) (some v) none
                    [] []) (rest3.drop (rest.drop (cl + 1)).length)
                else none) =
                if rest2 = rest then some v
                else if C = rest2 then ITree.val sc
                else if properPreOf C rest2 then
                  sGet (f2 + 1) sc (rest2.drop C.length)
                else none
              have hiff : rest2 = rest ↔ rest.drop (cl + 1) = rest3 := by
                constructor
                · intro heq
                  have h0 := hr2s.symm.trans (heq.trans hrsplit)
                  have h1 := List.append_cancel_left h0
                  injection h1 with _ h1
                  exact h1.symm
                · intro heq
                  rw [hr2s, hrsplit, heq]
              have hCne : C ≠ rest2 := by
                intro hc
                rw [← hc, hor] at hgR
                injection hgR with hgR
                exact hb3 hgR.symm
              have hPne : ¬ properPreOf C rest2 := by
                rintro ⟨hl, htk⟩
                have h0 := prefix_get? htk hcl_lt
                rw [hor, hgR] at h0
                injection h0 with h0
                exact hb3 h0
              by_cases hF : rest.drop (cl + 1) = rest3
              · rw [if_pos hF, if_pos (hiff.mpr hF)]
              · rw [if_neg hF, if_neg (fun hh => hF (hiff.mp hh)),
                  if_neg hCne, if_neg hPne]
                by_cases hP : properPreOf (rest.drop (cl + 1)) rest3
                · rw [if_pos hP]
                  exact sGet_childless f2 _ (properPre_append hP).2
                · rw [if_neg hP]
            · have hfc : findChildT (ITree.mk (ITree.idx sc) (C.take cl)
                  none none [(orx, ITree.mk j (C.drop (cl + 1))
                    (ITree.val sc) (ITree.ov sc) (ITree.prim sc)
                    (ITree.ovch sc)),
                   (nrx, ITree.mk j2 (rest.drop (cl + 1)) (some v) none []
                     [])] []) b3 = none := by
                unfold findChildT
                rw [show ITree.children (ITree.mk (ITree.idx sc)
                    (C.take cl) none none [(orx, ITree.mk j
                      (C.drop (cl + 1)) (ITree.val sc) (ITree.ov sc)
                      (ITree.prim sc) (ITree.ovch sc)),
                     (nrx, ITree.mk j2 (rest.drop (cl + 1)) (some v) none
                       [] [])] []) =
                    [(orx, ITree.mk j (C.drop (cl + 1)) (ITree.val sc)
                      (ITree.ov sc) (ITree.prim sc) (ITree.ovch sc)),
                     (nrx, ITree.mk j2 (rest.drop (cl + 1)) (some v) none
                       [] [])] from rfl,
                  find?_pair_cons_ne (fun h => hb3 h.symm),
                  find?_pair_cons_ne (fun h => hb3n h.symm)]
                rfl
              rw [hfc]
              have hr2nr : rest2 ≠ rest := by
                intro heq
                rw [heq, hnr] at hgR
                injection hgR with hgR
                exact hb3n hgR.symm
              have hCne : C ≠ rest2 := by
                intro hc
                rw [← hc, hor] at hgR
                injection hgR with hgR
                exact hb3 hgR.symm
              have hPne : ¬ properPreOf C rest2 := by
                rintro ⟨hl, htk⟩
                have h0 := prefix_get? htk hcl_lt
                rw [hor, hgR] at h0
                injection h0 with h0
                exact hb3 h0
              rw [if_neg hr2nr, if_neg hCne, if_neg hPne]
    · rw [if_neg hβ]
      have hr2ne : rest2 ≠ rest := by
        intro heq
        refine hβ ⟨?_, ?_⟩
        · rw [hlen2, heq]
          omega
        · rw [hlen2, heq, ← htake]
      have hCne : C ≠ rest2 := by
        intro hc
        refine hβ ⟨?_, ?_⟩
        · rw [hlen2, ← hc]
          exact hcl_lt
        · rw [hlen2, ← hc]
      have hPne : ¬ properPreOf C rest2 := by
        rintro ⟨hl, htk⟩
        refine hβ ⟨?_, ?_⟩
        · rw [hlen2]
          omega
        · rw [hlen2]
          have h3 := congrArg (List.take cl) htk
          rw [List.take_take, Nat.min_eq_left (by omega)] at h3
          exact h3
      rw [if_neg hr2ne, if_neg hCne, if_neg hPne]


theorem findChildT_cases {i : Nat} {c : List Nat} {vv o : Option Nat}
    {pr ov : List (Nat × ITree)} {b : Nat} {sc : ITree}
    (h : findChildT (ITree.mk i c vv o pr ov) b = some sc) :
    (∃ l1 l2, pr = l1 ++ (b, sc) :: l2 ∧
      l1.find? (fun p => decide (p.1 = b)) = none) ∨
    (pr.find? (fun p => decide (p.1 = b)) = none ∧
      ∃ l1 l2, ov = l1 ++ (b, sc) :: l2 ∧
        l1.find? (fun p => decide (p.1 = b)) = none) := by
  unfold findChildT at h
  rw [show ITree.children (ITree.mk i c vv o pr ov) = pr ++ ov from rfl,
    List.find?_append] at h
  cases hq : pr.find? (fun p => decide (p.1 = b)) with
  | some q =>
      rw [hq] at h
      have h2 : some q.2 = some sc := h
      injection h2 with h2
      obtain ⟨l1, l2, he, hn, hx⟩ := find?_split hq
      obtain ⟨qb, qsc⟩ := q
      simp only at h2 hx
      have hqb : qb = b := by simpa using hx
      subst h2
      rw [hqb] at he
      exact Or.inl ⟨l1, l2, he, hn⟩
  | none =>
      rw [hq] at h
      simp only [Option.none_or] at h
      cases hq2 : ov.find? (fun p => decide (p.1 = b)) with
      | none => rw [hq2] at h; exact absurd h (by simp)
      | some q =>
          rw [hq2] at h
          have h2 : some q.2 = some sc := h
          injection h2 with h2
          obtain ⟨l1, l2, he, hn, hx⟩ := find?_split hq2
          obtain ⟨qb, qsc⟩ := q
          simp only at h2 hx
          have hqb : qb = b := by simpa using hx
          subst h2
          rw [hqb] at he
          exact Or.inr ⟨rfl, l1, l2, he, hn⟩

theorem nodup_mid {A B S S2 : List Nat}
    (hnd : (A ++ (S ++ B)).Nodup) (hS2 : S2.Nodup)
    (hfr : ∀ k ∈ S2, k ∉ S → (k ∉ A ∧ k ∉ B)) :
    (A ++ (S2 ++ B)).Nodup := by
  rw [List.nodup_append, List.nodup_append] at hnd ⊢
  obtain ⟨hA, ⟨hS, hB, hSB⟩, hArest⟩ := hnd
  refine ⟨hA, ⟨hS2, hB, ?_⟩, ?_⟩
  · intro k hk hkB
    by_cases hkS : k ∈ S
    · exact hSB hkS hkB
    · exact (hfr k hk hkS).2 hkB
  · intro k hkA hk2
    rw [List.mem_append] at hk2
    rcases hk2 with hk2 | hk2
    · by_cases hkS : k ∈ S
      · exact hArest hkA (List.mem_append.mpr (Or.inl hkS))
      · exact (hfr k hk2 hkS).1 hkA
    · exact hArest hkA (List.mem_append.mpr (Or.inr hk2))

theorem nidxs_sublist_of_mem {l : List (Nat × ITree)} {p : Nat × ITree}
    (hp : p ∈ l) : (ITree.nidxs p.2).Sublist (nidxsL l) := by
  induction l with
  | nil => simp at hp
  | cons a rest ih =>
      rcases List.mem_cons.mp hp with hp | hp
      · subst hp
        show (ITree.nidxs p.2).Sublist (ITree.nidxs p.2 ++ nidxsL rest)
        exact List.sublist_append_left _ _
      · exact (ih hp).trans (List.sublist_append_right _ _)

theorem oidxs_sublist_of_mem {l : List (Nat × ITree)} {p : Nat × ITree}
    (hp : p ∈ l) : (ITree.oidxs p.2).Sublist (oidxsL l) := by
  induction l with
  | nil => simp at hp
  | cons a rest ih =>
      rcases List.mem_cons.mp hp with hp | hp
      · subst hp
        show (ITree.oidxs p.2).Sublist (ITree.oidxs p.2 ++ oidxsL rest)
        exact List.sublist_append_left _ _
      · exact (ih hp).trans (List.sublist_append_right _ _)

theorem nidxs_child_sub {s : ITree} {p : Nat × ITree}
    (hp : p ∈ ITree.prim s ∨ p ∈ ITree.ovch s) :
    (ITree.nidxs p.2).Sublist (ITree.nidxs s) := by
  cases s with
  | mk i c vv o pr ov =>
      rw [show ITree.nidxs (ITree.mk i c vv o pr ov) =
        i :: (nidxsL pr ++ nidxsL ov) by simp [ITree.nidxs]]
      refine List.Sublist.trans ?_ (List.sublist_cons_self _ _)
      simp only [ITree.prim, ITree.ovch] at hp
      rcases hp with hp | hp
      · exact (nidxs_sublist_of_mem hp).trans
          (List.sublist_append_left _ _)
      · exact (nidxs_sublist_of_mem hp).trans
          (List.sublist_append_right _ _)

theorem oidxs_child_sub {s : ITree} {p : Nat × ITree}
    (hp : p ∈ ITree.prim s ∨ p ∈ ITree.ovch s) :
    (ITree.oidxs p.2).Sublist (ITree.oidxs s) := by
  cases s with
  | mk i c vv o pr ov =>
      have hsh : ITree.oidxs (ITree.mk i c vv o pr ov) =
          o.toList ++ (oidxsL pr ++ oidxsL ov) := by
        cases o <;> simp [ITree.oidxs, Option.toList]
      rw [hsh]
      refine List.Sublist.trans ?_ (List.sublist_append_right _ _)
      simp only [ITree.prim, ITree.ovch] at hp
      rcases hp with hp | hp
      · exact (oidxs_sublist_of_mem hp).trans
          (List.sublist_append_left _ _)
      · exact (oidxs_sublist_of_mem hp).trans
          (List.sublist_append_right _ _)

theorem nidxs_withVal (s : ITree) (w : Option Nat) :
    ITree.nidxs (ITree.withVal s w) = ITree.nidxs s := by
  cases s
  rfl

theorem oidxs_withVal (s : ITree) (w : Option Nat) :
    ITree.oidxs (ITree.withVal s w) = ITree.oidxs s := by
  cases s
  rfl

/-- Overwriting the stored value of a represented subtree's root node. -/
theorem repr_withVal {t t2 : OxidArt} {sc : ITree} {v : Nat} {cnode : Node}
    (hrep : ReprP t sc) (hnd : (ITree.nidxs sc).Nodup)
    (hcn : t.try_get_node (ITree.idx sc) = some cnode)
    (hm : ∀ k, k ≠ ITree.idx sc → t2.try_get_node k = t.try_get_node k)
    (hcl : ∀ hi, t2.child_list.get? hi = t.child_list.get? hi)
    (hset : t2.try_get_node (ITree.idx sc) = some (cnode.set_val v)) :
    ReprP t2 (ITree.withVal sc (some v)) := by
  cases hrep with
  | @intro i c vv o pr ov node hnode hcomp hval hovp hlen hprim hhuge hpr
      hovr =>
      rw [show ITree.idx (ITree.mk i c vv o pr ov) = i from rfl] at hcn hset
      rw [show ITree.idx (ITree.mk i c vv o pr ov) = i from rfl] at hm
      rw [hnode] at hcn
      injection hcn with hcn
      subst hcn
      show ReprP t2 (ITree.mk i c (some v) o pr ov)
      have hinot : ∀ p, (p ∈ pr ∨ p ∈ ov) → ∀ k ∈ ITree.nidxs p.2,
          k ≠ i := by
        intro p hp k hk heq
        rw [show ITree.nidxs (ITree.mk i c vv o pr ov) =
          i :: (nidxsL pr ++ nidxsL ov) by simp [ITree.nidxs]] at hnd
        rw [heq] at hk
        refine (List.nodup_cons.mp hnd).1 ?_
        rw [List.mem_append]
        rcases hp with hp | hp
        · exact Or.inl (nidxsL_mem_iff.mpr ⟨p, hp, hk⟩)
        · exact Or.inr (nidxsL_mem_iff.mpr ⟨p, hp, hk⟩)
      refine ReprP.intro hset ?_ ?_ ?_ hlen hprim ?_ ?_ ?_
      · exact hcomp
      · rfl
      · exact hovp
      · cases o with
        | none => exact hhuge
        | some hx =>
            obtain ⟨h2, hg, he⟩ := hhuge
            refine ⟨h2, ?_, he⟩
            rw [hcl hx]
            exact hg
      · intro p hp
        refine repr_mono (hpr p hp) ?_ (fun hi _ => hcl hi)
        intro k hk
        exact hm k (hinot p (Or.inl hp) k hk)
      · intro p hp
        refine repr_mono (hovr p hp) ?_ (fun hi _ => hcl hi)
        intro k hk
        exact hm k (hinot p (Or.inr hp) k hk)


/-- Overwriting the value of a child whose compression equals the key tail
changes the descent step exactly at that tail. -/
theorem childStep_withVal (sc : ITree) (rest : List Nat) (v : Nat)
    (hfin : ITree.comp sc = rest) :
    ∀ f rest2, childStep f (ITree.withVal sc (some v)) rest2 =
      if rest2 = rest then some v else childStep f sc rest2 := by
  intro f rest2
  simp only [childStep, withVal_comp, withVal_val]
  rw [sGet_congr_children (withVal_children sc (some v))]
  by_cases he : ITree.comp sc = rest2
  · rw [if_pos he, if_pos (he ▸ hfin)]
  · have hne : rest2 ≠ rest := fun h => he (hfin.trans h.symm)
    simp only [if_neg he, if_neg hne]

/-- Abstract step relation: if a modified child agrees with the old one on
slot metadata and its `sGet` differs exactly at the continuation key, then
the descent step through it differs exactly at compression-plus-key. -/
theorem childStep_of_get (scm s2m : ITree) (kc rest : List Nat) (v : Nat)
    (hcomp : ITree.comp s2m = ITree.comp scm)
    (hval : ITree.val s2m = ITree.val scm)
    (hget : ∀ f k2, k2.length < f →
      sGet f s2m k2 = if k2 = kc then some v else sGet f scm k2)
    (hrest : rest = ITree.comp scm ++ kc)
    (hkc : kc ≠ []) :
    ∀ f rest2, rest2.length < f →
      childStep f s2m rest2 =
        if rest2 = rest then some v else childStep f scm rest2 := by
  intro f rest2 hlen
  simp only [childStep, hcomp, hval]
  have hPrest : properPreOf (ITree.comp scm) rest := by
    rw [hrest]
    exact properPre_of_append hkc
  have hdrest : rest.drop (ITree.comp scm).length = kc := by
    rw [hrest]
    exact List.drop_left _ _
  by_cases he : ITree.comp scm = rest2
  · have hne : rest2 ≠ rest := by
      intro h
      have h2 := hPrest.1
      rw [he, h] at h2
      exact Nat.lt_irrefl _ h2
    rw [if_pos he, if_neg hne, if_pos he]
  · simp only [if_neg he]
    by_cases hp : properPreOf (ITree.comp scm) rest2
    · simp only [if_pos hp]
      rw [hget f _ (by
        have h2 := List.length_drop (ITree.comp scm).length rest2
        omega)]
      by_cases hk : rest2.drop (ITree.comp scm).length = kc
      · have hr : rest2 = rest := by
          rw [hrest, ← hk]
          exact (properPre_append hp).1
        rw [if_pos hk, if_pos hr]
      · have hr : rest2 ≠ rest := by
          intro h
          rw [h] at hk
          exact hk hdrest
        rw [if_neg hk, if_neg hr]
    · have hr : rest2 ≠ rest := by
        intro h
        rw [h] at hp
        exact hp hPrest
      simp only [if_neg hp, if_neg hr]


/-- Interposing a value-less intermediate node that keeps the first `cl`
bytes of the compression, with the old node (compression shortened past the
decision byte) as its only child, does not change the descent step. -/
theorem childStep_interpose (sc : ITree) (j orx : Nat)
    (C : List Nat) (cl : Nat)
    (hC : ITree.comp sc = C) (hcl_lt : cl < C.length)
    (hor : C.get? cl = some orx) :
    ∀ f rest2, rest2.length < f →
      childStep f (ITree.mk (ITree.idx sc) (C.take cl) none none
        [(orx, ITree.mk j (C.drop (cl + 1)) (ITree.val sc) (ITree.ov sc)
          (ITree.prim sc) (ITree.ovch sc))] []) rest2 =
      childStep f sc rest2 := by
  have hlen2 : (C.take cl).length = cl := by
    rw [List.length_take]
    omega
  intro f rest2 hflen
  show (if (C.take cl) = rest2 then none
    else if properPreOf (C.take cl) rest2 then
      sGet f (ITree.mk (ITree.idx sc) (C.take cl) none none
        [(orx, ITree.mk j (C.drop (cl + 1)) (ITree.val sc) (ITree.ov sc)
          (ITree.prim sc) (ITree.ovch sc))] [])
        (rest2.drop (C.take cl).length)
    else none) =
    if (ITree.comp sc) = rest2 then ITree.val sc
    else if properPreOf (ITree.comp sc) rest2 then
      sGet f sc (rest2.drop (ITree.comp sc).length)
    else none
  simp only [hC]
  by_cases hα : C.take cl = rest2
  · rw [if_pos hα]
    have hCne : C ≠ rest2 := by
      intro hc
      have h0 := congrArg List.length hα
      rw [hlen2, ← hc] at h0
      omega
    have hPne : ¬ properPreOf C rest2 := by
      rintro ⟨hl, htk⟩
      rw [← hα, hlen2] at hl
      omega
    rw [if_neg hCne, if_neg hPne]
  · rw [if_neg hα]
    by_cases hβ : properPreOf (C.take cl) rest2
    · rw [if_pos hβ]
      obtain ⟨hr2s, hr2nn⟩ := properPre_append hβ
      rw [hlen2] at hr2s hr2nn
      have hr2len : cl < rest2.length := by
        have h0 := hβ.1
        omega
      cases hr2d : rest2.drop cl with
      | nil => exact absurd hr2d hr2nn
      | cons b3 rest3 =>
          rw [hr2d] at hr2s
          have hlen3 : rest2.length = cl + (rest3.length + 1) := by
            have h0 := congrArg List.length hr2s
            simp only [List.length_append, List.length_cons, hlen2] at h0
            omega
          obtain ⟨f2, rfl⟩ : ∃ f2, f = f2 + 1 := ⟨f - 1, by omega⟩
          rw [hlen2, hr2d, sGet_step]
          by_cases hb3 : b3 = orx
          · subst hb3
            have hfc : findChildT (ITree.mk (ITree.idx sc) (C.take cl)
                none none [(b3, ITree.mk j (C.drop (cl + 1))
                  (ITree.val sc) (ITree.ov sc) (ITree.prim sc)
                  (ITree.ovch sc))] []) b3 =
                some (ITree.mk j (C.drop (cl + 1)) (ITree.val sc)
                  (ITree.ov sc) (ITree.prim sc) (ITree.ovch sc)) := by
              unfold findChildT
              simp [ITree.children]
            rw [hfc]
            show (if (C.drop (cl + 1)) = rest3 then ITree.val sc
              else if properPreOf (C.drop (cl + 1)) rest3 then
                sGet f2 (ITree.mk j (C.drop (cl + 1)) (ITree.val sc)
                  (ITree.ov sc) (ITree.prim sc) (ITree.ovch sc))
                  (rest3.drop (C.drop (cl + 1)).length)
              else none) =
              if C = rest2 then ITree.val sc
              else if properPreOf C rest2 then
                sGet (f2 + 1) sc (rest2.drop C.length)
              else none
            have htC : C.take (cl + 1) = C.take cl ++ [b3] := by
              rw [List.take_succ, ← List.get?_eq_getElem?, hor]
              rfl
            have htR : rest2.take (cl + 1) = C.take cl ++ [b3] := by
              rw [hr2s]
              have h0 := take_append_at (C.take cl) b3 rest3
              rw [hlen2] at h0
              exact h0
            have hdR : rest2.drop (cl + 1) = rest3 := by
              rw [hr2s]
              have h0 := drop_append_past (C.take cl) b3 rest3
              rw [hlen2] at h0
              exact h0
            have heq2 := eq_iff_drop2 (a := C) (b := rest2)
              (htC.trans htR.symm)
            rw [hdR] at heq2
            have hP2 := properPre_iff_drop (a := C) (b := rest2)
              (htC.trans htR.symm) (by omega) (by omega)
            rw [hdR] at hP2
            by_cases hF : C.drop (cl + 1) = rest3
            · rw [if_pos hF, if_pos (heq2.mpr hF)]
            · rw [if_neg hF, if_neg (fun hCC => hF (heq2.mp hCC))]
              by_cases hP : properPreOf (C.drop (cl + 1)) rest3
              · rw [if_pos hP, if_pos (hP2.mpr hP)]
                have hXeq : rest2.drop C.length =
                    rest3.drop (C.drop (cl + 1)).length := by
                  rw [List.length_drop, hr2s]
                  have h0 := drop_append_add (C.take cl) b3 rest3
                    (C.length - (cl + 1))
                  rw [hlen2] at h0
                  rw [← h0]
                  congr 1
                  omega
                rw [hXeq]
                rw [sGet_congr_children
                  (children_eta sc j (C.drop (cl + 1)) (ITree.val sc)
                    (ITree.ov sc)) f2]
                refine sGet_fuel_irrel f2 (f2 + 1) sc _ ?_ ?_ <;>
                  · have h0 := List.length_drop
                      (C.drop (cl + 1)).length rest3
                    omega
              · rw [if_neg hP, if_neg (fun hPP => hP (hP2.mp hPP))]
          · have hfc : findChildT (ITree.mk (ITree.idx sc) (C.take cl)
                none none [(orx, ITree.mk j (C.drop (cl + 1))
                  (ITree.val sc) (ITree.ov sc) (ITree.prim sc)
                  (ITree.ovch sc))] []) b3 = none := by
              unfold findChildT
              simp [ITree.children]
              exact fun h => hb3 h.symm
            rw [hfc]
            have hgR : rest2.get? cl = some b3 := by
              rw [hr2s]
              have h0 := get?_append_at (C.take cl) b3 rest3
              rw [hlen2] at h0
              exact h0
            have hCne : C ≠ rest2 := by
              intro hc
              rw [← hc, hor] at hgR
              injection hgR with hgR
              exact hb3 hgR.symm
            have hPne : ¬ properPreOf C rest2 := by
              rintro ⟨hl, htk⟩
              have h0 := prefix_get? htk hcl_lt
              rw [hor, hgR] at h0
              injection h0 with h0
              exact hb3 h0
            rw [if_neg hCne, if_neg hPne]
    · rw [if_neg hβ]
      have hCne : C ≠ rest2 := by
        intro hc
        refine hβ ⟨?_, ?_⟩
        · rw [hlen2, ← hc]
          exact hcl_lt
        · rw [hlen2, ← hc]
      have hPne : ¬ properPreOf C rest2 := by
        rintro ⟨hl, htk⟩
        refine hβ ⟨?_, ?_⟩
        · rw [hlen2]
          omega
        · rw [hlen2]
          have h3 := congrArg (List.take cl) htk
          rw [List.take_take, Nat.min_eq_left (by omega)] at h3
          exact h3
      rw [if_neg hCne, if_neg hPne]


/-- Replacing the middle block of a five-part concatenation preserves
`Nodup`, provided the new block is duplicate-free and its fresh elements
avoid the other four parts; the old block was likewise disjoint from them. -/
theorem nodup_flat_replace {O A S B D S2 : List Nat}
    (hnd : (O ++ A ++ S ++ B ++ D).Nodup)
    (hS2 : S2.Nodup)
    (hfr : ∀ k ∈ S2, k ∉ S → k ∉ O ++ A ++ B ++ D) :
    (O ++ A ++ S2 ++ B ++ D).Nodup ∧
      ∀ k ∈ S, k ∉ O ++ A ++ B ++ D := by
  have hre : ∀ (X : List Nat), O ++ A ++ X ++ B ++ D =
      ((O ++ A) ++ X) ++ (B ++ D) := by
    intro X
    simp [List.append_assoc]
  have hperm : ∀ (X : List Nat),
      (((O ++ A) ++ X) ++ (B ++ D)).Perm
        (X ++ ((O ++ A) ++ (B ++ D))) := by
    intro X
    have h0 := (@List.perm_append_comm Nat (O ++ A) X).append_right
      (B ++ D)
    have h2 : (X ++ (O ++ A)) ++ (B ++ D) =
        X ++ ((O ++ A) ++ (B ++ D)) := by
      simp [List.append_assoc]
    rw [h2] at h0
    exact h0
  have hR : O ++ A ++ B ++ D = (O ++ A) ++ (B ++ D) := by
    simp [List.append_assoc]
  rw [hre S, (hperm S).nodup_iff, List.nodup_append] at hnd
  obtain ⟨hS, hRest, hdisj⟩ := hnd
  constructor
  · rw [hre S2, (hperm S2).nodup_iff, List.nodup_append]
    refine ⟨hS2, hRest, ?_⟩
    intro a ha haR
    by_cases haS : a ∈ S
    · exact hdisj haS haR
    · have h2 := hfr a ha haS
      rw [hR] at h2
      exact h2 haR
  · intro k hk
    rw [hR]
    exact hdisj hk

/-- A sibling subtree untouched by a child rewrite stays represented. -/
theorem repr_sibling {t t2 : OxidArt} {x : ITree} {S SO : List Nat}
    (hr : ReprP t x)
    (hdn : ∀ k ∈ ITree.nidxs x, k ∉ S)
    (hdo : ∀ k ∈ ITree.oidxs x, k ∉ SO)
    (hfr_n : ∀ k, t.try_get_node k ≠ none → k ∉ S →
      t2.try_get_node k = t.try_get_node k)
    (hfr_o : ∀ hi, t.child_list.get? hi ≠ none → hi ∉ SO →
      t2.child_list.get? hi = t.child_list.get? hi) :
    ReprP t2 x := by
  refine repr_mono hr ?_ ?_
  · intro jj hjj
    exact hfr_n jj (Option.isSome_iff_ne_none.mp (repr_live_n hr jj hjj))
      (hdn jj hjj)
  · intro hi hhi
    exact hfr_o hi (Option.isSome_iff_ne_none.mp (repr_live_o hr hi hhi))
      (hdo hi hhi)


set_option maxHeartbeats 2000000 in
/-- Lifting a child-level rewrite to the parent: if the engine change is
confined to the child subtree's own slots plus formerly vacant ones, and the
descent step through the rewritten child differs exactly at `rest`, then
replacing that child inside the parent yields a full simulation for the key
`b :: rest`. -/
theorem lift_child_sim {t t2 : OxidArt} {s sc s2c : ITree} {b : Nat}
    {rest : List Nat} {v : Nat}
    (hrep : ReprP t s)
    (hnd : (ITree.nidxs s).Nodup) (hod : (ITree.oidxs s).Nodup)
    (hfc : findChildT s b = some sc)
    (hrep2 : ReprP t2 s2c)
    (hidx : ITree.idx s2c = ITree.idx sc)
    (hnd2 : (ITree.nidxs s2c).Nodup) (hod2 : (ITree.oidxs s2c).Nodup)
    (hsub_n : ∀ k ∈ ITree.nidxs s2c,
      k ∈ ITree.nidxs sc ∨ t.try_get_node k = none)
    (hsub_o : ∀ hi ∈ ITree.oidxs s2c,
      hi ∈ ITree.oidxs sc ∨ t.child_list.get? hi = none)
    (hfr_n : ∀ k, t.try_get_node k ≠ none → k ∉ ITree.nidxs sc →
      t2.try_get_node k = t.try_get_node k)
    (hfr_o : ∀ hi, t.child_list.get? hi ≠ none → hi ∉ ITree.oidxs sc →
      t2.child_list.get? hi = t.child_list.get? hi)
    (hroot : t2.root_idx = t.root_idx)
    (hstep : ∀ f rest2, rest2.length < f →
      childStep f s2c rest2 =
        if rest2 = rest then some v else childStep f sc rest2) :
    ∃ s2, SimOut t t2 s s2 (b :: rest) v := by
  have hlive_n := repr_live_n hrep
  have hlive_o := repr_live_o hrep
  cases hrep with
  | @intro i c vv o pr ov node hnode hcomp hval hovp hlen hprim hhuge hpr
      hovr =>
  rcases findChildT_cases hfc with ⟨l1, l2, hpr_eq, hl1⟩ |
    ⟨hqnone, l1, l2, hov_eq, hl1⟩
  · -- the replaced child sits in the primary region
    subst hpr_eq
    have hflat_n : ∀ x : ITree,
        ITree.nidxs (ITree.mk i c vv o (l1 ++ (b, x) :: l2) ov) =
          [i] ++ nidxsL l1 ++ ITree.nidxs x ++ nidxsL l2 ++ nidxsL ov := by
      intro x
      simp [ITree.nidxs, nidxsL_append, nidxsL, List.append_assoc]
    have hflat_o : ∀ x : ITree,
        ITree.oidxs (ITree.mk i c vv o (l1 ++ (b, x) :: l2) ov) =
          o.toList ++ oidxsL l1 ++ ITree.oidxs x ++ oidxsL l2 ++
            oidxsL ov := by
      intro x
      cases o <;>
        simp [ITree.oidxs, oidxsL_append, oidxsL, Option.toList,
          List.append_assoc]
    rw [hflat_n sc] at hnd
    rw [hflat_o sc] at hod
    have hfrn : ∀ k ∈ ITree.nidxs s2c, k ∉ ITree.nidxs sc →
        k ∉ [i] ++ nidxsL l1 ++ nidxsL l2 ++ nidxsL ov := by
      intro k hk hkS hkR
      rcases hsub_n k hk with h | h
      · exact hkS h
      · have hmem : k ∈ ITree.nidxs
            (ITree.mk i c vv o (l1 ++ (b, sc) :: l2) ov) := by
          rw [hflat_n sc]
          simp only [List.mem_append] at hkR ⊢
          tauto
        have h2 := hlive_n k hmem
        rw [h] at h2
        exact absurd h2 (by simp)
    have hfro : ∀ k ∈ ITree.oidxs s2c, k ∉ ITree.oidxs sc →
        k ∉ o.toList ++ oidxsL l1 ++ oidxsL l2 ++ oidxsL ov := by
      intro k hk hkS hkR
      rcases hsub_o k hk with h | h
      · exact hkS h
      · have hmem : k ∈ ITree.oidxs
            (ITree.mk i c vv o (l1 ++ (b, sc) :: l2) ov) := by
          rw [hflat_o sc]
          simp only [List.mem_append] at hkR ⊢
          tauto
        have h2 := hlive_o k hmem
        rw [h] at h2
        exact absurd h2 (by simp)
    obtain ⟨hndN, hSdisj⟩ := nodup_flat_replace hnd hnd2 hfrn
    obtain ⟨hndO, hSOdisj⟩ := nodup_flat_replace hod hod2 hfro
    refine ⟨ITree.mk i c vv o (l1 ++ (b, s2c) :: l2) ov,
      ?_, rfl, rfl, rfl, ?_, ?_, ?_, ?_, ?_, ?_, hroot, ?_⟩
    · -- the rewritten parent subtree is represented
      have hi_not : i ∉ ITree.nidxs sc := fun hiS =>
        hSdisj i hiS (by simp)
      have hnode2 : t2.try_get_node i = some node := by
        rw [hfr_n i (by rw [hnode]; simp) hi_not]
        exact hnode
      refine ReprP.intro hnode2 hcomp hval hovp hlen ?_ ?_ ?_ ?_
      · rw [hprim, pairsOf_append, pairsOf_append]
        show pairsOf l1 ++ ((b, ITree.idx sc) :: pairsOf l2) =
          pairsOf l1 ++ ((b, ITree.idx s2c) :: pairsOf l2)
        rw [hidx]
      · cases o with
        | none => exact hhuge
        | some hx =>
            obtain ⟨hcl2, hg, he⟩ := hhuge
            refine ⟨hcl2, ?_, he⟩
            have hx_not : hx ∉ ITree.oidxs sc := fun hxS =>
              hSOdisj hx hxS (by simp [Option.toList])
            rw [hfr_o hx (by rw [hg]; simp) hx_not]
            exact hg
      · intro p hp
        rcases List.mem_append.mp hp with hp1 | hp2
        · refine repr_sibling (hpr p (List.mem_append.mpr (Or.inl hp1)))
            ?_ ?_ hfr_n hfr_o
          · intro k hk hkS
            refine hSdisj k hkS ?_
            simp only [List.mem_append]
            exact Or.inl (Or.inl (Or.inr (nidxsL_mem_iff.mpr ⟨p, hp1, hk⟩)))
          · intro k hk hkS
            refine hSOdisj k hkS ?_
            simp only [List.mem_append]
            exact Or.inl (Or.inl (Or.inr (oidxsL_mem_iff.mpr ⟨p, hp1, hk⟩)))
        · rcases List.mem_cons.mp hp2 with hph | hp3
          · rw [hph]
            exact hrep2
          · refine repr_sibling (hpr p (List.mem_append.mpr
              (Or.inr (List.mem_cons.mpr (Or.inr hp3))))) ?_ ?_ hfr_n hfr_o
            · intro k hk hkS
              refine hSdisj k hkS ?_
              simp only [List.mem_append]
              exact Or.inl (Or.inr (nidxsL_mem_iff.mpr ⟨p, hp3, hk⟩))
            · intro k hk hkS
              refine hSOdisj k hkS ?_
              simp only [List.mem_append]
              exact Or.inl (Or.inr (oidxsL_mem_iff.mpr ⟨p, hp3, hk⟩))
      · intro p hp
        refine repr_sibling (hovr p hp) ?_ ?_ hfr_n hfr_o
        · intro k hk hkS
          refine hSdisj k hkS ?_
          simp only [List.mem_append]
          exact Or.inr (nidxsL_mem_iff.mpr ⟨p, hp, hk⟩)
        · intro k hk hkS
          refine hSOdisj k hkS ?_
          simp only [List.mem_append]
          exact Or.inr (oidxsL_mem_iff.mpr ⟨p, hp, hk⟩)
    · rw [hflat_n s2c]
      exact hndN
    · rw [hflat_o s2c]
      exact hndO
    · intro k hk
      rw [hflat_n s2c] at hk
      rw [hflat_n sc]
      simp only [List.mem_append] at hk ⊢
      rcases hk with (((hk | hk) | hk) | hk) | hk
      · tauto
      · tauto
      · rcases hsub_n k hk with h | h
        · tauto
        · tauto
      · tauto
      · tauto
    · intro k hk
      rw [hflat_o s2c] at hk
      rw [hflat_o sc]
      simp only [List.mem_append] at hk ⊢
      rcases hk with (((hk | hk) | hk) | hk) | hk
      · tauto
      · tauto
      · rcases hsub_o k hk with h | h
        · tauto
        · tauto
      · tauto
      · tauto
    · intro k hlv hks
      refine hfr_n k hlv ?_
      intro hkS
      refine hks ?_
      rw [hflat_n sc]
      simp only [List.mem_append]
      tauto
    · intro k hlv hks
      refine hfr_o k hlv ?_
      intro hkS
      refine hks ?_
      rw [hflat_o sc]
      simp only [List.mem_append]
      tauto
    · refine sGet_replace_gen _ _ l1 (l2 ++ ov) b sc s2c rest v ?_ ?_ hl1
        hstep
      · show (l1 ++ (b, sc) :: l2) ++ ov = l1 ++ (b, sc) :: (l2 ++ ov)
        simp [List.append_assoc]
      · show (l1 ++ (b, s2c) :: l2) ++ ov = l1 ++ (b, s2c) :: (l2 ++ ov)
        simp [List.append_assoc]
  · -- the replaced child sits in the overflow region
    subst hov_eq
    have hflat_n : ∀ x : ITree,
        ITree.nidxs (ITree.mk i c vv o pr (l1 ++ (b, x) :: l2)) =
          [i] ++ (nidxsL pr ++ nidxsL l1) ++ ITree.nidxs x ++ nidxsL l2 ++
            [] := by
      intro x
      simp [ITree.nidxs, nidxsL_append, nidxsL, List.append_assoc]
    have hflat_o : ∀ x : ITree,
        ITree.oidxs (ITree.mk i c vv o pr (l1 ++ (b, x) :: l2)) =
          o.toList ++ (oidxsL pr ++ oidxsL l1) ++ ITree.oidxs x ++
            oidxsL l2 ++ [] := by
      intro x
      cases o <;>
        simp [ITree.oidxs, oidxsL_append, oidxsL, Option.toList,
          List.append_assoc]
    rw [hflat_n sc] at hnd
    rw [hflat_o sc] at hod
    have hfrn : ∀ k ∈ ITree.nidxs s2c, k ∉ ITree.nidxs sc →
        k ∉ [i] ++ (nidxsL pr ++ nidxsL l1) ++ nidxsL l2 ++ [] := by
      intro k hk hkS hkR
      rcases hsub_n k hk with h | h
      · exact hkS h
      · have hmem : k ∈ ITree.nidxs
            (ITree.mk i c vv o pr (l1 ++ (b, sc) :: l2)) := by
          rw [hflat_n sc]
          simp only [List.mem_append, List.not_mem_nil, or_false] at hkR ⊢
          tauto
        have h2 := hlive_n k hmem
        rw [h] at h2
        exact absurd h2 (by simp)
    have hfro : ∀ k ∈ ITree.oidxs s2c, k ∉ ITree.oidxs sc →
        k ∉ o.toList ++ (oidxsL pr ++ oidxsL l1) ++ oidxsL l2 ++ [] := by
      intro k hk hkS hkR
      rcases hsub_o k hk with h | h
      · exact hkS h
      · have hmem : k ∈ ITree.oidxs
            (ITree.mk i c vv o pr (l1 ++ (b, sc) :: l2)) := by
          rw [hflat_o sc]
          simp only [List.mem_append, List.not_mem_nil, or_false] at hkR ⊢
          tauto
        have h2 := hlive_o k hmem
        rw [h] at h2
        exact absurd h2 (by simp)
    obtain ⟨hndN, hSdisj⟩ := nodup_flat_replace hnd hnd2 hfrn
    obtain ⟨hndO, hSOdisj⟩ := nodup_flat_replace hod hod2 hfro
    refine ⟨ITree.mk i c vv o pr (l1 ++ (b, s2c) :: l2),
      ?_, rfl, rfl, rfl, ?_, ?_, ?_, ?_, ?_, ?_, hroot, ?_⟩
    · have hi_not : i ∉ ITree.nidxs sc := fun hiS =>
        hSdisj i hiS (by simp)
      have hnode2 : t2.try_get_node i = some node := by
        rw [hfr_n i (by rw [hnode]; simp) hi_not]
        exact hnode
      refine ReprP.intro hnode2 hcomp hval hovp hlen hprim ?_ ?_ ?_
      · cases o with
        | none =>
            exact absurd hhuge (by simp)
        | some hx =>
            obtain ⟨hcl2, hg, he⟩ := hhuge
            refine ⟨hcl2, ?_, ?_⟩
            · have hx_not : hx ∉ ITree.oidxs sc := fun hxS =>
                hSOdisj hx hxS (by simp [Option.toList])
              rw [hfr_o hx (by rw [hg]; simp) hx_not]
              exact hg
            · rw [he, pairsOf_append, pairsOf_append]
              show pairsOf l1 ++ ((b, ITree.idx sc) :: pairsOf l2) =
                pairsOf l1 ++ ((b, ITree.idx s2c) :: pairsOf l2)
              rw [hidx]
      · intro p hp
        refine repr_sibling (hpr p hp) ?_ ?_ hfr_n hfr_o
        · intro k hk hkS
          refine hSdisj k hkS ?_
          simp only [List.mem_append]
          exact Or.inl (Or.inl (Or.inr (Or.inl
            (nidxsL_mem_iff.mpr ⟨p, hp, hk⟩))))
        · intro k hk hkS
          refine hSOdisj k hkS ?_
          simp only [List.mem_append]
          exact Or.inl (Or.inl (Or.inr (Or.inl
            (oidxsL_mem_iff.mpr ⟨p, hp, hk⟩))))
      · intro p hp
        rcases List.mem_append.mp hp with hp1 | hp2
        · refine repr_sibling (hovr p (List.mem_append.mpr (Or.inl hp1)))
            ?_ ?_ hfr_n hfr_o
          · intro k hk hkS
            refine hSdisj k hkS ?_
            simp only [List.mem_append]
            exact Or.inl (Or.inl (Or.inr (Or.inr
              (nidxsL_mem_iff.mpr ⟨p, hp1, hk⟩))))
          · intro k hk hkS
            refine hSOdisj k hkS ?_
            simp only [List.mem_append]
            exact Or.inl (Or.inl (Or.inr (Or.inr
              (oidxsL_mem_iff.mpr ⟨p, hp1, hk⟩))))
        · rcases List.mem_cons.mp hp2 with hph | hp3
          · rw [hph]
            exact hrep2
          · refine repr_sibling (hovr p (List.mem_append.mpr
              (Or.inr (List.mem_cons.mpr (Or.inr hp3))))) ?_ ?_ hfr_n hfr_o
            · intro k hk hkS
              refine hSdisj k hkS ?_
              simp only [List.mem_append]
              exact Or.inl (Or.inr (nidxsL_mem_iff.mpr ⟨p, hp3, hk⟩))
            · intro k hk hkS
              refine hSOdisj k hkS ?_
              simp only [List.mem_append]
              exact Or.inl (Or.inr (oidxsL_mem_iff.mpr ⟨p, hp3, hk⟩))
    · rw [hflat_n s2c]
      exact hndN
    · rw [hflat_o s2c]
      exact hndO
    · intro k hk
      rw [hflat_n s2c] at hk
      rw [hflat_n sc]
      simp only [List.mem_append, List.not_mem_nil, or_false] at hk ⊢
      rcases hk with ((hk | hk) | hk) | hk
      · tauto
      · tauto
      · rcases hsub_n k hk with h | h
        · tauto
        · tauto
      · tauto
    · intro k hk
      rw [hflat_o s2c] at hk
      rw [hflat_o sc]
      simp only [List.mem_append, List.not_mem_nil, or_false] at hk ⊢
      rcases hk with ((hk | hk) | hk) | hk
      · tauto
      · tauto
      · rcases hsub_o k hk with h | h
        · tauto
        · tauto
      · tauto
    · intro k hlv hks
      refine hfr_n k hlv ?_
      intro hkS
      refine hks ?_
      rw [hflat_n sc]
      simp only [List.mem_append, List.not_mem_nil, or_false]
      tauto
    · intro k hlv hks
      refine hfr_o k hlv ?_
      intro hkS
      refine hks ?_
      rw [hflat_o sc]
      simp only [List.mem_append, List.not_mem_nil, or_false]
      tauto
    · refine sGet_replace_gen _ _ (pr ++ l1) l2 b sc s2c rest v ?_ ?_ ?_
        hstep
      · show pr ++ (l1 ++ (b, sc) :: l2) = (pr ++ l1) ++ (b, sc) :: l2
        simp [List.append_assoc]
      · show pr ++ (l1 ++ (b, s2c) :: l2) = (pr ++ l1) ++ (b, s2c) :: l2
        simp [List.append_assoc]
      · rw [List.find?_append, hqnone, hl1]
        rfl


/-- The arena state in the middle of `set_loop`'s split branch represents
the interposed subtree: the node at the child slot now carries the common
compression prefix, the value `w`, and a single-entry child table pointing
at the freshly inserted copy of the old node. -/
theorem split_mid_bundle {t tmid : OxidArt} {sc : ITree} {cnode : Node}
    {w : Option Nat} {cidx j orx : Nat} {C : List Nat} {cl : Nat}
    (hrep : ReprP t sc)
    (hnd : (ITree.nidxs sc).Nodup) (hod : (ITree.oidxs sc).Nodup)
    (hC : ITree.comp sc = C) (hcidx : ITree.idx sc = cidx)
    (hcn : t.try_get_node cidx = some cnode)
    (hcn2 : tmid.try_get_node cidx =
      some ⟨C.take cl, w, ⟨[j], [orx], none⟩⟩)
    (hjn : tmid.try_get_node j =
      some ⟨C.drop (cl + 1), cnode.val, cnode.childs⟩)
    (hm : ∀ k, k ≠ cidx → k ≠ j → tmid.try_get_node k = t.try_get_node k)
    (hcl2 : ∀ hi, tmid.child_list.get? hi = t.child_list.get? hi)
    (hjvac : t.try_get_node j = none) :
    ReprP tmid (ITree.mk cidx (C.take cl) w none
      [(orx, ITree.mk j (C.drop (cl + 1)) (ITree.val sc) (ITree.ov sc)
        (ITree.prim sc) (ITree.ovch sc))] []) ∧
    (ITree.nidxs (ITree.mk cidx (C.take cl) w none
      [(orx, ITree.mk j (C.drop (cl + 1)) (ITree.val sc) (ITree.ov sc)
        (ITree.prim sc) (ITree.ovch sc))] [])).Nodup ∧
    (ITree.oidxs (ITree.mk cidx (C.take cl) w none
      [(orx, ITree.mk j (C.drop (cl + 1)) (ITree.val sc) (ITree.ov sc)
        (ITree.prim sc) (ITree.ovch sc))] [])).Nodup ∧
    (∀ k ∈ ITree.nidxs (ITree.mk cidx (C.take cl) w none
      [(orx, ITree.mk j (C.drop (cl + 1)) (ITree.val sc) (ITree.ov sc)
        (ITree.prim sc) (ITree.ovch sc))] []),
      k ∈ ITree.nidxs sc ∨ t.try_get_node k = none) ∧
    (∀ hi ∈ ITree.oidxs (ITree.mk cidx (C.take cl) w none
      [(orx, ITree.mk j (C.drop (cl + 1)) (ITree.val sc) (ITree.ov sc)
        (ITree.prim sc) (ITree.ovch sc))] []),
      hi ∈ ITree.oidxs sc ∨ t.child_list.get? hi = none) := by
  have hlive_n := repr_live_n hrep
  have hlive_o := repr_live_o hrep
  cases hrep with
  | @intro i c vv o pr ov node hnode hcomp hval hovp hlen hprim hhuge hpr
      hovr =>
  rw [show ITree.comp (ITree.mk i c vv o pr ov) = c from rfl] at hC
  rw [show ITree.idx (ITree.mk i c vv o pr ov) = i from rfl] at hcidx
  subst hC
  subst hcidx
  rw [hnode] at hcn
  injection hcn with hcn
  subst hcn
  simp only [show ITree.val (ITree.mk i c vv o pr ov) = vv from rfl,
    show ITree.ov (ITree.mk i c vv o pr ov) = o from rfl,
    show ITree.prim (ITree.mk i c vv o pr ov) = pr from rfl,
    show ITree.ovch (ITree.mk i c vv o pr ov) = ov from rfl]
  have hjne : j ≠ i := by
    intro h
    rw [h, hnode] at hjvac
    exact absurd hjvac (by simp)
  have hnflat : ITree.nidxs (ITree.mk i (c.take cl) w none
      [(orx, ITree.mk j (c.drop (cl + 1)) vv o pr ov)] []) =
      i :: j :: (nidxsL pr ++ nidxsL ov) := by
    simp [ITree.nidxs, nidxsL]
  have hoflat : ITree.oidxs (ITree.mk i (c.take cl) w none
      [(orx, ITree.mk j (c.drop (cl + 1)) vv o pr ov)] []) =
      ITree.oidxs (ITree.mk i c vv o pr ov) := by
    cases o <;> simp [ITree.oidxs, oidxsL]
  have hnd0 : i ∉ nidxsL pr ++ nidxsL ov ∧
      (nidxsL pr ++ nidxsL ov).Nodup := by
    rw [show ITree.nidxs (ITree.mk i c vv o pr ov) =
      i :: (nidxsL pr ++ nidxsL ov) by simp [ITree.nidxs]] at hnd
    exact List.nodup_cons.mp hnd
  have hjnot : j ∉ nidxsL pr ++ nidxsL ov := by
    intro hj
    have h2 : j ∈ ITree.nidxs (ITree.mk i c vv o pr ov) := by
      simp only [ITree.nidxs, List.mem_cons]
      exact Or.inr hj
    have h3 := hlive_n j h2
    rw [hjvac] at h3
    exact absurd h3 (by simp)
  have hchild : ∀ p : Nat × ITree, (p ∈ pr ∨ p ∈ ov) → ReprP tmid p.2 := by
    intro p hp
    refine repr_mono ((hp.elim (hpr p) (hovr p))) ?_ (fun hi _ => hcl2 hi)
    intro k hk
    refine hm k ?_ ?_
    · intro h
      subst h
      refine hnd0.1 ?_
      rw [List.mem_append]
      rcases hp with hp | hp
      · exact Or.inl (nidxsL_mem_iff.mpr ⟨p, hp, hk⟩)
      · exact Or.inr (nidxsL_mem_iff.mpr ⟨p, hp, hk⟩)
    · intro h
      subst h
      refine hjnot ?_
      rw [List.mem_append]
      rcases hp with hp | hp
      · exact Or.inl (nidxsL_mem_iff.mpr ⟨p, hp, hk⟩)
      · exact Or.inr (nidxsL_mem_iff.mpr ⟨p, hp, hk⟩)
  refine ⟨?_, ?_, ?_, ?_, ?_⟩
  · refine ReprP.intro hcn2 rfl rfl rfl rfl rfl rfl ?_ ?_
    · intro p hp
      simp only [List.mem_singleton] at hp
      subst hp
      show ReprP tmid (ITree.mk j (c.drop (cl + 1)) vv o pr ov)
      refine ReprP.intro hjn rfl hval hovp hlen hprim ?_ ?_ ?_
      · cases o with
        | none => exact hhuge
        | some hx =>
            obtain ⟨h2, hg, he⟩ := hhuge
            refine ⟨h2, ?_, he⟩
            rw [hcl2 hx]
            exact hg
      · intro p hp
        exact hchild p (Or.inl hp)
      · intro p hp
        exact hchild p (Or.inr hp)
    · intro p hp
      simp at hp
  · rw [hnflat]
    rw [List.nodup_cons, List.nodup_cons]
    refine ⟨?_, hjnot, hnd0.2⟩
    simp only [List.mem_cons]
    rintro (h | h)
    · exact hjne h.symm
    · exact hnd0.1 h
  · rw [hoflat]
    exact hod
  · intro k hk
    rw [hnflat] at hk
    simp only [List.mem_cons] at hk
    rcases hk with h | h | h
    · subst h
      exact Or.inl (by simp [ITree.nidxs])
    · subst h
      exact Or.inr hjvac
    · refine Or.inl ?_
      simp only [ITree.nidxs, List.mem_cons]
      exact Or.inr h
  · intro hi hhi
    rw [hoflat] at hhi
    exact Or.inl hhi


theorem nidxs_sub_of_find {s : ITree} {b : Nat} {sc : ITree}
    (h : findChildT s b = some sc) :
    (ITree.nidxs sc).Sublist (ITree.nidxs s) := by
  unfold findChildT at h
  cases hf : (ITree.children s).find? (fun p => decide (p.1 = b)) with
  | none => rw [hf] at h; exact absurd h (by simp)
  | some p =>
      rw [hf] at h
      injection h with h
      have hp := List.mem_of_find?_eq_some hf
      cases s with
      | mk i c vv o pr ov =>
          rw [← h]
          exact nidxs_child_sub (List.mem_append.mp hp)

theorem oidxs_sub_of_find {s : ITree} {b : Nat} {sc : ITree}
    (h : findChildT s b = some sc) :
    (ITree.oidxs sc).Sublist (ITree.oidxs s) := by
  unfold findChildT at h
  cases hf : (ITree.children s).find? (fun p => decide (p.1 = b)) with
  | none => rw [hf] at h; exact absurd h (by simp)
  | some p =>
      rw [hf] at h
      injection h with h
      have hp := List.mem_of_find?_eq_some hf
      cases s with
      | mk i c vv o pr ov =>
          rw [← h]
          exact oidxs_child_sub (List.mem_append.mp hp)


set_option maxHeartbeats 4000000 in
/-- The descent loop of `set`, started at the root slot of a represented
subtree with duplicate-free footprints, produces an engine representing a
subtree whose lookups differ from the old one exactly at the written key. -/
theorem set_loop_sim :
    ∀ (fuel : Nat) (t : OxidArt) (s : ITree) (key : List Nat) (v : Nat)
      (t2 : OxidArt),
      ReprP t s → (ITree.nidxs s).Nodup → (ITree.oidxs s).Nodup →
      OxidArt.set_loop t fuel (ITree.idx s) key v = some t2 →
      ∃ s2, SimOut t t2 s s2 key v := by
  intro fuel
  induction fuel with
  | zero =>
      intro t s key v t2 _ _ _ hres
      cases key with
      | nil => exact absurd hres (by simp [OxidArt.set_loop])
      | cons b rest => exact absurd hres (by simp [OxidArt.set_loop])
  | succ f ih =>
      intro t s key v t2 hrep hnd hod hres
      cases key with
      | nil => exact absurd hres (by simp [OxidArt.set_loop])
      | cons b rest =>
      have hfind := find_sim hrep b
      simp only [OxidArt.set_loop] at hres
      split at hres
      · -- no child under the decision byte: attach a fresh leaf
        next hf =>
        have hfc : findChildT s b = none := by
          rw [hf] at hfind
          exact Option.map_eq_none'.mp hfind.symm
        exact create_sim hrep hnd hod hfc hres
      · next child_idx hf =>
        rw [hf] at hfind
        obtain ⟨sc, hfc, hscidx⟩ := Option.map_eq_some'.mp hfind.symm
        subst hscidx
        have hrc := repr_child hrep hfc
        obtain ⟨cnode, hcn0, hccomp, hcval⟩ := repr_node hrc
        have hndc : (ITree.nidxs sc).Nodup :=
          List.Sublist.nodup (nidxs_sub_of_find hfc) hnd
        have hodc : (ITree.oidxs sc).Nodup :=
          List.Sublist.nodup (oidxs_sub_of_find hfc) hod
        split at hres
        · exact absurd hres (by simp)
        · next node hn =>
          rw [hcn0] at hn
          injection hn with hn
          subst hn
          split at hres
          · -- Final: overwrite the child's value in place
            next hcmp =>
            have hfin : ITree.comp sc = rest := by
              rw [← hccomp]
              exact (compare_final_iff cnode rest).mp hcmp
            injection hres with hres
            subst hres
            have hlive : ITree.idx sc < t.map.entries.length :=
              Slab.lt_length_of_get? (a := cnode) hcn0
            have hm : ∀ k, k ≠ ITree.idx sc →
                (OxidArt.mk (t.map.setAt (ITree.idx sc) (cnode.set_val v))
                  t.child_list t.root_idx).try_get_node k =
                  t.try_get_node k := by
              intro k hk
              show (t.map.setAt (ITree.idx sc) (cnode.set_val v)).get? k =
                t.map.get? k
              exact Slab.get?_setAt_ne _ hk _
            have hset : (OxidArt.mk
                (t.map.setAt (ITree.idx sc) (cnode.set_val v))
                t.child_list t.root_idx).try_get_node (ITree.idx sc) =
                some (cnode.set_val v) := by
              show (t.map.setAt (ITree.idx sc) (cnode.set_val v)).get?
                (ITree.idx sc) = some (cnode.set_val v)
              exact Slab.get?_setAt_self hlive _
            have hrep2 := repr_withVal hrc hndc hcn0 hm (fun hi => rfl) hset
            refine lift_child_sim hrep hnd hod hfc hrep2
              (withVal_idx sc (some v)) ?_ ?_ ?_ ?_ ?_ ?_ rfl ?_
            · rw [nidxs_withVal]
              exact hndc
            · rw [oidxs_withVal]
              exact hodc
            · intro k hk
              rw [nidxs_withVal] at hk
              exact Or.inl hk
            · intro hi hhi
              rw [oidxs_withVal] at hhi
              exact Or.inl hhi
            · intro k hlv hknot
              refine hm k ?_
              intro hk
              exact hknot (hk ▸ mem_nidxs_self sc)
            · intro hi _ _
              rfl
            · intro f2 r2 _
              exact childStep_withVal sc rest v hfin f2 r2
          · -- Path: descend into the child
            next hcmp =>
            have hpp : properPreOf (ITree.comp sc) rest := by
              rw [← hccomp]
              exact (compare_path_iff cnode rest).mp hcmp
            rw [hccomp] at hres
            obtain ⟨s2c, hsim⟩ := ih t sc
              (rest.drop (ITree.comp sc).length) v t2 hrc hndc hodc hres
            have hstep := childStep_of_get sc s2c
              (rest.drop (ITree.comp sc).length) rest v hsim.comp_eq
              hsim.val_eq hsim.get_eq (properPre_append hpp).1
              (properPre_append hpp).2
            exact lift_child_sim hrep hnd hod hfc hsim.repr hsim.idx_eq
              hsim.nodup_n hsim.nodup_o hsim.sub_n hsim.sub_o hsim.frame_n
              hsim.frame_o hsim.root_eq hstep
          · -- Partial: split the child's compression
            next cl hcmp =>
            have hne : cnode.compression ≠ rest := by
              intro h
              rw [(compare_final_iff cnode rest).mpr h] at hcmp
              exact absurd hcmp (by simp)
            have hnp : ¬ properPreOf cnode.compression rest := by
              intro h
              rw [(compare_path_iff cnode rest).mpr h] at hcmp
              exact absurd hcmp (by simp)
            have hclC : lcpLen (ITree.comp sc) rest = cl := by
              rw [compare_partial_eq cnode rest hne hnp] at hcmp
              injection hcmp with h
              rw [← hccomp]
              exact h
            have hneC : ITree.comp sc ≠ rest := hccomp ▸ hne
            have hnpC : ¬ properPreOf (ITree.comp sc) rest := hccomp ▸ hnp
            have hcl_lt : cl < (ITree.comp sc).length :=
              hclC ▸ lcpLen_lt_comp hneC hnpC
            have hcl_le : cl ≤ rest.length :=
              hclC ▸ lcpLen_le_right _ _
            have hlive : ITree.idx sc < t.map.entries.length :=
              Slab.lt_length_of_get? (a := cnode) hcn0
            split at hres
            · exact absurd hres (by simp)
            · next old_radix hgor =>
              have hor : (ITree.comp sc).get? cl = some old_radix := by
                rw [← hccomp]
                exact hgor
              set inter : Node := ⟨List.take cl cnode.compression,
                if cl = rest.length then some v else none,
                Childs.default⟩ with hinterdef
              set ta : OxidArt :=
                ⟨t.map.setAt (ITree.idx sc) inter, t.child_list,
                  t.root_idx⟩ with htadef
              set och : Node := ⟨List.drop (cl + 1) cnode.compression,
                cnode.val, cnode.childs⟩ with hochdef
              set oc := (ta.insertNode och).1 with hocdef
              set tb := (ta.insertNode och).2 with htbdef
              have hta_child : ta.map.get? (ITree.idx sc) = some inter :=
                Slab.get?_setAt_self hlive inter
              have hta_ne : ∀ k, k ≠ ITree.idx sc →
                  ta.map.get? k = t.map.get? k :=
                fun k hk => Slab.get?_setAt_ne _ hk inter
              have htbmap : tb.map = (ta.map.insert och).2 := rfl
              have hoceq : oc = (ta.map.insert och).1 := rfl
              have hocfresh : ta.map.get? oc = none :=
                hoceq ▸ Slab.insert_fst_fresh ta.map och
              have htbself : tb.map.get? oc = some och := by
                rw [htbmap, hoceq]
                exact Slab.insert_get?_self ta.map och
              have htbne : ∀ k, k ≠ oc → tb.map.get? k = ta.map.get? k := by
                intro k hk
                rw [htbmap]
                exact Slab.insert_get?_ne ta.map och (hoceq ▸ hk)
              have hoc_ne_child : oc ≠ ITree.idx sc := by
                intro he
                rw [he, hta_child] at hocfresh
                exact absurd hocfresh (by simp)
              have hocvac : t.try_get_node oc = none := by
                show t.map.get? oc = none
                rw [← hta_ne oc hoc_ne_child]
                exact hocfresh
              have htb_child : tb.map.get? (ITree.idx sc) = some inter := by
                rw [htbne _ (fun he => hoc_ne_child he.symm)]
                exact hta_child
              split at hres
              · exact absurd hres (by simp)
              · next node2 hnode2 =>
                have hnode2x : node2 = inter := by
                  have h0 : tb.map.get? (ITree.idx sc) = some node2 := hnode2
                  rw [htb_child] at h0
                  injection h0 with h0
                  exact h0.symm
                subst hnode2x
                split at hres
                · exact absurd hres (by simp)
                · next cs hpush =>
                  have hcs : cs = ⟨[oc], [old_radix], none⟩ := by
                    rw [hinterdef] at hpush
                    unfold Childs.push at hpush
                    simp [Childs.default, Childs.is_full, CHILDS_SIZE]
                      at hpush
                    exact hpush.symm
                  subst hcs
                  set inter2 : Node := ⟨inter.compression, inter.val,
                    ⟨[oc], [old_radix], none⟩⟩ with hinter2def
                  set tc : OxidArt := ⟨tb.map.setAt (ITree.idx sc) inter2,
                    tb.child_list, tb.root_idx⟩ with htcdef
                  have hchild_live_tb :
                      ITree.idx sc < tb.map.entries.length :=
                    Slab.lt_length_of_get? (a := inter) htb_child
                  have htc_child : tc.map.get? (ITree.idx sc) =
                      some inter2 :=
                    Slab.get?_setAt_self hchild_live_tb inter2
                  have htc_ne : ∀ k, k ≠ ITree.idx sc →
                      tc.map.get? k = tb.map.get? k :=
                    fun k hk => Slab.get?_setAt_ne _ hk inter2
                  have htc_oc : tc.map.get? oc = some och := by
                    rw [htc_ne _ hoc_ne_child]
                    exact htbself
                  have htc_other : ∀ k, k ≠ ITree.idx sc → k ≠ oc →
                      tc.try_get_node k = t.try_get_node k := by
                    intro k h1 h2
                    show tc.map.get? k = t.map.get? k
                    rw [htc_ne _ h1, htbne _ h2, hta_ne _ h1]
                  have hcn2 : tc.try_get_node (ITree.idx sc) =
                      some ⟨(ITree.comp sc).take cl,
                        (if cl = rest.length then some v else none),
                        ⟨[oc], [old_radix], none⟩⟩ := by
                    show tc.map.get? (ITree.idx sc) = _
                    rw [htc_child, ← hccomp, hinter2def, hinterdef]
                  have hjn : tc.try_get_node oc =
                      some ⟨(ITree.comp sc).drop (cl + 1), cnode.val,
                        cnode.childs⟩ := by
                    show tc.map.get? oc = _
                    rw [htc_oc, ← hccomp, hochdef]
                  obtain ⟨hrepm, hndm, hodm, hsubnm, hsubom⟩ :=
                    @split_mid_bundle t tc sc cnode
                      (if cl = rest.length then some v else none)
                      (ITree.idx sc) oc old_radix (ITree.comp sc) cl
                      hrc hndc hodc rfl rfl hcn0 hcn2 hjn htc_other
                      (fun hi => rfl) hocvac
                  have hfrn_t : ∀ k, t.try_get_node k ≠ none →
                      k ∉ ITree.nidxs sc →
                      tc.try_get_node k = t.try_get_node k := by
                    intro k hlv hknot
                    refine htc_other k ?_ ?_
                    · intro hk
                      exact hknot (hk ▸ mem_nidxs_self sc)
                    · intro hk
                      rw [hk] at hlv
                      exact hlv hocvac
                  by_cases hvoi : cl = rest.length
                  · -- the key ends inside the compression: store the value
                    -- on the interposed node
                    rw [if_pos hvoi] at hres
                    injection hres with hres
                    subst hres
                    simp only [if_pos hvoi] at hrepm hndm hodm hsubnm hsubom
                    refine lift_child_sim hrep hnd hod hfc hrepm rfl
                      hndm hodm hsubnm hsubom hfrn_t (fun hi _ _ => rfl)
                      rfl ?_
                    exact fun f2 r2 hl2 => childStep_split_val sc rest v oc
                      old_radix (ITree.comp sc) cl rfl hclC hneC hnpC hor
                      hvoi f2 r2 hl2
                  · -- the paths diverge: attach a fresh leaf for the key's
                    -- tail to the interposed node
                    rw [if_neg hvoi] at hres
                    split at hres
                    · exact absurd hres (by simp)
                    · next new_radix hnr =>
                      simp only [if_neg hvoi] at hrepm hndm hodm
                      simp only [if_neg hvoi] at hsubnm hsubom
                      have hcl_ltr : cl < rest.length := by
                        omega
                      have hmm : (ITree.comp sc).get? cl ≠
                          rest.get? cl := by
                        have h0 := lcpLen_mismatch (ITree.comp sc) rest
                          (by rw [hclC]; exact hcl_lt)
                          (by rw [hclC]; exact hcl_ltr)
                        rw [hclC] at h0
                        exact h0
                      have horn : old_radix ≠ new_radix := by
                        intro heq
                        rw [hor, hnr, heq] at hmm
                        exact hmm rfl
                      have hfcmid : findChildT (ITree.mk (ITree.idx sc)
                          ((ITree.comp sc).take cl) none none
                          [(old_radix, ITree.mk oc
                            ((ITree.comp sc).drop (cl + 1)) (ITree.val sc)
                            (ITree.ov sc) (ITree.prim sc)
                            (ITree.ovch sc))] []) new_radix = none := by
                        unfold findChildT
                        simp [ITree.children]
                        exact fun h => horn h
                      obtain ⟨s2mid, hsimm⟩ := create_sim hrepm hndm hodm
                        hfcmid hres
                      have hrsplit : rest = (ITree.comp sc).take cl ++
                          new_radix :: rest.drop (cl + 1) := by
                        conv_lhs => rw [← List.take_append_drop cl rest]
                        rw [show (ITree.comp sc).take cl = rest.take cl
                          from hclC ▸ lcpLen_take _ _, drop_eq_cons hnr]
                      have hstep1 := childStep_of_get _ s2mid
                        (new_radix :: rest.drop (cl + 1)) rest v
                        hsimm.comp_eq hsimm.val_eq hsimm.get_eq hrsplit
                        (by simp)
                      have hstep2 := childStep_interpose sc oc old_radix
                        (ITree.comp sc) cl rfl hcl_lt hor
                      have hstep : ∀ f2 r2, r2.length < f2 →
                          childStep f2 s2mid r2 =
                            if r2 = rest then some v
                            else childStep f2 sc r2 := by
                        intro f2 r2 hl2
                        rw [hstep1 f2 r2 hl2]
                        by_cases hr : r2 = rest
                        · rw [if_pos hr, if_pos hr]
                        · rw [if_neg hr, if_neg hr, hstep2 f2 r2 hl2]
                      have hvac_tc : ∀ k, tc.try_get_node k = none →
                          t.try_get_node k = none := by
                        intro k hk
                        by_cases h1 : k = ITree.idx sc
                        · subst h1
                          rw [show tc.try_get_node (ITree.idx sc) =
                            tc.map.get? (ITree.idx sc) from rfl, htc_child]
                            at hk
                          exact absurd hk (by simp)
                        · by_cases h2 : k = oc
                          · subst h2
                            exact hocvac
                          · rw [htc_other k h1 h2] at hk
                            exact hk
                      refine lift_child_sim hrep hnd hod hfc hsimm.repr
                        hsimm.idx_eq ?_ ?_ ?_ ?_ ?_ ?_ ?_ hstep
                      · exact hsimm.nodup_n
                      · exact hsimm.nodup_o
                      · intro k hk
                        rcases hsimm.sub_n k hk with h | h
                        · exact hsubnm k h
                        · exact Or.inr (hvac_tc k h)
                      · intro hi hhi
                        rcases hsimm.sub_o hi hhi with h | h
                        · exact hsubom hi h
                        · exact Or.inr h
                      · intro k hlv hknot
                        have hnotm : k ∉ ITree.nidxs (ITree.mk
                            (ITree.idx sc) ((ITree.comp sc).take cl) none
                            none [(old_radix, ITree.mk oc
                              ((ITree.comp sc).drop (cl + 1))
                              (ITree.val sc) (ITree.ov sc) (ITree.prim sc)
                              (ITree.ovch sc))] []) := by
                          intro hk
                          rcases hsubnm k hk with h | h
                          · exact hknot h
                          · exact hlv h
                        rw [hsimm.frame_n k
                          (by rw [hfrn_t k hlv hknot]; exact hlv) hnotm]
                        exact hfrn_t k hlv hknot
                      · intro hi hlv hinot
                        have hnotm : hi ∉ ITree.oidxs (ITree.mk
                            (ITree.idx sc) ((ITree.comp sc).take cl) none
                            none [(old_radix, ITree.mk oc
                              ((ITree.comp sc).drop (cl + 1))
                              (ITree.val sc) (ITree.ov sc) (ITree.prim sc)
                              (ITree.ovch sc))] []) := by
                          intro hk
                          rcases hsubom hi hk with h | h
                          · exact hinot h
                          · exact hlv h
                        exact hsimm.frame_o hi hlv hnotm
                      · exact hsimm.root_eq


/-- A single `set` call: the representation survives and the spec-level
lookup changes exactly at the written key. -/
theorem set_sim {t : OxidArt} {s : ITree} {key : List Nat} {v : Nat}
    {t2 : OxidArt} (h : Rep t s) (hres : t.set key v = some t2) :
    ∃ s2, Rep t2 s2 ∧ t2.root_idx = t.root_idx ∧
      ∀ k, specGet s2 k = if k = key then some v else specGet s k := by
  obtain ⟨hrep, hnd, hod, hroot⟩ := h
  unfold OxidArt.set at hres
  by_cases hk : key.length = 0
  · rw [if_pos hk] at hres
    have hkey : key = [] := List.length_eq_zero.mp hk
    subst hkey
    obtain ⟨cnode, hcn, hcc, hcv⟩ := repr_node hrep
    rw [← hroot, hcn] at hres
    simp only [Option.bind_eq_bind, Option.some_bind] at hres
    injection hres with hres
    subst hres
    have hlive := Slab.lt_length_of_get? (a := cnode) hcn
    have hm : ∀ k, k ≠ ITree.idx s →
        (OxidArt.mk (t.map.setAt (ITree.idx s) (cnode.set_val v))
          t.child_list t.root_idx).try_get_node k = t.try_get_node k := by
      intro k hk2
      show (t.map.setAt (ITree.idx s) (cnode.set_val v)).get? k =
        t.map.get? k
      exact Slab.get?_setAt_ne _ hk2 _
    have hset : (OxidArt.mk (t.map.setAt (ITree.idx s) (cnode.set_val v))
        t.child_list t.root_idx).try_get_node (ITree.idx s) =
        some (cnode.set_val v) := by
      show (t.map.setAt (ITree.idx s) (cnode.set_val v)).get?
        (ITree.idx s) = some (cnode.set_val v)
      exact Slab.get?_setAt_self hlive _
    refine ⟨ITree.withVal s (some v),
      ⟨repr_withVal hrep hnd hcn hm (fun hi => rfl) hset, ?_, ?_, ?_⟩,
      ?_, ?_⟩
    · rw [nidxs_withVal]
      exact hnd
    · rw [oidxs_withVal]
      exact hod
    · exact withVal_idx s (some v)
    · exact hroot
    · intro k
      by_cases hk2 : k = []
      · subst hk2
        rw [if_pos rfl]
        show ITree.val (ITree.withVal s (some v)) = some v
        rw [withVal_val]
      · rw [if_neg hk2]
        have h1 : specGet (ITree.withVal s (some v)) k =
            sGet (k.length + 1) (ITree.withVal s (some v)) k := by
          unfold specGet
          rw [if_neg hk2]
        have h2 : specGet s k = sGet (k.length + 1) s k := by
          unfold specGet
          rw [if_neg hk2]
        rw [h1, h2]
        exact sGet_congr_children (withVal_children s (some v)) _ k
  · rw [if_neg hk, ← hroot] at hres
    obtain ⟨s2, hsim⟩ := set_loop_sim (key.length + 1) t s key v t2 hrep
      hnd hod hres
    have hkey : key ≠ [] := fun h0 => hk (by rw [h0]; rfl)
    refine ⟨s2, ⟨hsim.repr, hsim.nodup_n, hsim.nodup_o, ?_⟩,
      hsim.root_eq, ?_⟩
    · rw [hsim.idx_eq, hsim.root_eq]
      exact hroot
    · intro k
      by_cases hk2 : k = []
      · subst hk2
        rw [if_neg (show ¬([] : List Nat) = key from
          fun h0 => hkey h0.symm)]
        show ITree.val s2 = ITree.val s
        exact hsim.val_eq
      · have h1 : specGet s2 k = sGet (k.length + 1) s2 k := by
          unfold specGet
          rw [if_neg hk2]
        have h2 : specGet s k = sGet (k.length + 1) s k := by
          unfold specGet
          rw [if_neg hk2]
        rw [h1, hsim.get_eq (k.length + 1) k (Nat.lt_succ_self _), ← h2]

theorem lastWrite_not_mem {ps : List (List Nat × Nat)} {k : List Nat}
    (h : k ∉ ps.map Prod.fst) : lastWrite ps k = none := by
  induction ps with
  | nil => rfl
  | cons a rest ih =>
      simp only [List.map_cons, List.mem_cons] at h
      push_neg at h
      show (lastWrite rest k).or (if a.1 = k then some a.2 else none) = none
      rw [ih h.2, if_neg (fun h2 => h.1 h2.symm)]
      rfl

theorem lastWrite_mem {ps : List (List Nat × Nat)} {p : List Nat × Nat}
    (hnd : (ps.map Prod.fst).Nodup) (hp : p ∈ ps) :
    lastWrite ps p.1 = some p.2 := by
  induction ps with
  | nil => simp at hp
  | cons a rest ih =>
      rw [List.map_cons, List.nodup_cons] at hnd
      rcases List.mem_cons.mp hp with hp1 | hp2
      · subst hp1
        show (lastWrite rest p.1).or
          (if p.1 = p.1 then some p.2 else none) = some p.2
        rw [lastWrite_not_mem hnd.1, if_pos rfl]
        rfl
      · show (lastWrite rest p.1).or _ = some p.2
        rw [ih hnd.2 hp2]
        rfl

/-- Folding a sequence of `set` calls: the final engine answers each key
with its last written value, all other keys as before. -/
theorem fold_sim :
    ∀ (pairs : List (List Nat × Nat)) (t : OxidArt) (s : ITree)
      (t2 : OxidArt),
      Rep t s →
      List.foldlM (fun a p => OxidArt.set a p.1 p.2) t pairs = some t2 →
      ∃ s2, Rep t2 s2 ∧
        ∀ k, specGet s2 k = (lastWrite pairs k).or (specGet s k) := by
  intro pairs
  induction pairs with
  | nil =>
      intro t s t2 h hres
      have hres2 : some t = some t2 := hres
      injection hres2 with hres2
      subst hres2
      exact ⟨s, h, fun k => rfl⟩
  | cons a ps ih =>
      intro t s t2 h hres
      have hres2 : (OxidArt.set t a.1 a.2).bind
          (fun t1 => List.foldlM (fun a p => OxidArt.set a p.1 p.2) t1 ps) =
          some t2 := hres
      rw [Option.bind_eq_some] at hres2
      obtain ⟨t1, hset, hfold⟩ := hres2
      obtain ⟨s1, h1, _, hget1⟩ := set_sim h hset
      obtain ⟨s2, h2, hget2⟩ := ih t1 s1 t2 h1 hfold
      refine ⟨s2, h2, ?_⟩
      intro k
      rw [hget2 k, hget1 k]
      show (lastWrite ps k).or (if k = a.1 then some a.2 else specGet s k) =
        ((lastWrite ps k).or (if a.1 = k then some a.2 else none)).or
          (specGet s k)
      cases hlw : lastWrite ps k with
      | some w => rfl
      | none =>
          show (if k = a.1 then some a.2 else specGet s k) =
            ((Option.none).or (if a.1 = k then some a.2 else none)).or
              (specGet s k)
          by_cases hka : k = a.1
          · rw [if_pos hka, if_pos hka.symm]
            rfl
          · rw [if_neg hka, if_neg (fun h0 => hka h0.symm)]
            rfl

/-- The fresh engine represents the childless, value-less root at slot 0. -/
theorem new_rep : Rep OxidArt.new (ITree.mk 0 [] none none [] []) := by
  refine ⟨?_, ?_, ?_, ?_⟩
  · refine ReprP.intro
      (show OxidArt.new.try_get_node 0 = some Node.default from rfl)
      rfl rfl rfl rfl rfl rfl ?_ ?_ <;> intro p hp <;> simp at hp
  · simp [ITree.nidxs, nidxsL]
  · simp [ITree.oidxs, oidxsL]
  · rfl


/-- C1: round-trip — for any sequence of distinct keys with arbitrary
values, when every `set` call succeeds (starting from `new`), `get` returns
the stored value for each written key. -/
theorem C1_round_trip (pairs : List (List Nat × Nat)) (t2 : OxidArt)
    (hnd : (pairs.map Prod.fst).Nodup)
    (hres : List.foldlM (fun a p => OxidArt.set a p.1 p.2) OxidArt.new
      pairs = some t2) :
    ∀ p ∈ pairs, t2.get p.1 = some p.2 := by
  obtain ⟨s2, hrep2, hget⟩ := fold_sim pairs OxidArt.new
    (ITree.mk 0 [] none none [] []) t2 new_rep hres
  intro p hp
  rw [get_sim hrep2.1 hrep2.2.2.2 p.1, hget p.1, lastWrite_mem hnd hp]
  rfl

set_option maxRecDepth 10000 in
theorem C1_round_trip_witness :
    ∃ t2, List.foldlM (fun a p => OxidArt.set a p.1 p.2) OxidArt.new
      [([1, 2], 10), ([1], 20), ([3], 30)] = some t2 ∧
      t2.get [1, 2] = some 10 ∧ t2.get [1] = some 20 ∧
      t2.get [3] = some 30 := by
  cases hfold : List.foldlM (fun a p => OxidArt.set a p.1 p.2) OxidArt.new
      [([1, 2], 10), ([1], 20), ([3], 30)] with
  | none => exact absurd hfold (by decide)
  | some t2 =>
      refine ⟨t2, rfl, ?_, ?_, ?_⟩
      · exact C1_round_trip _ t2 (by decide) hfold ([1, 2], 10) (by decide)
      · exact C1_round_trip _ t2 (by decide) hfold ([1], 20) (by decide)
      · exact C1_round_trip _ t2 (by decide) hfold ([3], 30) (by decide)

end Oxid
